import Mathlib

/-!
The analysis-and-synthesis engine of go-enumerator, `internal/cmd/root.go`.

The generator reads the definitions of a loaded Go package, locates a named
type, collects the constants declared with that type and emits a fixed set of
methods for it.  This development embeds

* the two analysis passes (`findTypeDeclByPosition`, `findConstantsOfType`) as
  folds over the enumerated definitions; a constant whose declaration does not
  type-check is enumerated with an unknown value, as the loader hands it on,
* the identifier allocator `safeIndent` as a total recursive function,
* the function `RunE` of the root command from the loaded package on, up to the
  generated file, with the case tests of package `unicode` as parameters, and
* each `generate…` function as a Lean function that returns the syntax of the
  emitted method (the names of its variables and its switch), together with an
  evaluator that gives the method the meaning the Go language gives it.  A method
  the compiler rejects has no result: a variable that is blank or hides an
  identifier the body needs, a switch with two equal case constants, a literal
  that is no expression or does not fit its type, an identifier that denotes no
  value of the enum type where it stands.  In an accepted method an expression
  switch takes the clause whose case equals the tag, and an identifier denotes
  the innermost declaration of its name, so that the receiver or another
  variable of a method shadows a constant of the same name.

An evaluator speaks for one method.  `unitAccepted` collects the conditions
under which every method of the unit is accepted; the general statements about
what the generated methods return are made under it, the statements at a single
input evaluate the method they name.

Go strings are modelled by `String` (texts holding well-formed UTF-8, which
covers every identifier), `[]byte` by `List Nat`.  The identifiers of the
universe block and the package name that the emitted code uses (`string`,
`byte`, `nil`, `append`, `fmt`, …) denote what they denote there: no
declaration of the package outside the group redeclares them.
-/

namespace GoEnumerator

deriving instance DecidableEq for Except

/-! ## Semantic model: positions, values, objects -/

/-- The part of `token.Position` the generator reads. -/
structure Position where
  filename : String
  offset : Nat
  line : Nat
  deriving DecidableEq, Repr

/-- The kinds of `go/constant`. -/
inductive Kind
  | Unknown
  | Bool
  | String
  | Int
  | Float
  | Complex
  deriving DecidableEq, Repr

/-- The value of a constant (`constant.Value`).  Numeric values are exact, as in
`go/constant`; `unknown` is the value the type checker records for a constant whose
declaration does not type-check (the package loader passes such a package on). -/
inductive Val
  | bool (b : Bool)
  | str (s : String)
  | int (i : Int)
  | float (q : Rat)
  | complex (re im : Rat)
  | unknown
  deriving DecidableEq

/-- The method `constant.Value.Kind()`. -/
def Val.kind : Val → Kind
  | .bool _ => Kind.Bool
  | .str _ => Kind.String
  | .int _ => Kind.Int
  | .float _ => Kind.Float
  | .complex _ _ => Kind.Complex
  | .unknown => Kind.Unknown

/-- A `*types.TypeName`; two of them are the same object when name and position agree. -/
structure TypeName where
  name : String
  pos : Position
  deriving DecidableEq, Repr

/-- What `c.Type()` of a constant can be: a `*types.Named` with its object, or another type. -/
inductive GoType
  | named (obj : TypeName)
  | unnamed
  deriving DecidableEq

/-- A `*types.Const`. -/
structure Const where
  name : String
  typ : GoType
  val : Val
  pos : Position
  deriving DecidableEq

/-- A `types.Object` recorded in `info.Defs`. -/
inductive Object
  | typeName (t : TypeName)
  | const (c : Const)
  | other (name : String) (pos : Position)
  deriving DecidableEq

/-- The position `object.Pos()` resolved through the file set. -/
def Object.position : Object → Position
  | .typeName t => t.pos
  | .const c => c.pos
  | .other _ p => p

/-- The values of `info.Defs` in the order the map iteration yields them; an
entry may be `nil`. -/
abbrev Defs := List (Option Object)

/-! ## Emitted syntax: expression switches and identifiers -/

/-- An expression switch as emitted through `jen.Switch`: clauses of a case
expression and a body, and an optional default clause. -/
structure Switch (α β : Type) where
  cases : List (α × β)
  default : Option β

/-- Runs a switch that the compiler accepted: the body of the first clause, top to bottom,
whose case expression is hit, else the default clause, else nothing (control leaves the
switch).  The evaluators below run a switch only after `noDuplicateCase` has passed its
case constants, as the compiler rejects a switch in which two of them are equal. -/
def Switch.run {α β : Type} (sw : Switch α β) (hit : α → Bool) : Option β :=
  match sw.cases.find? (fun cl => hit cl.1) with
  | some cl => some cl.2
  | none => sw.default

/-- The constant declarations of the package: a name denotes the value of the constant
of the group declared with it. -/
def constEnv (cs : List Const) (name : String) : Option Val :=
  (cs.find? (fun c => c.name == name)).map (fun c => c.val)

/-- The variables declared inside a function (receiver, parameters, locals): the name
and, for a variable of the enum type, its value; a variable of another type holds `none`. -/
abbrev Locals := List (String × Option Val)

/-- What an identifier written with `jen.Id(c.Name())` denotes inside a function body.
The innermost declaration wins: a local variable of that name shadows the constant.
The result is `none` when the identifier does not denote a value of the enum type there
(a local of another type, or no declaration), in which case the function is rejected.
Whether the locals themselves can be declared and read is checked by `usable`. -/
def resolve (locals : Locals) (env : String → Option Val) (name : String) : Option Val :=
  match locals.find? (fun l => l.1 == name) with
  | some l => l.2
  | none => env name

/-! ## What the compiler checks of an emitted method -/

/-- The keywords of Go, as `token.IsKeyword` knows them. -/
def keywords : List String :=
  ["break", "case", "chan", "const", "continue", "default", "defer", "else", "fallthrough",
   "for", "func", "go", "goto", "if", "import", "interface", "map", "package", "range",
   "return", "select", "struct", "switch", "type", "var"]

/-- The test `token.IsKeyword`. -/
def isKeyword (name : String) : Bool := keywords.contains name

/-- Whether a name can stand where the grammar asks for an identifier: it starts with a
letter or an underscore, goes on with letters, digits and underscores, and is no keyword.
Runes outside ASCII are taken for letters. -/
def isIdentifier (name : String) : Bool :=
  match name.toList with
  | [] => false
  | c :: rest =>
    (c.isAlpha || c == '_' || decide (128 ≤ c.toNat))
      && rest.all (fun r => r.isAlphanum || r == '_' || decide (128 ≤ r.toNat))
      && !isKeyword name

/-- Whether the declarations of the group type-check: no constant carries the value of a
declaration that failed to. -/
def declsBuild (cs : List Const) : Bool :=
  cs.all (fun c => c.val.kind != Kind.Unknown)

/-- Whether a variable of an emitted method can be declared and read in its body: its
name is an identifier, not the blank one, and it hides none of the identifiers `outer`
that the body takes from the package or the universe block. -/
def usable (outer : List String) (name : String) : Bool :=
  isIdentifier name && name != "_" && !outer.contains name

/-- The constants among which the compiler looks for duplicate cases of an expression
switch: integer, floating-point and string values. -/
def Val.dupChecked : Val → Bool
  | .int _ => true
  | .float _ => true
  | .str _ => true
  | _ => false

/-- Whether the case constants of an expression switch pass the compiler: no two of the
values it compares are equal. -/
def noDuplicateCase (vs : List Val) : Bool :=
  decide (vs.filter Val.dupChecked).Nodup

/-- The constants that the case identifiers `names` of a switch denote inside a method
with the local variable `receiver`: an identifier hidden by the receiver is no constant. -/
def caseConstants (receiver : String) (env : String → Option Val) (names : List String) :
    List Val :=
  (names.filter (fun n => n != receiver)).filterMap env

/-! ## `Defined` -/

/-- Body emitted by `generateDefinedMethod`, a switch on the receiver: one clause listing
the text `c.Val().ExactString()` of every constant, returning true, and a default clause
returning false.  A text is kept as the value it prints; `readExactString` gives what the
compiler reads from it. -/
def generateDefinedMethod (cs : List Const) : Switch (List Val) Bool :=
  { cases := [(cs.map (fun c => c.val), true)]
    default := some false }

/-- The value the compiler reads from the text `ExactString()` of a value, written as a
case expression of a switch on a value of the enum type.  Integer, text and Boolean values
are read back as they are.  A floating-point value that is no integer is printed as a
fraction `a/b`, which the language reads as a division of two integer constants,
truncated towards zero; in a complex value, printed `(re + imi)`, the real part is read
alike and an imaginary part `a/bi` as the quotient of `a` by `bi`.  The text `unknown` of
an unknown value is no expression. -/
def readExactString : Val → Option Val
  | .bool b => some (.bool b)
  | .str s => some (.str s)
  | .int i => some (.int i)
  | .float q => some (.float (Int.tdiv q.num q.den))
  | .complex re im =>
    some (.complex (Int.tdiv re.num re.den) (if im.den = 1 then im else -im))
  | .unknown => none

/-- The emitted `Defined()` run on receiver value `v`.  There is no result when the
compiler rejects the method: the receiver cannot be read or hides `true` or `false`, the
case list is empty, a text is no expression, or two case constants it compares are
equal. -/
def runDefined (receiver : String) (sw : Switch (List Val) Bool) (v : Val) : Option Bool :=
  let lits := (sw.cases.map (fun cl => cl.1)).flatten
  if usable ["true", "false"] receiver && !lits.isEmpty
      && lits.all (fun l => (readExactString l).isSome)
      && noDuplicateCase (lits.filterMap readExactString) then
    sw.run (fun ls => (ls.filterMap readExactString).contains v)
  else none

/-- The method `Defined()` of the code generated for `cs` with receiver `receiver`,
compiled against the declarations of `cs`. -/
def Defined (receiver : String) (cs : List Const) (v : Val) : Option Bool :=
  if declsBuild cs then runDefined receiver (generateDefinedMethod cs) v else none

/-! ## `Next` -/

/-- The method emitted by `generateNextMethod`: the receiver's name and a switch on it. -/
structure NextMethod where
  receiver : String
  sw : Switch String String

/-- Clause `i` of the switch is `case cs[i]: return cs[(i+1) % len(cs)]`; a default clause
returning `cs[0]` is emitted when the group is not empty. -/
def generateNextMethod (receiver : String) (cs : List Const) : NextMethod :=
  { receiver := receiver
    sw :=
      { cases := cs.enum.map (fun ic =>
          (ic.2.name, ((cs.get? ((ic.1 + 1) % cs.length)).getD ic.2).name))
        default := (cs.head?).map (fun c => c.name) } }

/-- The emitted `Next()` run on receiver value `v`; the identifiers of the clauses are
resolved with the receiver in scope.  There is no result when the compiler rejects the
method: the receiver cannot be read, two case constants it compares are equal, or (for an
empty group) the body has no return. -/
def runNext (env : String → Option Val) (m : NextMethod) (v : Val) : Option Val :=
  if usable [] m.receiver
      && noDuplicateCase (caseConstants m.receiver env (m.sw.cases.map (fun cl => cl.1))) then
    match m.sw.run (fun name => resolve [(m.receiver, some v)] env name == some v) with
    | some name => resolve [(m.receiver, some v)] env name
    | none => none
  else none

/-- The method `Next()` of the code generated for `cs`, compiled against the declarations
of `cs`. -/
def Next (receiver : String) (cs : List Const) (v : Val) : Option Val :=
  if declsBuild cs then runNext (constEnv cs) (generateNextMethod receiver cs) v else none

/-- The method `Next()` applied `n` times. -/
def iterNext (receiver : String) (cs : List Const) : Nat → Val → Option Val
  | 0, v => some v
  | n + 1, v => (Next receiver cs v).bind (iterNext receiver cs n)

/-! ## Runtime library behaviour the emitted code relies on -/

/-- UTF-8 encoding of one code point, as a list of bytes. -/
def encodeRune (r : Nat) : List Nat :=
  if r < 0x80 then [r]
  else if r < 0x800 then [0xC0 + r / 0x40, 0x80 + r % 0x40]
  else if r < 0x10000 then [0xE0 + r / 0x1000, 0x80 + r / 0x40 % 0x40, 0x80 + r % 0x40]
  else [0xF0 + r / 0x40000, 0x80 + r / 0x1000 % 0x40, 0x80 + r / 0x40 % 0x40, 0x80 + r % 0x40]

/-- The conversion `[]byte(s)`: the bytes of a string. -/
def utf8Bytes (s : String) : List Nat :=
  (s.toList.map (fun c => encodeRune c.toNat)).flatten

/-- The table `space` of package `fmt` (scan.go), read by `isSpace`. -/
def spaceRanges : List (Nat × Nat) :=
  [(0x0009, 0x000d), (0x0020, 0x0020), (0x0085, 0x0085), (0x00a0, 0x00a0), (0x1680, 0x1680),
   (0x2000, 0x200a), (0x2028, 0x2029), (0x202f, 0x202f), (0x205f, 0x205f), (0x3000, 0x3000)]

/-- The rune classifier `isSpace` of package `fmt`. -/
def isSpace (c : Char) : Bool :=
  spaceRanges.any (fun rg => rg.1 ≤ c.toNat && c.toNat ≤ rg.2)

/-- What `scanState.Token(true, nil)` yields when `fmt.Sscan` reads from `input`:
leading space is skipped, then runes are taken up to the next space or the end. -/
def scanToken (input : String) : String :=
  String.mk ((input.toList.dropWhile isSpace).takeWhile (fun c => !isSpace c))

/-- The result of `fmt.Sprintf("T(%d)", v)` for type name `typeName` and integer `i`. -/
def sprintfD (typeName : String) (i : Int) : String :=
  typeName ++ "(" ++ toString i ++ ")"

/-- The verb `%v` applied to a byte slice: decimal bytes between brackets. -/
def fmtByteSlice (x : List Nat) : String :=
  "[" ++ " ".intercalate (x.map toString) ++ "]"

/-! ## `String` and `Bytes` -/

/-- The method emitted by `generateStringMethod`. -/
inductive StringMethod
  | cast (receiver : String)
  | dispatch (receiver : String) (sw : Switch String String) (typeName : String)

/-- For kind `constant.String` the method returns `string(recv)`; for every other kind
it is a switch on the receiver with clause `case c: return "c"` per constant, followed by
`return fmt.Sprintf("T(%d)", recv)`. -/
def generateStringMethod (receiver : String) (kind : Kind) (eType : String)
    (cs : List Const) : StringMethod :=
  match kind with
  | Kind.String => StringMethod.cast receiver
  | _ => StringMethod.dispatch receiver
      { cases := cs.map (fun c => (c.name, c.name)), default := none } eType

/-- The emitted `String()` run on receiver value `v`.  There is no result when the
compiler rejects the method: the receiver cannot be read or hides an identifier of the
body (`string` in the conversion, the package `fmt` in the switch form), or two case
constants it compares are equal. -/
def runString (env : String → Option Val) : StringMethod → Val → Option String
  | .cast receiver, v =>
    if usable ["string"] receiver then
      match v with
      | .str s => some s
      | _ => none
    else none
  | .dispatch receiver sw typeName, v =>
    if usable ["fmt"] receiver
        && noDuplicateCase (caseConstants receiver env (sw.cases.map (fun cl => cl.1))) then
      match sw.run (fun name => resolve [(receiver, some v)] env name == some v) with
      | some s => some s
      | none =>
        match v with
        | .int i => some (sprintfD typeName i)
        | _ => none
    else none

/-- The method `String()` of the code generated for `cs`, compiled against the declarations
of `cs`. -/
def String_ (receiver : String) (kind : Kind) (eType : String) (cs : List Const) (v : Val) :
    Option String :=
  if declsBuild cs then runString (constEnv cs) (generateStringMethod receiver kind eType cs) v
  else none

/-- The method emitted by `generateBytesMethod`. -/
inductive BytesMethod
  | cast (receiver : String)
  | dispatch (receiver : String) (sw : Switch String (List Char)) (typeName : String)

/-- The runes the generator's loop over `utf8.DecodeRuneInString` emits for a name:
every rune up to the end of the name or the first `utf8.RuneError`. -/
def nameRunes (n : String) : List Char :=
  n.toList.takeWhile (fun r => r != Char.ofNat 0xFFFD)

/-- For kind `constant.String` the method returns `[]byte(recv)`; for every other kind
it is a switch on the receiver with clause `case c: return []byte{'r1', 'r2', …}` per
constant, followed by `return []byte(fmt.Sprintf("T(%d)", recv))`. -/
def generateBytesMethod (receiver : String) (kind : Kind) (eType : String)
    (cs : List Const) : BytesMethod :=
  match kind with
  | Kind.String => BytesMethod.cast receiver
  | _ => BytesMethod.dispatch receiver
      { cases := cs.map (fun c => (c.name, nameRunes c.name)), default := none } eType

/-- The composite literal `[]byte{'r1', 'r2', …}`: each rune constant has to be
representable as a byte, else the literal is rejected. -/
def byteLiteral (rs : List Char) : Option (List Nat) :=
  if rs.all (fun r => r.toNat < 256) then some (rs.map (fun r => r.toNat)) else none

/-- The emitted `Bytes()` run on receiver value `v`.  There is no result when the
compiler rejects the method: the receiver cannot be read or hides an identifier of the
body (`byte`, and the package `fmt` in the switch form), two case constants it compares
are equal, or a composite literal of the switch is rejected. -/
def runBytes (env : String → Option Val) : BytesMethod → Val → Option (List Nat)
  | .cast receiver, v =>
    if usable ["byte"] receiver then
      match v with
      | .str s => some (utf8Bytes s)
      | _ => none
    else none
  | .dispatch receiver sw typeName, v =>
    if usable ["byte", "fmt"] receiver
        && noDuplicateCase (caseConstants receiver env (sw.cases.map (fun cl => cl.1)))
        && sw.cases.all (fun cl => (byteLiteral cl.2).isSome) then
      match sw.run (fun name => resolve [(receiver, some v)] env name == some v) with
      | some rs => byteLiteral rs
      | none =>
        match v with
        | .int i => some (utf8Bytes (sprintfD typeName i))
        | _ => none
    else none

/-- The method `Bytes()` of the code generated for `cs`, compiled against the declarations
of `cs`. -/
def Bytes (receiver : String) (kind : Kind) (eType : String) (cs : List Const) (v : Val) :
    Option (List Nat) :=
  if declsBuild cs then runBytes (constEnv cs) (generateBytesMethod receiver kind eType cs) v
  else none

/-! ## `Scan` -/

/-- What a pointer-receiver method leaves behind: the returned error (`none` for nil)
and the value the receiver points to afterwards. -/
structure Outcome where
  err : Option String
  recv : Val
  deriving DecidableEq

/-- Clause bodies of the switch in `Scan`. -/
inductive ScanClause
  | assign (name : String)
  | unknown (msg : String)

/-- The method emitted by `generateScanMethod`: the names of the receiver (a pointer), of
the two parameters and of the token variable, and the switch over `string(token)`. -/
structure ScanMethod where
  receiver : String
  scanStateVarName : String
  verbVarName : String
  tokenVarName : String
  sw : Switch String ScanClause

/-- The switch has the clause `case "c": *recv = c` per constant and a default clause
returning `fmt.Errorf("unknown T value: %s", token)`. -/
def generateScanMethod (tn receiver scanStateVarName verbVarName tokenVarName : String)
    (cs : List Const) : ScanMethod :=
  { receiver := receiver
    scanStateVarName := scanStateVarName
    verbVarName := verbVarName
    tokenVarName := tokenVarName
    sw :=
      { cases := cs.map (fun c => (c.name, ScanClause.assign c.name))
        default := some (ScanClause.unknown ("unknown " ++ tn ++ " value: ")) } }

/-- The variables in scope at the switch of `Scan`; none of them is of the enum type
(the receiver is a pointer to it). -/
def ScanMethod.locals (m : ScanMethod) : Locals :=
  [(m.tokenVarName, none), ("err", none), (m.verbVarName, none), (m.scanStateVarName, none),
   (m.receiver, none)]

/-- Whether the compiler accepts the emitted `Scan`: the receiver, the two parameters, the
token variable and the variable `err` of `token, err := …` are declared once each in the
block of the function; the receiver, the scan state and the token can be read and no
variable hides an identifier of the body (`true`, `nil`, `string`, the package `fmt`); no
two case texts are equal; and the right-hand sides of the assignments `*recv = c` all
denote values of the enum type. -/
def ScanMethod.wellTyped (env : String → Option Val) (m : ScanMethod) : Bool :=
  decide [m.receiver, m.scanStateVarName, m.verbVarName, m.tokenVarName, "err"].Nodup
    && [m.receiver, m.scanStateVarName, m.tokenVarName].all
        (usable ["true", "nil", "string", "fmt"])
    && isIdentifier m.verbVarName
    && !(["true", "nil", "string", "fmt"].contains m.verbVarName)
    && decide (m.sw.cases.map (fun cl => cl.1)).Nodup
    && m.sw.cases.all (fun cl =>
      match cl.2 with
      | .assign name => (resolve m.locals env name).isSome
      | .unknown _ => true)

/-- The emitted `Scan` run with `tok` the result of `scanState.Token(true, nil)`: a
failed read is returned as is; otherwise the switch runs and `nil` is returned after it.
There is no result when the method is rejected. -/
def runScan (env : String → Option Val) (m : ScanMethod)
    (tok : Except String String) (recv : Val) : Option Outcome :=
  if m.wellTyped env then
    match tok with
    | .error e => some { err := some e, recv := recv }
    | .ok t =>
      match m.sw.run (fun lit => t == lit) with
      | some (.assign name) =>
        (resolve m.locals env name).map (fun v => { err := none, recv := v })
      | some (.unknown msg) => some { err := some (msg ++ t), recv := recv }
      | none => some { err := none, recv := recv }
  else none

/-- Scanning the text `input` into a receiver holding `recv` with the generated `Scan`. -/
def Scan (tn receiver scanStateVarName verbVarName tokenVarName : String) (cs : List Const)
    (input : String) (recv : Val) : Option Outcome :=
  if declsBuild cs then
    runScan (constEnv cs)
      (generateScanMethod tn receiver scanStateVarName verbVarName tokenVarName cs)
      (.ok (scanToken input)) recv
  else none

/-! ## `MarshalJSON` and `UnmarshalJSON` -/

/-- Body emitted by `generateJsonMarshal`, given the result `x` of `recv.Bytes()`:
`append(append(append(y, '"'), x...), '"')` on an empty `y`, with a nil error.  No
constant is named in it. -/
def generateJsonMarshal (x : List Nat) : List Nat × Option String :=
  ((([] ++ [34]) ++ x) ++ [34], none)

/-- The method `MarshalJSON()` of the code generated for `cs`.  Its two variables are
helper names allocated apart from the receiver; there is no result when the receiver
cannot be read or hides an identifier of the body (`make`, `byte`, `len`, `append`,
`nil`), or when `Bytes()` is rejected. -/
def MarshalJSON (receiver : String) (kind : Kind) (eType : String) (cs : List Const)
    (v : Val) : Option (List Nat × Option String) :=
  if usable ["make", "byte", "len", "append", "nil"] receiver then
    (Bytes receiver kind eType cs v).map generateJsonMarshal
  else none

/-- Clause bodies of the switch in `UnmarshalJSON`. -/
inductive UnmarshalClause
  | assign (name : String)
  | mismatch

/-- The method emitted by `generateJsonUnmarshal`: the names of the receiver (a pointer)
and of the byte slice parameter, and the switch over `string(x)`. -/
structure UnmarshalMethod where
  receiver : String
  varName : String
  sw : Switch String UnmarshalClause

/-- The switch has, per constant, the clause `case "\"c\"": *recv = c; return nil`, and a
default clause returning an error. -/
def generateJsonUnmarshal (receiver : String) (cs : List Const) (varName : String) :
    UnmarshalMethod :=
  { receiver := receiver
    varName := varName
    sw :=
      { cases := cs.map (fun c => ("\"" ++ c.name ++ "\"", UnmarshalClause.assign c.name))
        default := some UnmarshalClause.mismatch } }

/-- The variables in scope at the switch of `UnmarshalJSON`; none is of the enum type. -/
def UnmarshalMethod.locals (m : UnmarshalMethod) : Locals :=
  [(m.varName, none), (m.receiver, none)]

/-- Whether the compiler accepts the emitted `UnmarshalJSON`: the receiver and the
parameter are declared once each, can be read and hide no identifier of the body
(`string`, `nil`, the package `fmt`); no two case texts are equal; and the right-hand
sides of the assignments `*recv = c` all denote values of the enum type. -/
def UnmarshalMethod.wellTyped (env : String → Option Val) (m : UnmarshalMethod) : Bool :=
  decide [m.receiver, m.varName].Nodup
    && [m.receiver, m.varName].all (usable ["string", "nil", "fmt"])
    && decide (m.sw.cases.map (fun cl => cl.1)).Nodup
    && m.sw.cases.all (fun cl =>
      match cl.2 with
      | .assign name => (resolve m.locals env name).isSome
      | .mismatch => true)

/-- The emitted `UnmarshalJSON` run on input bytes `x`; `goType` is what `%T` prints for
the receiver's type.  There is no result when the method is rejected. -/
def runUnmarshal (env : String → Option Val) (goType : String)
    (m : UnmarshalMethod) (x : List Nat) (recv : Val) : Option Outcome :=
  if m.wellTyped env then
    match m.sw.run (fun lit => x == utf8Bytes lit) with
    | some (.assign name) =>
      (resolve m.locals env name).map (fun v => { err := none, recv := v })
    | some .mismatch =>
      some { err := some ("failed to parse value " ++ fmtByteSlice x ++ " into " ++ goType),
             recv := recv }
    | none => none
  else none

/-- The method `UnmarshalJSON(x)` of the code generated for `cs`. -/
def UnmarshalJSON (goType receiver varName : String) (cs : List Const) (x : List Nat)
    (recv : Val) : Option Outcome :=
  if declsBuild cs then
    runUnmarshal (constEnv cs) goType (generateJsonUnmarshal receiver cs varName) x recv
  else none

/-! ## The compile-time check `func _()` -/

/-- An index expression into the array `var x [1]struct{}`. -/
inductive IndexExpr
  | byteDiff (b : Nat) (name : String) (i : Nat)
  | constDiff (name : String) (lit : Val)
  deriving DecidableEq

/-- The index expressions `generateCompileCheckFunction` emits for one constant: for kind
`constant.String`, `byte(b) - c[i]` for every byte `b` at index `i` of the recorded value
(a text, the group being of one kind); for every other kind, the single expression
`c - lit` with the recorded literal. -/
def compileCheckFor (kind : Kind) (c : Const) : List IndexExpr :=
  match kind with
  | Kind.String =>
    match c.val with
    | .str v => (utf8Bytes v).enum.map (fun ib => IndexExpr.byteDiff ib.2 c.name ib.1)
    | _ => []
  | _ => [IndexExpr.constDiff c.name c.val]

/-- The emitted `func _()`: the name of the array variable and the index expressions. -/
structure CompileCheck where
  xVarName : String
  indexes : List IndexExpr

/-- All index expressions of the emitted `func _()`, constant by constant. -/
def generateCompileCheckFunction (xVarName : String) (cs : List Const) (kind : Kind) :
    CompileCheck :=
  { xVarName := xVarName
    indexes := (cs.map (compileCheckFor kind)).flatten }

/-- Value of an index expression inside `func _()`, where the array variable is the one
local, against the current declarations `env`; `none` when the expression itself is
rejected (a constant index past the end of a constant string, a name that does not denote
a constant, operands of different kinds).  Byte arithmetic wraps modulo 256. -/
def IndexExpr.eval (xVarName : String) (env : String → Option Val) : IndexExpr → Option Int
  | .byteDiff b name i =>
    match resolve [(xVarName, none)] env name with
    | some (.str cur) =>
      match (utf8Bytes cur).get? i with
      | some d => some (((b + 256 - d) % 256 : Nat) : Int)
      | none => none
    | _ => none
  | .constDiff name lit =>
    match resolve [(xVarName, none)] env name, lit with
    | some (.int cur), .int l => some (cur - l)
    | _, _ => none

/-- An index expression stays within the bounds of the one-element array. -/
def IndexExpr.inBounds (xVarName : String) (env : String → Option Val) (e : IndexExpr) :
    Bool :=
  match e.eval xVarName env with
  | some k => decide (0 ≤ k) && decide (k < 1)
  | none => false

/-! ## Type locator -/

/-- Failures of the type locator. -/
inductive LocateError
  | notNamedType (closestObject : Object)
  | undetermined
  | notFound (name : String)
  deriving DecidableEq

/-- Loop variables of `findTypeDeclByPosition`. -/
structure LocateState where
  ret : Option TypeName
  closestObject : Option Object
  closest : Int
  deriving DecidableEq

/-- One iteration of the loop over `info.Defs` in `findTypeDeclByPosition`. -/
def locateStep (sameFile : String → String → Bool) (inputFileName : String) (line : Int)
    (st : LocateState) (o : Option Object) : LocateState :=
  match o with
  | none => st
  | some object =>
    let p := object.position
    if !sameFile p.filename inputFileName then st
    else if (p.line : Int) < line || st.closest < (p.line : Int) then st
    else
      match object with
      | .typeName c => { ret := some c, closestObject := some object, closest := (p.line : Int) }
      | _ => { st with ret := none, closestObject := some object }

/-- The function `findTypeDeclByPosition`; `sameFile` stands for the file identity test of
the operating system and `closest` starts at `math.MaxInt32`. -/
def findTypeDeclByPosition (sameFile : String → String → Bool) (defs : Defs)
    (inputFileName : String) (line : Int) : Except LocateError TypeName :=
  let st := defs.foldl (locateStep sameFile inputFileName line)
    { ret := none, closestObject := none, closest := 2147483647 }
  match st.ret with
  | some c => .ok c
  | none =>
    match st.closestObject with
    | some object => .error (LocateError.notNamedType object)
    | none => .error LocateError.undetermined

/-- The function `findTypeDeclByName`: the first enumerated type name called `name`. -/
def findTypeDeclByName (defs : Defs) (name : String) : Except LocateError TypeName :=
  match defs.filterMap (fun o =>
      match o with
      | some (.typeName c) => if c.name != name then none else some c
      | _ => none) with
  | c :: _ => .ok c
  | [] => .error (LocateError.notFound name)

/-- The function `findTypeDecl`. -/
def findTypeDecl (sameFile : String → String → Bool) (defs : Defs)
    (name inputFileName : String) (line : Int) : Except LocateError TypeName :=
  if name != "" then findTypeDeclByName defs name
  else findTypeDeclByPosition sameFile defs inputFileName line

/-! ## Constant collector -/

/-- The filters at the head of the loop body of `findConstantsOfType`: the object is a
constant, its type is a named type, its name is not `_`, and the named type is `obj`. -/
def retained (obj : TypeName) (o : Option Object) : Option Const :=
  match o with
  | some (.const c) =>
    match c.typ with
    | .named t => if c.name == "_" then none else if t != obj then none else some c
    | .unnamed => none
  | _ => none

/-- One iteration of the loop of `findConstantsOfType`; the panic is an error result. -/
def collectStep (obj : TypeName) (st : List Const × Kind) (o : Option Object) :
    Except String (List Const × Kind) :=
  match retained obj o with
  | none => .ok st
  | some c =>
    let k := c.val.kind
    let kind := if st.2 = Kind.Unknown then k else st.2
    if kind ≠ k then .error "multiple constant kinds found"
    else .ok (st.1 ++ [c], kind)

/-- The comparison passed to `sort.Slice`; file names compare lexicographically. -/
def posLess (ip jp : Position) : Bool :=
  decide (ip.filename.toList < jp.filename.toList) ||
    (ip.filename == jp.filename && decide (ip.offset < jp.offset))

/-- The call `sort.Slice(ret, less)`, as an insertion sort: `sort.Slice` promises a sorted
permutation and no stability, so its result is determined where no two keys tie. -/
def sortSlice (less : Const → Const → Bool) (ret : List Const) : List Const :=
  ret.insertionSort (fun a b => less b a = false)

/-- The function `findConstantsOfType`. -/
def findConstantsOfType (defs : Defs) (obj : TypeName) : Except String (List Const × Kind) :=
  match defs.foldlM (collectStep obj) ([], Kind.Unknown) with
  | .error e => .error e
  | .ok (ret, kind) =>
    if ret.length = 0 then .ok ([], Kind.Unknown)
    else .ok (sortSlice (fun a b => posLess a.pos b.pos) ret, kind)

/-! ## Identifier allocator -/

/-- The function `safeIndent`: `want` if it is neither a keyword nor one of `not`, else
the result for `"_" + want`.  A retry lengthens the candidate, and a candidate that
collides is no longer than the keywords and used names taken together. -/
def safeIndent (want : String) (not : List String) : String :=
  if isKeyword want then safeIndent ("_" ++ want) not
  else if not.contains want then safeIndent ("_" ++ want) not
  else want
termination_by ((keywords ++ not).map String.length).sum + 1 - want.length
decreasing_by
  all_goals simp_wf
  · rename_i h
    have hm : want ∈ keywords ++ not :=
      List.mem_append_left _ (by simpa [isKeyword] using h)
    have hle : want.length ≤ ((keywords ++ not).map String.length).sum :=
      List.le_sum_of_mem (List.mem_map_of_mem _ hm)
    simp only [List.map_append, List.sum_append] at hle
    have hone : ("_" : String).length = 1 := rfl
    omega
  · rename_i h
    have hm : want ∈ keywords ++ not :=
      List.mem_append_right _ (by simpa using h)
    have hle : want.length ≤ ((keywords ++ not).map String.length).sum :=
      List.le_sum_of_mem (List.mem_map_of_mem _ hm)
    simp only [List.map_append, List.sum_append] at hle
    have hone : ("_" : String).length = 1 := rfl
    omega

/-- The recursion of `safeIndent` run with a bound on its depth: `none` when `depth`
nested calls did not reach a `return want`. -/
def safeIndentDepth : Nat → String → List String → Option String
  | 0, _, _ => none
  | depth + 1, want, not =>
    if isKeyword want then safeIndentDepth depth ("_" ++ want) not
    else if not.contains want then safeIndentDepth depth ("_" ++ want) not
    else some want

/-- The helper variable names `generateEnumCode` computes. -/
structure HelperNames where
  tokenVarName : String
  stringVarName : String
  scanStateVarName : String
  verbVarName : String
  xVarName : String
  yVarName : String

/-- The head of `generateEnumCode`: each helper name is allocated against the receiver
and the helper names allocated before it. -/
def helperNames (receiver : String) : HelperNames :=
  let tokenVarName := safeIndent "token" [receiver]
  let stringVarName := safeIndent "str" [receiver, tokenVarName]
  let scanStateVarName := safeIndent "scanState" [receiver, tokenVarName, stringVarName]
  let verbVarName :=
    safeIndent "verb" [receiver, tokenVarName, stringVarName, scanStateVarName]
  let xVarName :=
    safeIndent "x" [receiver, tokenVarName, stringVarName, scanStateVarName, verbVarName]
  let yVarName :=
    safeIndent "y"
      [receiver, tokenVarName, stringVarName, scanStateVarName, verbVarName, xVarName]
  { tokenVarName := tokenVarName
    stringVarName := stringVarName
    scanStateVarName := scanStateVarName
    verbVarName := verbVarName
    xVarName := xVarName
    yVarName := yVarName }


/-! ## Receiver name and the generation pass -/

/-- The function `unexportedName`, over the tests of package `unicode` (`isUpper` for
`unicode.IsUpper`, `toLower` for `unicode.ToLower`): `s` itself unless its first rune is
upper case (`ast.IsExported`), else `s` with the first rune replaced by its lower case. -/
def unexportedName (isUpper : Char → Bool) (toLower : Char → Char) (s : String) : String :=
  match s.toList with
  | [] => s
  | start :: rest => if !isUpper start then s else String.mk (toLower start :: rest)

/-- The function `defaultReceiverName`: the unexported form of the first rune of the name
of the type (of `utf8.RuneError` for an empty name). -/
def defaultReceiverName (isUpper : Char → Bool) (toLower : Char → Char) (tn : TypeName) :
    String :=
  match tn.name.toList with
  | [] => unexportedName isUpper toLower (String.mk [Char.ofNat 0xFFFD])
  | s :: _ => unexportedName isUpper toLower (String.mk [s])

/-- The receiver name `RunE` settles on: the value of the flag `receiver`, or the default
name for the type when the flag is empty, passed through `safeIndent`. -/
def chooseReceiver (isUpper : Char → Bool) (toLower : Char → Char) (receiverFlag : String)
    (tn : TypeName) : String :=
  let receiver :=
    if receiverFlag == "" then defaultReceiverName isUpper toLower tn else receiverFlag
  safeIndent receiver []

/-- The methods and the function `generateEnumCode` adds to the generated file, each as
the syntax its generator emits.  `MarshalJSON` has a fixed body, given by `MarshalJSON`
above. -/
structure GeneratedUnit where
  stringMethod : StringMethod
  bytesMethod : BytesMethod
  definedMethod : Switch (List Val) Bool
  scanMethod : ScanMethod
  nextMethod : NextMethod
  compileCheck : CompileCheck
  unmarshalMethod : UnmarshalMethod

/-- The function `generateEnumCode`: the helper names are allocated, then every generator
is called in turn.  No generator of this development fails, so the error recovered by the
deferred function does not arise. -/
def generateEnumCode (tn : TypeName) (cs : List Const) (kind : Kind) (receiver : String) :
    GeneratedUnit :=
  let h := helperNames receiver
  { stringMethod := generateStringMethod receiver kind tn.name cs
    bytesMethod := generateBytesMethod receiver kind tn.name cs
    definedMethod := generateDefinedMethod cs
    scanMethod :=
      generateScanMethod tn.name receiver h.scanStateVarName h.verbVarName h.tokenVarName cs
    nextMethod := generateNextMethod receiver cs
    compileCheck := generateCompileCheckFunction h.xVarName cs kind
    unmarshalMethod := generateJsonUnmarshal receiver cs h.xVarName }

/-- The verb `%q` of package `fmt` on the name of a type: an identifier holds neither a
quote, a backslash nor an unprintable rune, so it is put between double quotes as it
is. -/
def fmtQ (s : String) : String := "\"" ++ s ++ "\""

/-- Ways `RunE` ends without a generated file, from the located package on. -/
inductive RunError
  | locate (e : LocateError)
  | crashed (msg : String)
  | failed (msg : String)
  deriving DecidableEq

/-- The function `RunE` of the root command from the loaded package on, up to the
generated file: `defs` are the definitions of the package, `typeName`, `inputFileName`,
`line` and `receiverFlag` the resolved parameters.  A failure of `findTypeDecl` is
returned (`locate`), the uncaught failure of `findConstantsOfType` ends the run
(`crashed`), an empty list of constants is the error `failed`; `generateEnumCode` is
called only past that test. -/
def RunE (sameFile : String → String → Bool) (isUpper : Char → Bool) (toLower : Char → Char)
    (defs : Defs) (typeName inputFileName : String) (line : Int) (receiverFlag : String) :
    Except RunError GeneratedUnit :=
  match findTypeDecl sameFile defs typeName inputFileName line with
  | .error e => .error (RunError.locate e)
  | .ok tn =>
    let receiver := chooseReceiver isUpper toLower receiverFlag tn
    match findConstantsOfType defs tn with
    | .error msg => .error (RunError.crashed msg)
    | .ok (vs, kind) =>
      if vs.length == 0 then
        .error (RunError.failed ("no constants of type " ++ fmtQ tn.name ++ " found"))
      else .ok (generateEnumCode tn vs kind receiver)

/-! ## When the compiler accepts the generated unit -/

/-- The identifiers that the generated file takes from the universe block and from its
import.  A variable of a generated method that bears one of these names hides it in the
body of the method, and a constant of the package that bears one hides it in the whole
file. -/
def usedIdentifiers : List String :=
  ["true", "false", "nil", "string", "byte", "rune", "bool", "error", "fmt", "make", "len",
   "append"]

/-- The variables of the generated methods: the receiver, the helper names that occur in
the methods and the fixed `err` of `Scan`. -/
def methodVariables (receiver : String) (h : HelperNames) : List String :=
  [receiver, h.scanStateVarName, h.verbVarName, h.tokenVarName, "err", h.xVarName, h.yVarName]

/-- Conditions on the input of `generateEnumCode`, with receiver `receiver` and helper
names `h`, under which the compiler accepts every method of the generated unit: the group
is not empty and of Integer or Text kind, each constant of that kind; names are pairwise
distinct and so are values (no duplicate case); the variables of the methods are pairwise
distinct identifiers written in ASCII, none blank and none hiding an identifier the bodies
use; no constant is named like a variable of a method, like an identifier the file uses
or `_`; and, for an Integer-kind group, every rune of a name fits a byte (the byte
literals of `Bytes()`). -/
def unitAccepted (receiver : String) (h : HelperNames) (kind : Kind) (cs : List Const) :
    Bool :=
  !cs.isEmpty
    && (kind == Kind.Int || kind == Kind.String)
    && cs.all (fun c => c.val.kind == kind)
    && decide (cs.map (fun c => c.name)).Nodup
    && decide (cs.map (fun c => c.val)).Nodup
    && decide (methodVariables receiver h).Nodup
    && (methodVariables receiver h).all (usable usedIdentifiers)
    && (methodVariables receiver h).all
        (fun n => n.toList.all (fun ch => decide (ch.toNat < 128)))
    && cs.all (fun c =>
        !(methodVariables receiver h).contains c.name && !usedIdentifiers.contains c.name
          && c.name != "_")
    && (kind == Kind.String
        || cs.all (fun c => c.name.toList.all (fun ch => decide (ch.toNat < 256))))
/-! ## Concrete groups -/

/-- The type `Kind` of `example/example.go`. -/
def kindType : TypeName :=
  { name := "Kind", pos := { filename := "example.go", offset := 70, line := 5 } }

/-- The type `StrKind` of `example/example.go`. -/
def strKindType : TypeName :=
  { name := "StrKind", pos := { filename := "example.go", offset := 180, line := 14 } }

/-- The constant `Kind1 Kind = iota` of `example/example.go`. -/
def kind1 : Const :=
  { name := "Kind1", typ := .named kindType, val := .int 0,
    pos := { filename := "example.go", offset := 90, line := 8 } }

/-- The constant `Kind2` of `example/example.go`. -/
def kind2 : Const :=
  { name := "Kind2", typ := .named kindType, val := .int 1,
    pos := { filename := "example.go", offset := 109, line := 9 } }

/-- The Integer-kind group of `example/example.go`: `Kind1 = 0`, `Kind2 = 1`. -/
def kindGroup : List Const := [kind1, kind2]

/-- The constant `Hello StrKind = "Hello"` of `example/example.go`. -/
def hello : Const :=
  { name := "Hello", typ := .named strKindType, val := .str "Hello",
    pos := { filename := "example.go", offset := 200, line := 17 } }

/-- The constant `World StrKind = "World"` of `example/example.go`. -/
def world : Const :=
  { name := "World", typ := .named strKindType, val := .str "World",
    pos := { filename := "example.go", offset := 226, line := 18 } }

/-- The Text-kind group of `example/example.go`: `Hello = "Hello"`, `World = "World"`. -/
def strKindGroup : List Const := [hello, world]

/-- An Integer-kind group with an alias: `A = 0`, `B = 0`, `C = 1`. -/
def aliasGroup : List Const :=
  [{ name := "A", typ := .named kindType, val := .int 0,
     pos := { filename := "example.go", offset := 90, line := 8 } },
   { name := "B", typ := .named kindType, val := .int 0,
     pos := { filename := "example.go", offset := 109, line := 9 } },
   { name := "C", typ := .named kindType, val := .int 1,
     pos := { filename := "example.go", offset := 128, line := 10 } }]

/-- A Text-kind group whose constant is not spelled like its value: `Hello = "hello"`. -/
def lowerGroup : List Const :=
  [{ name := "Hello", typ := .named strKindType, val := .str "hello",
     pos := { filename := "example.go", offset := 200, line := 17 } }]

/-- The declarations after the source was edited without regenerating: `Hello` now
stands for `"Hello!"`. -/
def driftedGroup : List Const :=
  [{ name := "Hello", typ := .named strKindType, val := .str "Hello!",
     pos := { filename := "example.go", offset := 200, line := 17 } },
   { name := "World", typ := .named strKindType, val := .str "World",
     pos := { filename := "example.go", offset := 227, line := 18 } }]

/-- File identity by name: two equal names denote the same file. -/
def sameName (a b : String) : Bool := a == b

/-- A variable declared on line 4 of `example.go`. -/
def varOnLine4 : Object := .other "v" { filename := "example.go", offset := 40, line := 4 }

/-- A type declared on line 6 of `example.go`. -/
def typeOnLine6 : TypeName :=
  { name := "T", pos := { filename := "example.go", offset := 60, line := 6 } }

/-- The definitions of `example/example.go`, in one order of enumeration. -/
def exampleDefs : Defs :=
  [some (.const kind2), none, some (.typeName strKindType), some (.const hello),
   some (.typeName kindType), some (.const world), some (.const kind1)]

/-- The constant of the declaration `A StrKind = 0` added to `example/example.go`: it does
not type-check, and the type checker records the constant with an unknown value. -/
def illTyped : Const :=
  { name := "A", typ := .named strKindType, val := .unknown,
    pos := { filename := "example.go", offset := 190, line := 16 } }

/-- An Integer-kind group whose constant has a name outside ASCII: `É = 0`. -/
def accentGroup : List Const :=
  [{ name := "É", typ := .named kindType, val := .int 0,
     pos := { filename := "example.go", offset := 90, line := 8 } }]

/-- An Integer-kind group of type `Kind` with a constant named like the default receiver
of that type: `k = 0`, `other = 1`. -/
def shadowGroup : List Const :=
  [{ name := "k", typ := .named kindType, val := .int 0,
     pos := { filename := "example.go", offset := 90, line := 8 } },
   { name := "other", typ := .named kindType, val := .int 1,
     pos := { filename := "example.go", offset := 105, line := 9 } }]

/-- An Integer-kind group whose constant has a name of a rune beyond one byte: `世 = 0`. -/
def wideGroup : List Const :=
  [{ name := "世", typ := .named kindType, val := .int 0,
     pos := { filename := "example.go", offset := 90, line := 8 } }]

/-- A type declared on line 2147483648 of `example.go`, one past `math.MaxInt32`. -/
def typeOnFarLine : TypeName :=
  { name := "T", pos := { filename := "example.go", offset := 4294967296, line := 2147483648 } }

/-- A type declared on line 2147483647 of `example.go`, which is `math.MaxInt32`. -/
def typeOnLastLine : TypeName :=
  { name := "T", pos := { filename := "example.go", offset := 4294967294, line := 2147483647 } }

/-- The type `Level` of a package with log levels. -/
def levelType : TypeName :=
  { name := "Level", pos := { filename := "level.go", offset := 20, line := 3 } }

/-- An Integer-kind group of log levels: `debug = 0`, `info = 1`, `warn = 2`, `err = 3`. -/
def levelGroup : List Const :=
  [{ name := "debug", typ := .named levelType, val := .int 0,
     pos := { filename := "level.go", offset := 50, line := 6 } },
   { name := "info", typ := .named levelType, val := .int 1,
     pos := { filename := "level.go", offset := 70, line := 7 } },
   { name := "warn", typ := .named levelType, val := .int 2,
     pos := { filename := "level.go", offset := 80, line := 8 } },
   { name := "err", typ := .named levelType, val := .int 3,
     pos := { filename := "level.go", offset := 90, line := 9 } }]

/-- The type `Axis` of a package with coordinate axes. -/
def axisType : TypeName :=
  { name := "Axis", pos := { filename := "axis.go", offset := 20, line := 3 } }

/-- An Integer-kind group of axes: `x = 0`, `y = 1`, `z = 2`. -/
def axisGroup : List Const :=
  [{ name := "x", typ := .named axisType, val := .int 0,
     pos := { filename := "axis.go", offset := 50, line := 6 } },
   { name := "y", typ := .named axisType, val := .int 1,
     pos := { filename := "axis.go", offset := 60, line := 7 } },
   { name := "z", typ := .named axisType, val := .int 2,
     pos := { filename := "axis.go", offset := 70, line := 8 } }]


/-- A group of type `Kind` with the single constant `k = 0`, named like the default
receiver of that type. -/
def soloGroup : List Const :=
  [{ name := "k", typ := .named kindType, val := .int 0,
     pos := { filename := "example.go", offset := 90, line := 8 } }]

/-- The placeholder constant `_ Kind = 0`. -/
def blankConst : Const :=
  { name := "_", typ := .named kindType, val := .int 0,
    pos := { filename := "example.go", offset := 90, line := 8 } }

/-- Definitions of a package in which the type `Kind` has no constant to enumerate: the
type, a placeholder `_` of that type and the constant `Hello` of another type. -/
def emptyEnumDefs : Defs :=
  [some (.typeName kindType), some (.const blankConst), none, some (.const hello)]

/-- The helper names `generateEnumCode` allocates for a receiver that is none of them. -/
def plainHelpers : HelperNames :=
  { tokenVarName := "token"
    stringVarName := "str"
    scanStateVarName := "scanState"
    verbVarName := "verb"
    xVarName := "x"
    yVarName := "y" }

/-- The type `Ratio` of a package with a floating-point enum. -/
def ratioType : TypeName :=
  { name := "Ratio", pos := { filename := "ratio.go", offset := 20, line := 3 } }

/-- A Float-kind group: `Half Ratio = 0.5`. -/
def halfGroup : List Const :=
  [{ name := "Half", typ := .named ratioType, val := .float (1 / 2),
     pos := { filename := "ratio.go", offset := 50, line := 6 } }]
/-! ## Shared lemmas -/

theorem find?_unique {α : Type} (p : α → Bool) (l : List α) (x : α) (hx : x ∈ l)
    (hp : p x = true) (hu : ∀ y ∈ l, p y = true → y = x) : l.find? p = some x := by
  induction l with
  | nil => cases hx
  | cons a t ih =>
    by_cases ha : p a = true
    · have : a = x := hu a (List.mem_cons_self _ _) ha
      subst this
      simp [List.find?, ha]
    · have hne : x ≠ a := fun h => ha (h ▸ hp)
      have hxt : x ∈ t := by
        rcases List.mem_cons.mp hx with h | h
        · exact absurd h hne
        · exact h
      have := ih hxt (fun y hy => hu y (List.mem_cons_of_mem _ hy))
      simp [List.find?, ha, this]

theorem constEnv_of_mem (cs : List Const) (hn : (cs.map (fun c => c.name)).Nodup)
    (c : Const) (hc : c ∈ cs) : constEnv cs c.name = some c.val := by
  unfold constEnv
  have h := find?_unique (fun d => d.name == c.name) cs c hc (by simp) (by
    intro y hy hy'
    have := List.inj_on_of_nodup_map hn hy hc
    exact this (by simpa using hy'))
  rw [h]; rfl

theorem constEnv_some (cs : List Const) (n : String) (v : Val) (h : constEnv cs n = some v) :
    ∃ c ∈ cs, c.name = n ∧ c.val = v := by
  unfold constEnv at h
  cases hf : cs.find? (fun c => c.name == n) with
  | none => rw [hf] at h; cases h
  | some d =>
    rw [hf] at h
    have hm := List.mem_of_find?_eq_some hf
    have hp := List.find?_some hf
    exact ⟨d, hm, by simpa using hp, by simpa using h⟩

theorem find?_congr_mem {α : Type} (p q : α → Bool) (l : List α)
    (h : ∀ x ∈ l, p x = q x) : l.find? p = l.find? q := by
  induction l with
  | nil => rfl
  | cons a t ih =>
    have ha : p a = q a := h a (List.mem_cons_self _ _)
    have ht := ih (fun x hx => h x (List.mem_cons_of_mem _ hx))
    simp only [List.find?, ha, ht]

/-- An identifier that is not the name of a local denotes the constant. -/
theorem resolve_of_not_local (locals : Locals) (env : String → Option Val) (name : String)
    (h : ∀ l ∈ locals, l.1 ≠ name) : resolve locals env name = env name := by
  unfold resolve
  have hnone : locals.find? (fun l => l.1 == name) = none := by
    rw [List.find?_eq_none]
    intro l hl hp
    exact h l hl (by simpa using hp)
  rw [hnone]

/-- Where no constant is named like the receiver, the name of a constant denotes the
constant inside a method with a value receiver. -/
theorem resolve_receiver_const (receiver : String) (v : Val) (cs : List Const)
    (hr : ∀ d ∈ cs, d.name ≠ receiver) (d : Const) (hd : d ∈ cs) :
    resolve [(receiver, some v)] (constEnv cs) d.name = constEnv cs d.name := by
  apply resolve_of_not_local
  intro l hl
  rw [List.mem_singleton] at hl
  rw [hl]
  exact fun h => hr d hd h.symm

/-- Where no constant is named like the receiver, the clause a switch on the receiver
takes is found by comparing the constants with the receiver value. -/
theorem find?_resolve_eq {β : Type} (receiver : String) (cs : List Const)
    (hr : ∀ d ∈ cs, d.name ≠ receiver) (v : Val) (l : List (String × β))
    (hl : ∀ cl ∈ l, ∃ d ∈ cs, d.name = cl.1) :
    l.find? (fun cl => resolve [(receiver, some v)] (constEnv cs) cl.1 == some v)
      = l.find? (fun cl => constEnv cs cl.1 == some v) := by
  apply find?_congr_mem
  intro cl hcl
  obtain ⟨d, hd, hname⟩ := hl cl hcl
  rw [← hname, resolve_receiver_const receiver v cs hr d hd]

theorem names_of_map {β : Type} (cs : List Const) (g : Const → β) :
    ∀ cl ∈ cs.map (fun d => (d.name, g d)), ∃ d ∈ cs, d.name = cl.1 := by
  intro cl hcl
  obtain ⟨d, hd, rfl⟩ := List.mem_map.mp hcl
  exact ⟨d, hd, rfl⟩

/-- A group whose constants all have a known kind type-checks. -/
theorem declsBuild_of_known (cs : List Const)
    (hknown : ∀ d ∈ cs, d.val.kind ≠ Kind.Unknown) : declsBuild cs = true := by
  simp only [declsBuild, List.all_eq_true, bne_iff_ne]
  exact hknown

/-- A name that can be used against a list of outer identifiers can be used against a
part of it. -/
theorem usable_mono (outer part : List String) (name : String)
    (hsub : ∀ n ∈ part, n ∈ outer) (h : usable outer name = true) :
    usable part name = true := by
  simp only [usable, Bool.and_eq_true, bne_iff_ne, ne_eq, Bool.not_eq_true'] at h ⊢
  refine ⟨h.1, ?_⟩
  have hout : ¬ name ∈ outer := by simpa using h.2
  have hpart : ¬ name ∈ part := fun hm => hout (hsub _ hm)
  simpa using hpart

/-- A name that can be used is an identifier, is not blank and is none of the outer
identifiers. -/
theorem usable_spec (outer : List String) (name : String) (h : usable outer name = true) :
    isIdentifier name = true ∧ name ≠ "_" ∧ name ∉ outer := by
  simp only [usable, Bool.and_eq_true, bne_iff_ne, ne_eq, Bool.not_eq_true'] at h
  exact ⟨h.1.1, h.1.2, by simpa using h.2⟩

/-- Pairwise distinct case constants pass the duplicate check. -/
theorem noDuplicateCase_of_nodup (vs : List Val) (h : vs.Nodup) :
    noDuplicateCase vs = true := by
  simp only [noDuplicateCase, decide_eq_true_eq]
  exact h.filter _

/-- Where names are distinct and none is the receiver, the case identifiers of a switch
labelled by the names of the group denote the values of the group. -/
theorem caseConstants_labels {β : Type} (receiver : String) (cs : List Const)
    (hn : (cs.map (fun c => c.name)).Nodup) (hr : ∀ d ∈ cs, d.name ≠ receiver)
    (g : Const → β) :
    caseConstants receiver (constEnv cs)
        ((cs.map (fun d => (d.name, g d))).map (fun cl => cl.1))
      = cs.map (fun c => c.val) := by
  unfold caseConstants
  rw [List.map_map]
  have hfil : (cs.map ((fun cl : String × β => cl.1) ∘ fun d => (d.name, g d))).filter
      (fun n => n != receiver)
      = cs.map ((fun cl : String × β => cl.1) ∘ fun d => (d.name, g d)) := by
    rw [List.filter_eq_self]
    intro n hmem
    obtain ⟨d, hd, rfl⟩ := List.mem_map.mp hmem
    simpa using hr d hd
  rw [hfil, List.filterMap_map, ← List.filterMap_eq_map]
  apply List.filterMap_congr
  intro d hd
  exact constEnv_of_mem cs hn d hd

/-- Where names and values are distinct and no constant is named like the receiver, a
switch labelled by the names of the group passes the duplicate check. -/
theorem noDuplicateCase_labels {β : Type} (receiver : String) (cs : List Const)
    (hn : (cs.map (fun c => c.name)).Nodup) (hv : (cs.map (fun c => c.val)).Nodup)
    (hr : ∀ d ∈ cs, d.name ≠ receiver) (g : Const → β) :
    noDuplicateCase (caseConstants receiver (constEnv cs)
        ((cs.map (fun d => (d.name, g d))).map (fun cl => cl.1))) = true := by
  rw [caseConstants_labels receiver cs hn hr g]
  exact noDuplicateCase_of_nodup _ hv

/-- A value of Integer, Text or Boolean kind is read back from its text as it is. -/
theorem readExactString_of_kind (v : Val)
    (hk : v.kind = Kind.Int ∨ v.kind = Kind.String ∨ v.kind = Kind.Bool) :
    readExactString v = some v := by
  cases v <;> simp [Val.kind] at hk <;> rfl

/-- For a non-empty group of Integer, Text or Boolean kind with pairwise distinct values
and a receiver that can be used beside `true` and `false`, the generated `Defined`
returns a result on every value: true exactly on the values of the constants. -/
theorem Defined_iff (receiver : String) (cs : List Const) (hne : cs ≠ [])
    (huse : usable ["true", "false"] receiver = true)
    (hk : ∀ d ∈ cs, d.val.kind = Kind.Int ∨ d.val.kind = Kind.String ∨ d.val.kind = Kind.Bool)
    (hv : (cs.map (fun c => c.val)).Nodup) (v : Val) :
    ∃ b, Defined receiver cs v = some b ∧ (b = true ↔ ∃ c ∈ cs, c.val = v) := by
  have hknown : ∀ d ∈ cs, d.val.kind ≠ Kind.Unknown := by
    intro d hd h
    rcases hk d hd with h1 | h1 | h1 <;> rw [h] at h1 <;> cases h1
  have hread : (cs.map (fun c => c.val)).filterMap readExactString = cs.map (fun c => c.val) := by
    rw [List.filterMap_map, ← List.filterMap_eq_map]
    apply List.filterMap_congr
    intro d hd
    exact readExactString_of_kind d.val (hk d hd)
  have hall : (cs.map (fun c => c.val)).all (fun l => (readExactString l).isSome) = true := by
    rw [List.all_eq_true]
    intro l hl
    obtain ⟨d, hd, rfl⟩ := List.mem_map.mp hl
    rw [readExactString_of_kind d.val (hk d hd)]
    rfl
  have hempty : (cs.map (fun c => c.val)).isEmpty = false := by
    cases cs with
    | nil => exact absurd rfl hne
    | cons a t => rfl
  refine ⟨(cs.map (fun c => c.val)).contains v, ?_, ?_⟩
  · simp only [Defined, declsBuild_of_known cs hknown, if_true, runDefined,
      generateDefinedMethod, List.map_cons, List.map_nil, List.flatten_cons, List.flatten_nil,
      List.append_nil, huse, hempty, hall, hread, noDuplicateCase_of_nodup _ hv,
      Bool.not_false, Bool.and_self, Switch.run, List.find?]
    by_cases h : (cs.map (fun c => c.val)).contains v = true
    · simp only [h]
    · have h' : (cs.map (fun c => c.val)).contains v = false := by simpa using h
      simp only [h']
  · simp only [List.contains_iff_exists_mem_beq, List.mem_map, beq_iff_eq]
    constructor
    · rintro ⟨a, ⟨c, hc, rfl⟩, h⟩
      exact ⟨c, hc, h.symm⟩
    · rintro ⟨c, hc, rfl⟩
      exact ⟨c.val, ⟨c, hc, rfl⟩, rfl⟩

/-- The case identifiers of the switch of `Next` are the names of the group. -/
theorem Next_labels_ok (receiver : String) (cs : List Const)
    (hn : (cs.map (fun c => c.name)).Nodup) (hv : (cs.map (fun c => c.val)).Nodup)
    (hr : ∀ d ∈ cs, d.name ≠ receiver) :
    noDuplicateCase (caseConstants receiver (constEnv cs)
      ((cs.enum.map (fun ic =>
        (ic.2.name, ((cs.get? ((ic.1 + 1) % cs.length)).getD ic.2).name))).map
          (fun cl => cl.1))) = true := by
  have hlab : (cs.enum.map (fun ic =>
      (ic.2.name, ((cs.get? ((ic.1 + 1) % cs.length)).getD ic.2).name))).map (fun cl => cl.1)
      = (cs.map (fun d => (d.name, d.name))).map (fun cl => cl.1) := by
    rw [List.map_map, List.map_map]
    have h1 : ((fun cl : String × String => cl.1) ∘ fun ic : Nat × Const =>
        (ic.2.name, ((cs.get? ((ic.1 + 1) % cs.length)).getD ic.2).name))
        = (fun c : Const => c.name) ∘ Prod.snd := rfl
    rw [h1, ← List.map_map, List.enum_map_snd]
    rfl
  rw [hlab]
  exact noDuplicateCase_labels receiver cs hn hv hr _

/-- For a group that passes the compiler (known kinds, distinct names and values, a
receiver that can be used and is the name of no constant), the generated `Next` is the
run of its switch. -/
theorem Next_builds (receiver : String) (cs : List Const)
    (hknown : ∀ d ∈ cs, d.val.kind ≠ Kind.Unknown) (huse : usable [] receiver = true)
    (hn : (cs.map (fun c => c.name)).Nodup) (hv : (cs.map (fun c => c.val)).Nodup)
    (hr : ∀ d ∈ cs, d.name ≠ receiver) (v : Val) :
    Next receiver cs v =
      match ((cs.enum.map (fun ic =>
          (ic.2.name, ((cs.get? ((ic.1 + 1) % cs.length)).getD ic.2).name))).find?
          (fun cl => resolve [(receiver, some v)] (constEnv cs) cl.1 == some v)) with
      | some cl => resolve [(receiver, some v)] (constEnv cs) cl.2
      | none =>
        match (cs.head?).map (fun c => c.name) with
        | some name => resolve [(receiver, some v)] (constEnv cs) name
        | none => none := by
  simp only [Next, declsBuild_of_known cs hknown, if_true, runNext, generateNextMethod,
    huse, Next_labels_ok receiver cs hn hv hr, Bool.and_self, Switch.run]
  cases (cs.enum.map (fun ic =>
      (ic.2.name, ((cs.get? ((ic.1 + 1) % cs.length)).getD ic.2).name))).find?
      (fun cl => resolve [(receiver, some v)] (constEnv cs) cl.1 == some v) with
  | some cl => rfl
  | none =>
    cases cs.head? with
    | none => rfl
    | some c => rfl

/-- The clause the generated `Next` takes on the value of the constant at index `N`, and
the value it returns, for a group with pairwise distinct names and values. -/
theorem Next_at (receiver : String) (cs : List Const)
    (hknown : ∀ d ∈ cs, d.val.kind ≠ Kind.Unknown) (huse : usable [] receiver = true)
    (hn : (cs.map (fun c => c.name)).Nodup) (hv : (cs.map (fun c => c.val)).Nodup)
    (hr : ∀ d ∈ cs, d.name ≠ receiver) (N : Nat) (c : Const) (hc : cs[N]? = some c) :
    ∃ d, cs[(N + 1) % cs.length]? = some d ∧ Next receiver cs c.val = some d.val := by
  have hN : N < cs.length := by
    rcases Nat.lt_or_ge N cs.length with h | h
    · exact h
    · rw [List.getElem?_eq_none h] at hc; cases hc
  have hlt : (N + 1) % cs.length < cs.length := Nat.mod_lt _ (by omega)
  have hcm : c ∈ cs := List.mem_iff_getElem?.mpr ⟨_, hc⟩
  refine ⟨cs[(N + 1) % cs.length], List.getElem?_eq_getElem hlt, ?_⟩
  have hdm : cs[(N + 1) % cs.length] ∈ cs := List.getElem_mem _
  have hl : ∀ cl ∈ cs.enum.map (fun ic =>
      (ic.2.name, ((cs.get? ((ic.1 + 1) % cs.length)).getD ic.2).name)),
      ∃ d ∈ cs, d.name = cl.1 := by
    intro cl hcl
    obtain ⟨⟨i, d⟩, hid, rfl⟩ := List.mem_map.mp hcl
    exact ⟨d, List.mem_iff_getElem?.mpr ⟨i, List.mk_mem_enum_iff_getElem?.mp hid⟩, rfl⟩
  have hf := find?_unique (fun cl : String × String => constEnv cs cl.1 == some c.val)
    (cs.enum.map (fun ic =>
      (ic.2.name, ((cs.get? ((ic.1 + 1) % cs.length)).getD ic.2).name)))
    (c.name, cs[(N + 1) % cs.length].name)
    (by
      refine List.mem_map.mpr ⟨(N, c), List.mk_mem_enum_iff_getElem?.mpr hc, ?_⟩
      simp [List.getElem?_eq_getElem hlt])
    (by simp [constEnv_of_mem cs hn c hcm])
    (by
      intro y hy hp
      obtain ⟨⟨i, d⟩, hid, rfl⟩ := List.mem_map.mp hy
      have hid' : cs[i]? = some d := List.mk_mem_enum_iff_getElem?.mp hid
      have hd : d ∈ cs := List.mem_iff_getElem?.mpr ⟨_, hid'⟩
      have hval : d.val = c.val := by
        simpa [constEnv_of_mem cs hn d hd] using hp
      have hi : i < cs.length := by
        rcases Nat.lt_or_ge i cs.length with h | h
        · exact h
        · rw [List.getElem?_eq_none h] at hid'; cases hid'
      have hiN : i = N := by
        refine List.getElem?_inj ?_ hv ?_
        · simpa using hi
        · simp [hid', hc, hval]
      have hdc : d = c := by
        subst hiN; rw [hid'] at hc; exact Option.some.inj hc
      subst hiN; subst hdc
      simp [List.getElem?_eq_getElem hlt])
  rw [Next_builds receiver cs hknown huse hn hv hr]
  simp only [find?_resolve_eq receiver cs hr c.val _ hl, hf]
  rw [resolve_receiver_const receiver c.val cs hr _ hdm]
  exact constEnv_of_mem cs hn _ hdm

/-- On a value no constant of the group has, the generated `Next` takes the default
clause and returns the first constant. -/
theorem Next_undefined (receiver : String) (cs : List Const)
    (hknown : ∀ d ∈ cs, d.val.kind ≠ Kind.Unknown) (huse : usable [] receiver = true)
    (hn : (cs.map (fun c => c.name)).Nodup) (hv : (cs.map (fun c => c.val)).Nodup)
    (hr : ∀ d ∈ cs, d.name ≠ receiver) (v : Val) (hu : ∀ d ∈ cs, d.val ≠ v) :
    Next receiver cs v = cs.head?.map (fun c => c.val) := by
  have hl : ∀ cl ∈ cs.enum.map (fun ic =>
      (ic.2.name, ((cs.get? ((ic.1 + 1) % cs.length)).getD ic.2).name)),
      ∃ d ∈ cs, d.name = cl.1 := by
    intro cl hcl
    obtain ⟨⟨i, d⟩, hid, rfl⟩ := List.mem_map.mp hcl
    exact ⟨d, List.mem_iff_getElem?.mpr ⟨i, List.mk_mem_enum_iff_getElem?.mp hid⟩, rfl⟩
  have hnone : (cs.enum.map (fun ic =>
      (ic.2.name, ((cs.get? ((ic.1 + 1) % cs.length)).getD ic.2).name))).find?
      (fun cl : String × String => constEnv cs cl.1 == some v) = none := by
    rw [List.find?_eq_none]
    intro y _ hp
    have hp' : constEnv cs y.1 = some v := by simpa using hp
    obtain ⟨d, hd, _, hdv⟩ := constEnv_some cs y.1 v hp'
    exact hu d hd hdv
  rw [Next_builds receiver cs hknown huse hn hv hr]
  simp only [find?_resolve_eq receiver cs hr v _ hl, hnone]
  cases cs with
  | nil => rfl
  | cons a t =>
    simp only [List.head?_cons, Option.map_some']
    rw [resolve_receiver_const receiver v (a :: t) hr a (List.mem_cons_self _ _)]
    simp [constEnv, List.find?]

/-- Iterating the generated `Next` from the constant at index `N` walks the canonical
order cyclically: after `k` steps the value is that of the constant at index `(N + k) % count`. -/
theorem iterNext_at (receiver : String) (cs : List Const)
    (hknown : ∀ d ∈ cs, d.val.kind ≠ Kind.Unknown) (huse : usable [] receiver = true)
    (hn : (cs.map (fun c => c.name)).Nodup) (hv : (cs.map (fun c => c.val)).Nodup)
    (hr : ∀ d ∈ cs, d.name ≠ receiver) (k : Nat) :
    ∀ (N : Nat) (c : Const), cs[N]? = some c →
      iterNext receiver cs k c.val = (cs[(N + k) % cs.length]?).map (fun d => d.val) := by
  induction k with
  | zero =>
    intro N c hc
    have hN : N < cs.length := by
      rcases Nat.lt_or_ge N cs.length with h | h
      · exact h
      · rw [List.getElem?_eq_none h] at hc; cases hc
    simp [iterNext, Nat.mod_eq_of_lt hN, hc]
  | succ k ih =>
    intro N c hc
    obtain ⟨d, hd, hnext⟩ := Next_at receiver cs hknown huse hn hv hr N c hc
    simp only [iterNext, hnext, Option.some_bind]
    rw [ih _ d hd]
    congr 2
    rw [Nat.mod_add_mod]
    congr 1
    omega

theorem visited_eq_rotate (cs : List Const) (N : Nat) :
    (List.range cs.length).map (fun k => (cs[(N + k) % cs.length]?).map (fun d => d.val))
      = (cs.rotate N).map (fun d => some d.val) := by
  apply List.ext_getElem?
  intro m
  rcases Nat.lt_or_ge m cs.length with hm | hm
  · have hlt : (m + N) % cs.length < cs.length := Nat.mod_lt _ (by omega)
    simp only [List.getElem?_map, List.getElem?_range hm, List.getElem?_rotate hm,
      Option.map_some', Nat.add_comm N m, List.getElem?_eq_getElem hlt]
  · rw [List.getElem?_eq_none (by simpa using hm), List.getElem?_eq_none (by simpa using hm)]

/-- No clause labelled by a constant name is taken on a value that no constant has. -/
theorem find?_constEnv_none {β : Type} (cs : List Const) (l : List (String × β)) (v : Val)
    (hu : ∀ d ∈ cs, d.val ≠ v) :
    l.find? (fun cl => constEnv cs cl.1 == some v) = none := by
  rw [List.find?_eq_none]
  intro y _ hp
  have hp' : constEnv cs y.1 = some v := by simpa using hp
  obtain ⟨d, hd, _, hdv⟩ := constEnv_some cs y.1 v hp'
  exact hu d hd hdv

/-- On a value some constant has, a switch with one clause per constant, labelled by the
constant names, takes the clause of a constant with that value. -/
theorem find?_constEnv_some {β : Type} (cs : List Const)
    (hn : (cs.map (fun c => c.name)).Nodup) (g : Const → β) (v : Val)
    (hex : ∃ c ∈ cs, c.val = v) :
    ∃ d ∈ cs, d.val = v ∧
      (cs.map (fun d => (d.name, g d))).find? (fun cl => constEnv cs cl.1 == some v)
        = some (d.name, g d) := by
  cases hf : (cs.map (fun d => (d.name, g d))).find? (fun cl => constEnv cs cl.1 == some v) with
  | none =>
    exfalso
    obtain ⟨c, hc, hcv⟩ := hex
    rw [List.find?_eq_none] at hf
    exact hf (c.name, g c) (List.mem_map.mpr ⟨c, hc, rfl⟩)
      (by simp [constEnv_of_mem cs hn c hc, hcv])
  | some y =>
    have hm := List.mem_of_find?_eq_some hf
    have hp := List.find?_some hf
    obtain ⟨d, hd, rfl⟩ := List.mem_map.mp hm
    refine ⟨d, hd, ?_, rfl⟩
    simpa [constEnv_of_mem cs hn d hd] using hp

/-- With pairwise distinct values the clause taken on the value of `c` is the clause of `c`. -/
theorem find?_constEnv_self {β : Type} (cs : List Const)
    (hn : (cs.map (fun c => c.name)).Nodup) (hv : (cs.map (fun c => c.val)).Nodup)
    (g : Const → β) (c : Const) (hc : c ∈ cs) :
    (cs.map (fun d => (d.name, g d))).find? (fun cl => constEnv cs cl.1 == some c.val)
      = some (c.name, g c) := by
  obtain ⟨d, hd, hdv, hf⟩ := find?_constEnv_some cs hn g c.val ⟨c, hc, rfl⟩
  have : d = c := List.inj_on_of_nodup_map hv hd hc hdv
  rw [hf, this]

theorem encodeRune_ne_nil (a : Nat) : encodeRune a ≠ [] := by
  unfold encodeRune; split_ifs <;> simp

/-- The encoding is prefix free: the first byte fixes the length, the bytes fix the rune. -/
theorem encodeRune_append_inj (a b : Nat) (l₁ l₂ : List Nat)
    (h : encodeRune a ++ l₁ = encodeRune b ++ l₂) : a = b ∧ l₁ = l₂ := by
  unfold encodeRune at h
  split_ifs at h <;> simp at h <;> first
    | (obtain ⟨h1, h2⟩ := h; exact ⟨by omega, h2⟩)
    | (obtain ⟨h1, h2, h3⟩ := h; exact ⟨by omega, h3⟩)
    | (obtain ⟨h1, h2, h3, h4⟩ := h; exact ⟨by omega, h4⟩)
    | (obtain ⟨h1, h2, h3, h4, h5⟩ := h; exact ⟨by omega, h5⟩)
    | (exfalso; omega)

theorem utf8_flatten_inj : ∀ (l₁ l₂ : List Char),
    (l₁.map (fun c => encodeRune c.toNat)).flatten
        = (l₂.map (fun c => encodeRune c.toNat)).flatten →
      l₁ = l₂
  | [], [] => fun _ => rfl
  | [], b :: t => fun h => by
    exfalso
    simp only [List.map_nil, List.flatten_nil, List.map_cons, List.flatten_cons] at h
    have hb := encodeRune_ne_nil b.toNat
    cases hx : encodeRune b.toNat with
    | nil => exact hb hx
    | cons x xs => rw [hx] at h; cases h
  | a :: t, [] => fun h => by
    exfalso
    simp only [List.map_nil, List.flatten_nil, List.map_cons, List.flatten_cons] at h
    have ha := encodeRune_ne_nil a.toNat
    cases hx : encodeRune a.toNat with
    | nil => exact ha hx
    | cons x xs => rw [hx] at h; cases h
  | a :: t₁, b :: t₂ => fun h => by
    simp only [List.map_cons, List.flatten_cons] at h
    obtain ⟨hab, ht⟩ := encodeRune_append_inj _ _ _ _ h
    have hc : a = b := by
      apply Char.ext; apply UInt32.ext; exact hab
    rw [hc, utf8_flatten_inj t₁ t₂ ht]

/-- The conversion `[]byte(s)` is injective on texts. -/
theorem utf8Bytes_inj (s t : String) (h : utf8Bytes s = utf8Bytes t) : s = t :=
  String.ext (utf8_flatten_inj _ _ h)

theorem utf8Bytes_append (s t : String) : utf8Bytes (s ++ t) = utf8Bytes s ++ utf8Bytes t := by
  simp [utf8Bytes, String.toList]

theorem utf8Bytes_quoted (n : String) :
    utf8Bytes ("\"" ++ n ++ "\"") = [34] ++ utf8Bytes n ++ [34] := by
  rw [utf8Bytes_append, utf8Bytes_append]
  rfl

/-- A name built from ASCII characters is encoded byte for rune. -/
theorem utf8Bytes_ascii (s : String) (h : ∀ ch ∈ s.toList, ch.toNat < 128) :
    utf8Bytes s = s.toList.map (fun r => r.toNat) := by
  unfold utf8Bytes
  generalize s.toList = l at h
  induction l with
  | nil => rfl
  | cons a t ih =>
    have ha : a.toNat < 128 := h a (List.mem_cons_self _ _)
    have he : encodeRune a.toNat = [a.toNat] := by simp [encodeRune, ha]
    rw [List.map_cons, List.flatten_cons, he,
      ih (fun ch hch => h ch (List.mem_cons_of_mem _ hch))]
    rfl

/-- The byte literal emitted for an ASCII name holds the bytes of the name. -/
theorem byteLiteral_ascii (s : String) (h : ∀ ch ∈ s.toList, ch.toNat < 128) :
    byteLiteral (nameRunes s) = some (utf8Bytes s) := by
  have hr : nameRunes s = s.toList := by
    unfold nameRunes
    rw [List.takeWhile_eq_self_iff]
    intro ch hch
    have := h ch hch
    simp only [bne_iff_ne, ne_eq]
    intro heq
    rw [heq] at this
    revert this
    decide
  have hall : (s.toList.all (fun r => decide (r.toNat < 256))) = true := by
    rw [List.all_eq_true]
    intro ch hch
    have := h ch hch
    simp only [decide_eq_true_eq]
    omega
  unfold byteLiteral
  rw [hr, if_pos hall, utf8Bytes_ascii s h]

/-- A text without space runes is read back whole as one token. -/
theorem scanToken_of_no_space (s : String) (h : ∀ ch ∈ s.toList, isSpace ch = false) :
    scanToken s = s := by
  unfold scanToken
  have h1 : s.toList.dropWhile isSpace = s.toList := by
    cases hl : s.toList with
    | nil => rfl
    | cons a t =>
      have : isSpace a = false := h a (by rw [hl]; exact List.mem_cons_self _ _)
      simp [List.dropWhile, this]
  rw [h1]
  have h2 : s.toList.takeWhile (fun c => !isSpace c) = s.toList := by
    rw [List.takeWhile_eq_self_iff]
    intro ch hch
    simp [h ch hch]
  rw [h2]
  rfl

/-- Where the variables of `Scan` are distinct from one another and from `err`, each can
be used beside the identifiers of the body, names are distinct and no constant is named
like a variable of `Scan`, the emitted method is accepted. -/
theorem Scan_wellTyped (tn receiver scanStateVarName verbVarName tokenVarName : String)
    (cs : List Const)
    (hvars : [receiver, scanStateVarName, verbVarName, tokenVarName, "err"].Nodup)
    (huse : ∀ n ∈ [receiver, scanStateVarName, verbVarName, tokenVarName],
      usable ["true", "nil", "string", "fmt"] n = true)
    (hn : (cs.map (fun c => c.name)).Nodup)
    (hloc : ∀ d ∈ cs,
      d.name ∉ [receiver, scanStateVarName, verbVarName, tokenVarName, "err"]) :
    (generateScanMethod tn receiver scanStateVarName verbVarName tokenVarName cs).wellTyped
      (constEnv cs) = true := by
  have h1 : decide [receiver, scanStateVarName, verbVarName, tokenVarName, "err"].Nodup
      = true := decide_eq_true hvars
  have h2 : [receiver, scanStateVarName, tokenVarName].all
      (usable ["true", "nil", "string", "fmt"]) = true := by
    simp only [List.all_cons, List.all_nil, Bool.and_true, Bool.and_eq_true]
    exact ⟨huse receiver (by simp), huse scanStateVarName (by simp),
      huse tokenVarName (by simp)⟩
  have hverb := usable_spec _ _ (huse verbVarName (by simp))
  have h3 : (!(["true", "nil", "string", "fmt"].contains verbVarName)) = true := by
    have hv := hverb.2.2
    simpa using hv
  have h4 : decide ((cs.map (fun c => (c.name, ScanClause.assign c.name))).map
      (fun cl => cl.1)).Nodup = true := by
    rw [List.map_map]
    exact decide_eq_true hn
  simp only [ScanMethod.wellTyped, generateScanMethod, h1, h2, h3, h4, hverb.1,
    Bool.and_self, Bool.true_and, List.all_eq_true]
  intro cl hcl
  obtain ⟨d, hd, rfl⟩ := List.mem_map.mp hcl
  have hnl := hloc d hd
  simp only [List.mem_cons, List.mem_singleton, not_or, List.not_mem_nil, or_false] at hnl
  show (resolve _ (constEnv cs) d.name).isSome = true
  rw [resolve_of_not_local]
  · cases hf : constEnv cs d.name with
    | some _ => rfl
    | none =>
      exfalso
      unfold constEnv at hf
      cases hg : cs.find? (fun c => c.name == d.name) with
      | some _ => rw [hg] at hf; cases hf
      | none =>
        rw [List.find?_eq_none] at hg
        exact hg d hd (by simp)
  · intro l hl
    simp only [ScanMethod.locals, List.mem_cons, List.mem_singleton, List.not_mem_nil,
      or_false] at hl
    rcases hl with h | h | h | h | h <;> rw [h] <;> intro heq
    · exact hnl.2.2.2.1 heq.symm
    · exact hnl.2.2.2.2 heq.symm
    · exact hnl.2.2.1 heq.symm
    · exact hnl.2.1 heq.symm
    · exact hnl.1 heq.symm

/-- The generated `Scan` reading the declared name of a constant stores that constant. -/
theorem Scan_name (tn receiver scanStateVarName verbVarName tokenVarName : String)
    (cs : List Const) (hknown : ∀ d ∈ cs, d.val.kind ≠ Kind.Unknown)
    (hvars : [receiver, scanStateVarName, verbVarName, tokenVarName, "err"].Nodup)
    (huse : ∀ n ∈ [receiver, scanStateVarName, verbVarName, tokenVarName],
      usable ["true", "nil", "string", "fmt"] n = true)
    (hn : (cs.map (fun c => c.name)).Nodup)
    (hloc : ∀ d ∈ cs,
      d.name ∉ [receiver, scanStateVarName, verbVarName, tokenVarName, "err"])
    (d : Const) (hd : d ∈ cs) (hs : ∀ ch ∈ d.name.toList, isSpace ch = false) (recv : Val) :
    Scan tn receiver scanStateVarName verbVarName tokenVarName cs d.name recv
      = some { err := none, recv := d.val } := by
  have hwt := Scan_wellTyped tn receiver scanStateVarName verbVarName tokenVarName cs hvars
    huse hn hloc
  have hf := find?_unique (fun cl : String × ScanClause => d.name == cl.1)
    (cs.map (fun c => (c.name, ScanClause.assign c.name))) (d.name, ScanClause.assign d.name)
    (List.mem_map.mpr ⟨d, hd, rfl⟩) (by simp)
    (by
      intro y hy hp
      obtain ⟨e, he, rfl⟩ := List.mem_map.mp hy
      have hname : d.name = e.name := by simpa using hp
      rw [hname])
  have hnl := hloc d hd
  simp only [List.mem_cons, List.mem_singleton, not_or, List.not_mem_nil, or_false] at hnl
  have hres : resolve
      (generateScanMethod tn receiver scanStateVarName verbVarName tokenVarName cs).locals
      (constEnv cs) d.name = some d.val := by
    rw [resolve_of_not_local, constEnv_of_mem cs hn d hd]
    intro l hl
    simp only [ScanMethod.locals, generateScanMethod, List.mem_cons, List.mem_singleton,
      List.not_mem_nil, or_false] at hl
    rcases hl with h | h | h | h | h <;> rw [h] <;> intro heq
    · exact hnl.2.2.2.1 heq.symm
    · exact hnl.2.2.2.2 heq.symm
    · exact hnl.2.2.1 heq.symm
    · exact hnl.2.1 heq.symm
    · exact hnl.1 heq.symm
  unfold Scan
  rw [if_pos (declsBuild_of_known cs hknown)]
  unfold runScan
  rw [if_pos hwt, scanToken_of_no_space _ hs]
  have hrun : (generateScanMethod tn receiver scanStateVarName verbVarName tokenVarName cs).sw.run
      (fun lit => d.name == lit) = some (ScanClause.assign d.name) := by
    simp only [Switch.run, generateScanMethod, hf]
  simp only [hrun, hres, Option.map_some']

/-- Putting a text between double quotes loses nothing. -/
theorem quoted_injective : Function.Injective (fun n : String => "\"" ++ n ++ "\"") := by
  intro a b h
  have hd := congrArg String.data h
  simp only [String.data_append, List.append_cancel_left_eq, List.append_cancel_right_eq]
    at hd
  exact String.ext hd

/-- Where the receiver and the parameter of `UnmarshalJSON` differ, each can be used
beside the identifiers of the body, names are distinct and no constant is named like one
of the two, the emitted method is accepted. -/
theorem Unmarshal_wellTyped (receiver varName : String) (cs : List Const)
    (hvars : receiver ≠ varName)
    (huse : ∀ n ∈ [receiver, varName], usable ["string", "nil", "fmt"] n = true)
    (hn : (cs.map (fun c => c.name)).Nodup)
    (hloc : ∀ d ∈ cs, d.name ∉ [receiver, varName]) :
    (generateJsonUnmarshal receiver cs varName).wellTyped (constEnv cs) = true := by
  have h1 : decide [receiver, varName].Nodup = true := by
    apply decide_eq_true
    simp [hvars]
  have h2 : [receiver, varName].all (usable ["string", "nil", "fmt"]) = true := by
    simp only [List.all_cons, List.all_nil, Bool.and_true, Bool.and_eq_true]
    exact ⟨huse receiver (by simp), huse varName (by simp)⟩
  have h3 : decide ((cs.map (fun c =>
      ("\"" ++ c.name ++ "\"", UnmarshalClause.assign c.name))).map
      (fun cl => cl.1)).Nodup = true := by
    apply decide_eq_true
    rw [List.map_map]
    have hq := hn.map quoted_injective
    rw [List.map_map] at hq
    exact hq
  simp only [UnmarshalMethod.wellTyped, generateJsonUnmarshal, h1, h2, h3, Bool.and_self,
    Bool.true_and, List.all_eq_true]
  intro cl hcl
  obtain ⟨d, hd, rfl⟩ := List.mem_map.mp hcl
  have hnl := hloc d hd
  simp only [List.mem_cons, List.mem_singleton, not_or, List.not_mem_nil, or_false] at hnl
  show (resolve _ (constEnv cs) d.name).isSome = true
  rw [resolve_of_not_local]
  · cases hf : constEnv cs d.name with
    | some _ => rfl
    | none =>
      exfalso
      unfold constEnv at hf
      cases hg : cs.find? (fun c => c.name == d.name) with
      | some _ => rw [hg] at hf; cases hf
      | none =>
        rw [List.find?_eq_none] at hg
        exact hg d hd (by simp)
  · intro l hl
    simp only [UnmarshalMethod.locals, List.mem_cons, List.mem_singleton, List.not_mem_nil,
      or_false] at hl
    rcases hl with h | h <;> rw [h] <;> intro heq
    · exact hnl.2 heq.symm
    · exact hnl.1 heq.symm

/-- The generated `UnmarshalJSON` reading the quoted name of a constant stores that constant. -/
theorem Unmarshal_quoted (goType receiver varName : String) (cs : List Const)
    (hknown : ∀ d ∈ cs, d.val.kind ≠ Kind.Unknown) (hvars : receiver ≠ varName)
    (huse : ∀ n ∈ [receiver, varName], usable ["string", "nil", "fmt"] n = true)
    (hn : (cs.map (fun c => c.name)).Nodup)
    (hloc : ∀ d ∈ cs, d.name ∉ [receiver, varName])
    (d : Const) (hd : d ∈ cs) (recv : Val) :
    UnmarshalJSON goType receiver varName cs ([34] ++ utf8Bytes d.name ++ [34]) recv
      = some { err := none, recv := d.val } := by
  have hwt := Unmarshal_wellTyped receiver varName cs hvars huse hn hloc
  have hf := find?_unique
    (fun cl : String × UnmarshalClause => [34] ++ utf8Bytes d.name ++ [34] == utf8Bytes cl.1)
    (cs.map (fun c => ("\"" ++ c.name ++ "\"", UnmarshalClause.assign c.name)))
    ("\"" ++ d.name ++ "\"", UnmarshalClause.assign d.name)
    (List.mem_map.mpr ⟨d, hd, rfl⟩) (by simp [utf8Bytes_quoted])
    (by
      intro y hy hp
      obtain ⟨e, he, rfl⟩ := List.mem_map.mp hy
      have hb : utf8Bytes ("\"" ++ d.name ++ "\"") = utf8Bytes ("\"" ++ e.name ++ "\"") := by
        rw [utf8Bytes_quoted]; simpa using hp
      have hq := utf8Bytes_inj _ _ hb
      have hname : d.name = e.name := by
        have := congrArg String.toList hq
        exact String.ext (by simpa using this)
      rw [hname])
  have hnl := hloc d hd
  simp only [List.mem_cons, List.mem_singleton, not_or, List.not_mem_nil, or_false] at hnl
  have hres : resolve (generateJsonUnmarshal receiver cs varName).locals
      (constEnv cs) d.name = some d.val := by
    rw [resolve_of_not_local, constEnv_of_mem cs hn d hd]
    intro l hl
    simp only [UnmarshalMethod.locals, generateJsonUnmarshal, List.mem_cons,
      List.mem_singleton, List.not_mem_nil, or_false] at hl
    rcases hl with h | h <;> rw [h] <;> intro heq
    · exact hnl.2 heq.symm
    · exact hnl.1 heq.symm
  unfold UnmarshalJSON
  rw [if_pos (declsBuild_of_known cs hknown)]
  unfold runUnmarshal
  rw [if_pos hwt]
  have hrun : (generateJsonUnmarshal receiver cs varName).sw.run
      (fun lit => [34] ++ utf8Bytes d.name ++ [34] == utf8Bytes lit)
        = some (UnmarshalClause.assign d.name) := by
    simp only [Switch.run, generateJsonUnmarshal, hf]
  simp only [hrun, hres, Option.map_some']

/-- The sort key of a constant as an element of the lexicographic order on pairs. -/
theorem posLess_iff (p q : Position) :
    posLess p q = true ↔
      toLex (p.filename.toList, p.offset) < toLex (q.filename.toList, q.offset) := by
  rw [Prod.Lex.lt_iff]
  simp only [posLess, Bool.or_eq_true, Bool.and_eq_true, decide_eq_true_eq, beq_iff_eq,
    ofLex_toLex]
  constructor
  · rintro (h | ⟨h1, h2⟩)
    · exact Or.inl h
    · exact Or.inr ⟨by rw [h1], h2⟩
  · rintro (h | ⟨h1, h2⟩)
    · exact Or.inl h
    · exact Or.inr ⟨String.ext h1, h2⟩

theorem posLess_eq_false_iff (p q : Position) :
    posLess q p = false ↔
      toLex (p.filename.toList, p.offset) ≤ toLex (q.filename.toList, q.offset) := by
  rw [← not_lt, ← posLess_iff]
  simp

/-- The result of `sortSlice` is sorted for the comparison it was given. -/
theorem sortSlice_sorted (l : List Const) :
    List.Sorted (fun a b : Const => posLess b.pos a.pos = false)
      (sortSlice (fun a b => posLess a.pos b.pos) l) := by
  haveI : IsTotal Const (fun a b : Const => posLess b.pos a.pos = false) :=
    ⟨fun a b => by
      simp only [posLess_eq_false_iff]
      exact le_total _ _⟩
  haveI : IsTrans Const (fun a b : Const => posLess b.pos a.pos = false) :=
    ⟨fun a b c hab hbc => by
      simp only [posLess_eq_false_iff] at *
      exact le_trans hab hbc⟩
  exact List.sorted_insertionSort _ l

theorem sortSlice_perm (l : List Const) :
    (sortSlice (fun a b => posLess a.pos b.pos) l).Perm l :=
  List.perm_insertionSort _ l

/-- Where no two constants share file and offset, the sorted sequence depends on the set of
constants only, not on the order they were collected in. -/
theorem sortSlice_eq_of_perm (l₁ l₂ : List Const) (hp : l₁.Perm l₂)
    (hd : (l₁.map (fun c => (c.pos.filename, c.pos.offset))).Nodup) :
    sortSlice (fun a b => posLess a.pos b.pos) l₁
      = sortSlice (fun a b => posLess a.pos b.pos) l₂ := by
  apply List.Perm.eq_of_sorted _ (sortSlice_sorted l₁) (sortSlice_sorted l₂)
    ((sortSlice_perm l₁).trans (hp.trans (sortSlice_perm l₂).symm))
  intro a b ha hb hab hba
  have ha' : a ∈ l₁ := (sortSlice_perm l₁).subset ha
  have hb' : b ∈ l₁ := hp.symm.subset ((sortSlice_perm l₂).subset hb)
  rw [posLess_eq_false_iff] at hab hba
  have hkey := le_antisymm hab hba
  have hk : (a.pos.filename.toList, a.pos.offset) = (b.pos.filename.toList, b.pos.offset) :=
    toLex.injective hkey
  apply List.inj_on_of_nodup_map hd ha' hb'
  simp only [Prod.mk.injEq] at hk ⊢
  exact ⟨String.ext hk.1, hk.2⟩

/-- The loop of `findConstantsOfType` once the kind is fixed: it appends the retained
constants while their kind agrees and panics at the first that differs. -/
theorem foldlM_collect_known (obj : TypeName) (defs : Defs) :
    ∀ (ret : List Const) (k : Kind), k ≠ Kind.Unknown →
      defs.foldlM (collectStep obj) (ret, k) =
        if (defs.filterMap (retained obj)).all (fun c => c.val.kind == k) then
          Except.ok (ret ++ defs.filterMap (retained obj), k)
        else Except.error "multiple constant kinds found" := by
  induction defs with
  | nil => intro ret k _; simp [List.foldlM]; rfl
  | cons o t ih =>
    intro ret k hk
    rw [List.foldlM_cons]
    cases hr : retained obj o with
    | none =>
      have hstep : collectStep obj (ret, k) o = Except.ok (ret, k) := by
        simp [collectStep, hr]
      rw [hstep, List.filterMap_cons, hr]
      exact ih ret k hk
    | some c =>
      by_cases hck : k = c.val.kind
      · have hstep : collectStep obj (ret, k) o = Except.ok (ret ++ [c], k) := by
          simp [collectStep, hr, hk, hck]
        rw [hstep, List.filterMap_cons, hr]
        show List.foldlM (collectStep obj) (ret ++ [c], k) t = _
        rw [ih (ret ++ [c]) k hk]
        simp [hck]
      · have hstep : collectStep obj (ret, k) o
            = Except.error "multiple constant kinds found" := by
          simp [collectStep, hr, hk, hck]
        rw [hstep, List.filterMap_cons, hr]
        have hne : (c.val.kind == k) = false := by
          simp only [beq_eq_false_iff_ne, ne_eq]
          exact fun h => hck h.symm
        simp [hne]
        rfl

/-- The loop of `findConstantsOfType` while the kind is still `constant.Unknown`: retained
constants of unknown kind are appended and leave the kind as it is; the first retained
constant of a known kind fixes the kind for the rest of the loop. -/
theorem foldlM_collect_init (obj : TypeName) (defs : Defs) :
    ∀ ret : List Const,
      defs.foldlM (collectStep obj) (ret, Kind.Unknown) =
        match (defs.filterMap (retained obj)).dropWhile
            (fun c => c.val.kind == Kind.Unknown) with
        | [] => Except.ok (ret ++ defs.filterMap (retained obj), Kind.Unknown)
        | c :: rs =>
          if rs.all (fun d => d.val.kind == c.val.kind) then
            Except.ok (ret ++ defs.filterMap (retained obj), c.val.kind)
          else Except.error "multiple constant kinds found" := by
  induction defs with
  | nil => intro ret; simp [List.foldlM]; rfl
  | cons o t ih =>
    intro ret
    rw [List.foldlM_cons]
    cases hr : retained obj o with
    | none =>
      have hstep : collectStep obj (ret, Kind.Unknown) o = Except.ok (ret, Kind.Unknown) := by
        simp [collectStep, hr]
      rw [hstep, List.filterMap_cons, hr]
      exact ih ret
    | some c =>
      by_cases hck : c.val.kind = Kind.Unknown
      · have hstep : collectStep obj (ret, Kind.Unknown) o
            = Except.ok (ret ++ [c], Kind.Unknown) := by
          simp [collectStep, hr, hck]
        rw [hstep, List.filterMap_cons, hr]
        show List.foldlM (collectStep obj) (ret ++ [c], Kind.Unknown) t = _
        rw [ih (ret ++ [c])]
        have hdrop : (c :: t.filterMap (retained obj)).dropWhile
            (fun c => c.val.kind == Kind.Unknown)
            = (t.filterMap (retained obj)).dropWhile (fun c => c.val.kind == Kind.Unknown) := by
          simp [List.dropWhile_cons, hck]
        simp only [hdrop, List.append_assoc, List.singleton_append]
      · have hstep : collectStep obj (ret, Kind.Unknown) o
            = Except.ok (ret ++ [c], c.val.kind) := by
          simp [collectStep, hr]
        rw [hstep, List.filterMap_cons, hr]
        show List.foldlM (collectStep obj) (ret ++ [c], c.val.kind) t = _
        rw [foldlM_collect_known obj t (ret ++ [c]) c.val.kind hck]
        have hdrop : (c :: t.filterMap (retained obj)).dropWhile
            (fun c => c.val.kind == Kind.Unknown) = c :: t.filterMap (retained obj) := by
          simp [List.dropWhile_cons, hck]
        simp only [hdrop, List.append_assoc, List.singleton_append]

/-- What `findConstantsOfType` returns, in terms of the retained constants in the order
of enumeration: the kind is that of the first retained constant of a known kind, and the
panic is raised when a retained constant enumerated after that one has another kind. -/
theorem findConstantsOfType_eq (defs : Defs) (obj : TypeName) :
    findConstantsOfType defs obj =
      match (defs.filterMap (retained obj)).dropWhile
          (fun c => c.val.kind == Kind.Unknown) with
      | [] => Except.ok
          (sortSlice (fun a b => posLess a.pos b.pos) (defs.filterMap (retained obj)),
            Kind.Unknown)
      | c :: rs =>
        if rs.all (fun d => d.val.kind == c.val.kind) then
          Except.ok
            (sortSlice (fun a b => posLess a.pos b.pos) (defs.filterMap (retained obj)),
              c.val.kind)
        else Except.error "multiple constant kinds found" := by
  unfold findConstantsOfType
  rw [foldlM_collect_init obj defs []]
  simp only [List.nil_append]
  cases hd : (defs.filterMap (retained obj)).dropWhile
      (fun c => c.val.kind == Kind.Unknown) with
  | nil =>
    dsimp only
    cases hf : defs.filterMap (retained obj) with
    | nil => rfl
    | cons a l => simp
  | cons c rs =>
    dsimp only
    by_cases h : rs.all (fun d => d.val.kind == c.val.kind) = true
    · rw [if_pos h, if_pos h]
      dsimp only
      cases hf : defs.filterMap (retained obj) with
      | nil => rw [hf] at hd; cases hd
      | cons a l => simp
    · rw [if_neg h, if_neg h]

/-- Where every retained constant has a known kind, the kind is that of the first
retained constant and the panic is raised when another one differs from it. -/
theorem findConstantsOfType_eq_known (defs : Defs) (obj : TypeName)
    (hknown : ∀ c ∈ defs.filterMap (retained obj), c.val.kind ≠ Kind.Unknown) :
    findConstantsOfType defs obj =
      match defs.filterMap (retained obj) with
      | [] => Except.ok ([], Kind.Unknown)
      | c :: rs =>
        if rs.all (fun d => d.val.kind == c.val.kind) then
          Except.ok (sortSlice (fun a b => posLess a.pos b.pos) (c :: rs), c.val.kind)
        else Except.error "multiple constant kinds found" := by
  rw [findConstantsOfType_eq]
  cases hf : defs.filterMap (retained obj) with
  | nil => rfl
  | cons c rs =>
    have hc : c.val.kind ≠ Kind.Unknown := hknown c (by rw [hf]; exact List.mem_cons_self _ _)
    have hdrop : (c :: rs).dropWhile (fun c => c.val.kind == Kind.Unknown) = c :: rs := by
      simp [List.dropWhile_cons, hc]
    rw [hdrop]

/-- A constant of the target type that is not the placeholder passes the filters. -/
theorem retained_of_const (obj : TypeName) (c : Const) (ht : c.typ = GoType.named obj)
    (hname : c.name ≠ "_") : retained obj (some (Object.const c)) = some c := by
  simp [retained, ht, hname]

/-- If every retained constant of one enumeration has the kind of the first, the same
holds for any constant that heads another enumeration of the same constants. -/
theorem all_kind_of_perm (c₁ c₂ : Const) (r₁ r₂ : List Const)
    (hp : (c₁ :: r₁).Perm (c₂ :: r₂))
    (h : r₁.all (fun d => d.val.kind == c₁.val.kind) = true) :
    c₂.val.kind = c₁.val.kind ∧ r₂.all (fun d => d.val.kind == c₂.val.kind) = true := by
  have hall : ∀ d ∈ c₂ :: r₂, d.val.kind = c₁.val.kind := by
    intro d hd
    rcases List.mem_cons.mp (hp.symm.subset hd) with h1 | h1
    · rw [h1]
    · simpa using (List.all_eq_true.mp h) d h1
  have h2 : c₂.val.kind = c₁.val.kind := hall c₂ (List.mem_cons_self _ _)
  refine ⟨h2, List.all_eq_true.mpr (fun d hd => ?_)⟩
  simp [hall d (List.mem_cons_of_mem _ hd), h2]

theorem char_toNat_lt (c : Char) : c.toNat < 0x110000 := by
  have h := c.valid
  simp only [UInt32.isValidChar, Nat.isValidChar] at h
  show c.val.toNat < 0x110000
  omega

/-- The bytes of a text are bytes. -/
theorem utf8Bytes_lt (s : String) : ∀ b ∈ utf8Bytes s, b < 256 := by
  intro b hb
  simp only [utf8Bytes, List.mem_flatten, List.mem_map] at hb
  obtain ⟨l, ⟨c, _, rfl⟩, hbl⟩ := hb
  have hc := char_toNat_lt c
  unfold encodeRune at hbl
  split_ifs at hbl <;> simp at hbl <;> omega

/-- For a constant of Integer kind, not named like the array variable, the emitted index
expression is in bounds exactly when the current value is the recorded one. -/
theorem compileCheck_int_iff (xVarName : String) (c : Const) (l cur : Int)
    (env : String → Option Val) (hx : c.name ≠ xVarName)
    (hv : c.val = Val.int l) (he : env c.name = some (Val.int cur)) :
    (∀ e ∈ compileCheckFor Kind.Int c, e.inBounds xVarName env = true) ↔ cur = l := by
  have hres : resolve [(xVarName, none)] env c.name = some (Val.int cur) := by
    rw [resolve_of_not_local, he]
    intro y hy
    rw [List.mem_singleton] at hy
    rw [hy]
    exact fun h => hx h.symm
  simp only [compileCheckFor, List.mem_singleton, forall_eq, IndexExpr.inBounds,
    IndexExpr.eval, hres, hv, Bool.and_eq_true, decide_eq_true_eq]
  omega

/-- For a constant of Text kind, not named like the array variable, the emitted index
expressions are all in bounds exactly when the bytes of the recorded value are a prefix
of the bytes of the current value. -/
theorem compileCheck_text_iff (xVarName : String) (c : Const) (v cur : String)
    (env : String → Option Val) (hx : c.name ≠ xVarName)
    (hv : c.val = Val.str v) (he : env c.name = some (Val.str cur)) :
    (∀ e ∈ compileCheckFor Kind.String c, e.inBounds xVarName env = true) ↔
      utf8Bytes v <+: utf8Bytes cur := by
  have hres : resolve [(xVarName, none)] env c.name = some (Val.str cur) := by
    rw [resolve_of_not_local, he]
    intro y hy
    rw [List.mem_singleton] at hy
    rw [hy]
    exact fun h => hx h.symm
  have key : ∀ (i b : Nat), (utf8Bytes v)[i]? = some b →
      ((IndexExpr.byteDiff b c.name i).inBounds xVarName env = true ↔
        (utf8Bytes cur)[i]? = some b) := by
    intro i b hb
    have hb256 : b < 256 := utf8Bytes_lt v b (List.mem_iff_getElem?.mpr ⟨i, hb⟩)
    simp only [IndexExpr.inBounds, IndexExpr.eval, hres, List.get?_eq_getElem?]
    cases hd : (utf8Bytes cur)[i]? with
    | none => simp
    | some d =>
      have hd256 : d < 256 := utf8Bytes_lt cur d (List.mem_iff_getElem?.mpr ⟨i, hd⟩)
      simp only [Bool.and_eq_true, decide_eq_true_eq, Option.some.injEq]
      omega
  simp only [compileCheckFor, hv, List.mem_map, forall_exists_index, and_imp]
  rw [List.isPrefix_iff]
  constructor
  · intro h i hi
    have hb : (utf8Bytes v)[i]? = some (utf8Bytes v)[i] := List.getElem?_eq_getElem hi
    exact (key i _ hb).mp
      (h _ (i, (utf8Bytes v)[i]) (List.mk_mem_enum_iff_getElem?.mpr hb) rfl)
  · rintro h e ⟨i, b⟩ hib rfl
    have hb : (utf8Bytes v)[i]? = some b := List.mk_mem_enum_iff_getElem?.mp hib
    have hi : i < (utf8Bytes v).length := by
      rcases Nat.lt_or_ge i (utf8Bytes v).length with h1 | h1
      · exact h1
      · rw [List.getElem?_eq_none h1] at hb; cases hb
    have hbi : b = (utf8Bytes v)[i] := by
      rw [List.getElem?_eq_getElem hi] at hb; exact (Option.some.inj hb).symm
    exact (key i b hb).mpr (by rw [hbi]; exact h i hi)

/-- For the Integer-kind constant `É = 0`, `String()` returns the name, whose bytes are
`0xC3 0x89`, while `MarshalJSON` writes the rune as the single byte `0xC9` between the
quotes; `UnmarshalJSON` does not accept these bytes. -/
theorem Marshal_accent_name_not_decoded :
    String_ "k" Kind.Int "Kind" accentGroup (Val.int 0) = some "É" ∧
      utf8Bytes "\"É\"" = [34, 195, 137, 34] ∧
      MarshalJSON "k" Kind.Int "Kind" accentGroup (Val.int 0) = some ([34, 201, 34], none) ∧
      UnmarshalJSON "example.Kind" "k" "x" accentGroup [34, 201, 34] (Val.int 1)
        = some ⟨some "failed to parse value [34 201 34] into example.Kind", Val.int 1⟩ := by
  decide

/-! ## Identifier allocator: lemmas -/

theorem safeIndent_unfold (want : String) (not : List String) :
    safeIndent want not =
      if isKeyword want then safeIndent ("_" ++ want) not
      else if not.contains want then safeIndent ("_" ++ want) not
      else want := by
  rw [safeIndent]

/-- The candidate after `k` retries. -/
theorem underscores_succ (k : Nat) (want : String) :
    String.mk (List.replicate (k + 1) '_') ++ want
      = String.mk (List.replicate k '_') ++ ("_" ++ want) := by
  apply String.ext
  simp only [String.data_append, List.replicate_succ']
  simp [List.append_assoc]

/-- A depth-bounded run that returns has retried `k` times on colliding candidates and
returns the first candidate that collides with nothing. -/
theorem safeIndentDepth_some (not : List String) :
    ∀ (depth : Nat) (want r : String), safeIndentDepth depth want not = some r →
      ∃ k, r = String.mk (List.replicate k '_') ++ want ∧
        isKeyword r = false ∧ r ∉ not ∧
        ∀ j, j < k →
          isKeyword (String.mk (List.replicate j '_') ++ want) = true ∨
            String.mk (List.replicate j '_') ++ want ∈ not := by
  intro depth
  induction depth with
  | zero => intro want r h; cases h
  | succ depth ih =>
    intro want r h
    have step : ∀ (hcol : isKeyword want = true ∨ want ∈ not)
        (hrec : safeIndentDepth depth ("_" ++ want) not = some r),
        ∃ k, r = String.mk (List.replicate k '_') ++ want ∧
          isKeyword r = false ∧ r ∉ not ∧
          ∀ j, j < k →
            isKeyword (String.mk (List.replicate j '_') ++ want) = true ∨
              String.mk (List.replicate j '_') ++ want ∈ not := by
      intro hcol hrec
      obtain ⟨k, hr, hk, hn, hj⟩ := ih _ r hrec
      refine ⟨k + 1, by rw [hr, underscores_succ], hk, hn, ?_⟩
      intro j hjk
      cases j with
      | zero =>
        have h0 : String.mk (List.replicate 0 '_') ++ want = want := by
          apply String.ext; simp
        rw [h0]; exact hcol
      | succ j =>
        rw [underscores_succ]
        exact hj j (by omega)
    simp only [safeIndentDepth] at h
    by_cases hkw : isKeyword want = true
    · rw [if_pos hkw] at h
      exact step (Or.inl hkw) h
    · rw [if_neg hkw] at h
      by_cases hnot : not.contains want = true
      · rw [if_pos hnot] at h
        exact step (Or.inr (by simpa using hnot)) h
      · rw [if_neg hnot] at h
        have hr : r = want := (Option.some.inj h).symm
        subst hr
        refine ⟨0, by apply String.ext; simp, by simpa using hkw, by simpa using hnot, ?_⟩
        intro j hj; omega

theorem countP_lt_countP {α : Type} (p q : α → Bool) (l : List α)
    (hpq : ∀ x, p x = true → q x = true) (x : α) (hx : x ∈ l) (hqx : q x = true)
    (hpx : p x = false) : l.countP p < l.countP q := by
  induction l with
  | nil => cases hx
  | cons a t ih =>
    rcases List.mem_cons.mp hx with h | h
    · subst h
      have hle : t.countP p ≤ t.countP q := List.countP_mono_left (fun y _ hy => hpq y hy)
      rw [List.countP_cons_of_neg _ _ (by simp [hpx]), List.countP_cons_of_pos _ _ hqx]
      omega
    · have := ih h
      by_cases hpa : p a = true
      · rw [List.countP_cons_of_pos _ _ hpa, List.countP_cons_of_pos _ _ (hpq a hpa)]
        omega
      · by_cases hqa : q a = true
        · rw [List.countP_cons_of_neg _ _ hpa, List.countP_cons_of_pos _ _ hqa]
          omega
        · rw [List.countP_cons_of_neg _ _ hpa, List.countP_cons_of_neg _ _ hqa]
          exact this

/-- A retry leaves fewer keywords and used names that are at least as long as the
candidate. -/
theorem longer_count_lt (want : String) (not : List String)
    (hcol : want ∈ keywords ++ not) :
    (keywords ++ not).countP (fun s => decide (("_" ++ want).length ≤ s.length))
      < (keywords ++ not).countP (fun s => decide (want.length ≤ s.length)) := by
  have hone : ("_" ++ want).length = want.length + 1 := by
    rw [String.length_append]
    have : ("_" : String).length = 1 := rfl
    omega
  apply countP_lt_countP _ _ _ _ want hcol
  · simp
  · simp only [decide_eq_false_iff_not, hone]; omega
  · intro x hx
    simp only [decide_eq_true_eq, hone] at hx ⊢
    omega

/-- The recursion reaches its result within as many nested calls as there are keywords
and used names at least as long as the candidate. -/
theorem safeIndentDepth_of_count (not : List String) :
    ∀ (depth : Nat) (want : String),
      (keywords ++ not).countP (fun s => decide (want.length ≤ s.length)) < depth →
      safeIndentDepth depth want not = some (safeIndent want not) := by
  intro depth
  induction depth with
  | zero => intro want h; omega
  | succ depth ih =>
    intro want h
    rw [safeIndent_unfold]
    simp only [safeIndentDepth]
    by_cases hkw : isKeyword want = true
    · rw [if_pos hkw, if_pos hkw]
      apply ih
      have hm : want ∈ keywords ++ not :=
        List.mem_append_left _ (by simpa [isKeyword] using hkw)
      have := longer_count_lt want not hm
      omega
    · rw [if_neg hkw, if_neg hkw]
      by_cases hnot : not.contains want = true
      · rw [if_pos hnot, if_pos hnot]
        apply ih
        have hm : want ∈ keywords ++ not := List.mem_append_right _ (by simpa using hnot)
        have := longer_count_lt want not hm
        omega
      · rw [if_neg hnot, if_neg hnot]

theorem safeIndentDepth_enough (want : String) (not : List String) (depth : Nat)
    (h : keywords.length + not.length < depth) :
    safeIndentDepth depth want not = some (safeIndent want not) := by
  apply safeIndentDepth_of_count
  have : (keywords ++ not).countP (fun s => decide (want.length ≤ s.length))
      ≤ (keywords ++ not).length := List.countP_le_length _
  rw [List.length_append] at this
  omega

/-- What `safeIndent` returns is neither a keyword nor a used name. -/
theorem safeIndent_ok (want : String) (not : List String) :
    isKeyword (safeIndent want not) = false ∧ safeIndent want not ∉ not := by
  obtain ⟨_, _, hk, hn, _⟩ := safeIndentDepth_some not _ want _
    (safeIndentDepth_enough want not (keywords.length + not.length + 1) (by omega))
  exact ⟨hk, hn⟩

/-- What `safeIndent` returns is the requested name preceded by underscores. -/
theorem safeIndent_shape (want : String) (not : List String) :
    ∃ k, safeIndent want not = String.mk (List.replicate k '_') ++ want := by
  obtain ⟨k, hr, _⟩ := safeIndentDepth_some not _ want _
    (safeIndentDepth_enough want not (keywords.length + not.length + 1) (by omega))
  exact ⟨k, hr⟩
/-! ## `Bytes`, `String` and the documented loop: lemmas -/

/-- Where every name is ASCII and the receiver is not named `byte` or `string`, the
generated `Bytes()` returns the bytes of what the generated `String()` returns, on every
receiver value. -/
theorem Bytes_eq_utf8_String (receiver : String) (kind : Kind) (eType : String)
    (cs : List Const) (hrecv : receiver ∉ ["byte", "string"])
    (hascii : ∀ d ∈ cs, ∀ ch ∈ d.name.toList, ch.toNat < 128) (v : Val) :
    Bytes receiver kind eType cs v = (String_ receiver kind eType cs v).map utf8Bytes := by
  have hb : receiver ≠ "byte" := fun h => hrecv (by simp [h])
  have hs : receiver ≠ "string" := fun h => hrecv (by simp [h])
  have hlab : (cs.map (fun c => (c.name, nameRunes c.name))).map (fun cl => cl.1)
      = (cs.map (fun c => (c.name, c.name))).map (fun cl => cl.1) := by
    rw [List.map_map, List.map_map]
    rfl
  have hlit : (cs.map (fun c => (c.name, nameRunes c.name))).all
      (fun cl => (byteLiteral cl.2).isSome) = true := by
    rw [List.all_eq_true]
    intro cl hcl
    obtain ⟨d, hd, rfl⟩ := List.mem_map.mp hcl
    show (byteLiteral (nameRunes d.name)).isSome = true
    rw [byteLiteral_ascii d.name (hascii d hd)]
    rfl
  have huse : usable ["byte", "fmt"] receiver = usable ["fmt"] receiver := by
    simp [usable, hb]
  have hdispatch :
      runBytes (constEnv cs)
        (BytesMethod.dispatch receiver
          { cases := cs.map (fun c => (c.name, nameRunes c.name)), default := none } eType) v
      = (runString (constEnv cs)
        (StringMethod.dispatch receiver
          { cases := cs.map (fun c => (c.name, c.name)), default := none } eType) v).map
          utf8Bytes := by
    simp only [runBytes, runString, hlab, hlit, huse, Bool.and_true]
    by_cases hc : (usable ["fmt"] receiver &&
        noDuplicateCase (caseConstants receiver (constEnv cs)
          ((cs.map (fun c => (c.name, c.name))).map (fun cl => cl.1)))) = true
    · simp only [hc, if_true, Switch.run, List.find?_map]
      cases hf : cs.find? ((fun cl : String × List Char =>
          resolve [(receiver, some v)] (constEnv cs) cl.1 == some v) ∘
            fun c => (c.name, nameRunes c.name)) with
      | some d =>
        have hf' : cs.find? ((fun cl : String × String =>
            resolve [(receiver, some v)] (constEnv cs) cl.1 == some v) ∘
              fun c => (c.name, c.name)) = some d := hf
        have hd : d ∈ cs := List.mem_of_find?_eq_some hf
        simp only [hf', Option.map_some', byteLiteral_ascii d.name (hascii d hd)]
      | none =>
        have hf' : cs.find? ((fun cl : String × String =>
            resolve [(receiver, some v)] (constEnv cs) cl.1 == some v) ∘
              fun c => (c.name, c.name)) = none := hf
        simp only [hf', Option.map_none']
        cases v <;> rfl
    · simp only [hc]
      rfl
  have hcast : usable ["byte"] receiver = usable ["string"] receiver := by
    simp [usable, hb, hs]
  unfold Bytes String_
  by_cases hdecl : declsBuild cs = true
  · rw [if_pos hdecl, if_pos hdecl]
    by_cases hkind : kind = Kind.String
    · subst hkind
      simp only [generateBytesMethod, generateStringMethod, runBytes, runString, hcast]
      by_cases hu : usable ["string"] receiver = true
      · simp only [hu, if_true]
        cases v <;> rfl
      · simp only [hu]
        rfl
    · cases kind <;> first | exact absurd rfl hkind | exact hdispatch
  · rw [if_neg hdecl, if_neg hdecl]
    rfl

/-! ## Collector and locator: further lemmas -/

/-- The filters of `findConstantsOfType` keep exactly the constants of the target type
that are not the placeholder. -/
theorem retained_eq_some_iff (obj : TypeName) (o : Option Object) (c : Const) :
    retained obj o = some c ↔
      o = some (Object.const c) ∧ c.typ = GoType.named obj ∧ c.name ≠ "_" := by
  constructor
  · intro h
    unfold retained at h
    split at h
    · rename_i d
      split at h
      · rename_i t ht
        by_cases hname : (d.name == "_") = true
        · rw [if_pos hname] at h; cases h
        · rw [if_neg hname] at h
          by_cases hobj : (t != obj) = true
          · rw [if_pos hobj] at h; cases h
          · rw [if_neg hobj] at h
            have hdc : d = c := Option.some.inj h
            subst hdc
            refine ⟨rfl, ?_, by simpa using hname⟩
            have : t = obj := by simpa using hobj
            rw [ht, this]
      · cases h
    · cases h
  · rintro ⟨rfl, ht, hname⟩
    exact retained_of_const obj c ht hname

/-- A retained constant is listed as often as it is enumerated. -/
theorem count_filterMap_retained (obj : TypeName) (c : Const)
    (ht : c.typ = GoType.named obj) (hname : c.name ≠ "_") (defs : Defs) :
    (defs.filterMap (retained obj)).count c = defs.count (some (Object.const c)) := by
  induction defs with
  | nil => rfl
  | cons o t ih =>
    by_cases ho : o = some (Object.const c)
    · subst ho
      rw [List.filterMap_cons, retained_of_const obj c ht hname, List.count_cons_self,
        List.count_cons_self, ih]
    · have hne : retained obj o ≠ some c := fun h =>
        ho ((retained_eq_some_iff obj o c).mp h).1
      rw [List.count_cons_of_ne (Ne.symm ho)]
      cases hr : retained obj o with
      | none => rw [List.filterMap_cons, hr]; exact ih
      | some d =>
        rw [List.filterMap_cons, hr]
        have hdc : d ≠ c := fun h => hne (by rw [hr, h])
        rw [List.count_cons_of_ne (Ne.symm hdc)]
        exact ih

/-- A successful `findConstantsOfType` returns the retained constants, reordered and sorted. -/
theorem findConstantsOfType_ok (defs : Defs) (obj : TypeName) (ret : List Const) (kind : Kind)
    (h : findConstantsOfType defs obj = Except.ok (ret, kind)) :
    ret.Perm (defs.filterMap (retained obj)) ∧
      List.Sorted (fun a b : Const => posLess b.pos a.pos = false) ret := by
  rw [findConstantsOfType_eq] at h
  have hret : ret = sortSlice (fun a b => posLess a.pos b.pos)
      (defs.filterMap (retained obj)) := by
    revert h
    cases (defs.filterMap (retained obj)).dropWhile (fun c => c.val.kind == Kind.Unknown) with
    | nil =>
      intro h
      exact (congrArg Prod.fst (Except.ok.inj h)).symm
    | cons c rs =>
      intro h
      dsimp only at h
      by_cases hall : rs.all (fun d => d.val.kind == c.val.kind) = true
      · rw [if_pos hall] at h
        exact (congrArg Prod.fst (Except.ok.inj h)).symm
      · rw [if_neg hall] at h
        cases h
  subst hret
  exact ⟨sortSlice_perm _, sortSlice_sorted _⟩

/-- An element that the test of `dropWhile` does not accept is still there afterwards. -/
theorem mem_dropWhile_of_not {α : Type} (p : α → Bool) (l : List α) (a : α) (ha : a ∈ l)
    (hp : p a = false) : a ∈ l.dropWhile p := by
  induction l with
  | nil => cases ha
  | cons x t ih =>
    by_cases hx : p x = true
    · rw [List.dropWhile_cons_of_pos hx]
      rcases List.mem_cons.mp ha with h | h
      · rw [h, hx] at hp; cases hp
      · exact ih h
    · rw [List.dropWhile_cons_of_neg hx]
      exact ha

/-- The collector panics exactly when a retained constant enumerated after the first
retained constant of a known kind has another kind than that one. -/
theorem findConstantsOfType_error_iff (defs : Defs) (obj : TypeName) :
    findConstantsOfType defs obj = Except.error "multiple constant kinds found" ↔
      ∃ c rs, (defs.filterMap (retained obj)).dropWhile
          (fun c => c.val.kind == Kind.Unknown) = c :: rs ∧
        ∃ d ∈ rs, d.val.kind ≠ c.val.kind := by
  rw [findConstantsOfType_eq]
  cases (defs.filterMap (retained obj)).dropWhile (fun c => c.val.kind == Kind.Unknown) with
  | nil =>
    constructor
    · intro h; cases h
    · rintro ⟨c, rs, h, _⟩; cases h
  | cons c rs =>
    dsimp only
    by_cases hall : rs.all (fun d => d.val.kind == c.val.kind) = true
    · rw [if_pos hall]
      constructor
      · intro h; cases h
      · rintro ⟨c', rs', h, d, hd, hdk⟩
        exfalso
        obtain ⟨rfl, rfl⟩ := List.cons.inj h
        exact hdk (by simpa using (List.all_eq_true.mp hall) d hd)
    · rw [if_neg hall]
      constructor
      · intro _
        refine ⟨c, rs, rfl, ?_⟩
        by_contra hno
        apply hall
        rw [List.all_eq_true]
        intro d hd
        by_contra hdk
        exact hno ⟨d, hd, by simpa using hdk⟩
      · intro _; rfl

/-- The states of the loop of `findTypeDeclByPosition` once the nearest type `T` was seen. -/
theorem locateStep_settled (sameFile : String → String → Bool) (inputFileName : String)
    (line : Int) (T : TypeName)
    (hfile : sameFile T.pos.filename inputFileName = true) (hline : line ≤ (T.pos.line : Int))
    (o : Option Object)
    (ho : ∀ obj, o = some obj → obj ≠ Object.typeName T →
      sameFile obj.position.filename inputFileName = true →
      line ≤ (obj.position.line : Int) → (T.pos.line : Int) < (obj.position.line : Int)) :
    locateStep sameFile inputFileName line
      { ret := some T, closestObject := some (Object.typeName T), closest := T.pos.line } o
      = { ret := some T, closestObject := some (Object.typeName T), closest := T.pos.line } := by
  cases o with
  | none => rfl
  | some obj =>
    by_cases hT : obj = Object.typeName T
    · subst hT
      have h1 : ¬ ((T.pos.line : Int) < line) := by omega
      simp [locateStep, Object.position, hfile, h1]
    · by_cases hf : sameFile obj.position.filename inputFileName = true
      · by_cases hl : line ≤ (obj.position.line : Int)
        · have := ho obj rfl hT hf hl
          simp [locateStep, hf, this]
        · have h1 : (obj.position.line : Int) < line := by omega
          simp [locateStep, hf, h1]
      · simp [locateStep, hf]

/-- Before the nearest type `T` is seen, the loop keeps `closest` at or beyond the line
of `T`. -/
theorem locateStep_closest (sameFile : String → String → Bool) (inputFileName : String)
    (line : Int) (T : TypeName) (st : LocateState) (hst : (T.pos.line : Int) ≤ st.closest)
    (o : Option Object)
    (ho : ∀ obj, o = some obj → obj ≠ Object.typeName T →
      sameFile obj.position.filename inputFileName = true →
      line ≤ (obj.position.line : Int) → (T.pos.line : Int) < (obj.position.line : Int))
    (hne : o ≠ some (Object.typeName T)) :
    (T.pos.line : Int) ≤ (locateStep sameFile inputFileName line st o).closest := by
  cases o with
  | none => exact hst
  | some obj =>
    have hT : obj ≠ Object.typeName T := fun h => hne (by rw [h])
    unfold locateStep
    dsimp only
    split
    · exact hst
    · rename_i hf
      split
      · exact hst
      · rename_i hl
        have hf' : sameFile obj.position.filename inputFileName = true := by simpa using hf
        have hl' : line ≤ (obj.position.line : Int) := by
          simp only [Bool.or_eq_true, decide_eq_true_eq, not_or, not_lt] at hl
          exact hl.1
        have := ho obj rfl hT hf' hl'
        cases obj with
        | typeName c =>
          simp only [Object.position] at this ⊢
          omega
        | const c => exact hst
        | other n p => exact hst

/-- The loop of `findTypeDeclByPosition` ends in the state of the nearest type `T`, from
any state that has seen `T`, or that has `closest` at or beyond the line of `T` with `T`
still to come. -/
theorem foldl_locate (sameFile : String → String → Bool) (inputFileName : String)
    (line : Int) (T : TypeName)
    (hfile : sameFile T.pos.filename inputFileName = true) (hline : line ≤ (T.pos.line : Int)) :
    ∀ (defs : Defs) (st : LocateState),
      (∀ o ∈ defs, ∀ obj, o = some obj → obj ≠ Object.typeName T →
        sameFile obj.position.filename inputFileName = true →
        line ≤ (obj.position.line : Int) → (T.pos.line : Int) < (obj.position.line : Int)) →
      (st = { ret := some T, closestObject := some (Object.typeName T),
              closest := T.pos.line } ∨
        ((T.pos.line : Int) ≤ st.closest ∧ some (Object.typeName T) ∈ defs)) →
      defs.foldl (locateStep sameFile inputFileName line) st
        = { ret := some T, closestObject := some (Object.typeName T),
            closest := T.pos.line } := by
  intro defs
  induction defs with
  | nil =>
    intro st _ h
    rcases h with h | ⟨_, h⟩
    · exact h
    · cases h
  | cons o t ih =>
    intro st hgood h
    have hgo := hgood o (List.mem_cons_self _ _)
    have hgt : ∀ o ∈ t, ∀ obj, o = some obj → obj ≠ Object.typeName T →
        sameFile obj.position.filename inputFileName = true →
        line ≤ (obj.position.line : Int) → (T.pos.line : Int) < (obj.position.line : Int) :=
      fun o' ho' => hgood o' (List.mem_cons_of_mem _ ho')
    rw [List.foldl_cons]
    apply ih _ hgt
    rcases h with h | ⟨hc, hm⟩
    · left
      rw [h]
      exact locateStep_settled sameFile inputFileName line T hfile hline o hgo
    · by_cases hoT : o = some (Object.typeName T)
      · left
        subst hoT
        have h1 : ¬ ((T.pos.line : Int) < line) := by omega
        have h2 : ¬ (st.closest < (T.pos.line : Int)) := by omega
        simp [locateStep, Object.position, hfile, h1, h2]
      · right
        refine ⟨locateStep_closest sameFile inputFileName line T st hc o hgo hoT, ?_⟩
        rcases List.mem_cons.mp hm with h | h
        · exact absurd h.symm hoT
        · exact h

/-- Where the nearest declaration at or after the anchor line is a type `T`, alone on its
line, and that line is not beyond `math.MaxInt32`, `findTypeDecl` without a name returns
`T`, in every order of enumeration. -/
theorem findTypeDecl_nearest_type (sameFile : String → String → Bool) (defs : Defs)
    (inputFileName : String) (line : Int) (T : TypeName)
    (hT : some (Object.typeName T) ∈ defs)
    (hfile : sameFile T.pos.filename inputFileName = true)
    (hline : line ≤ (T.pos.line : Int)) (hmax : (T.pos.line : Int) ≤ 2147483647)
    (hothers : ∀ o ∈ defs, ∀ obj, o = some obj → obj ≠ Object.typeName T →
      sameFile obj.position.filename inputFileName = true →
      line ≤ (obj.position.line : Int) → (T.pos.line : Int) < (obj.position.line : Int)) :
    findTypeDecl sameFile defs "" inputFileName line = Except.ok T := by
  have hfold := foldl_locate sameFile inputFileName line T hfile hline defs
    { ret := none, closestObject := none, closest := 2147483647 } hothers
    (Or.inr ⟨hmax, hT⟩)
  simp only [findTypeDecl, findTypeDeclByPosition, hfold]
  rfl

/-- For a well-typed `Scan`, a token that is no constant's name takes the default clause:
the error names the type and the token, the receiver keeps its value. -/
theorem Scan_unknown_token (tn receiver scanStateVarName verbVarName tokenVarName : String)
    (cs : List Const)
    (hvars : [receiver, scanStateVarName, verbVarName, tokenVarName, "err"].Nodup)
    (huse : ∀ n ∈ [receiver, scanStateVarName, verbVarName, tokenVarName],
      usable ["true", "nil", "string", "fmt"] n = true)
    (hn : (cs.map (fun c => c.name)).Nodup)
    (hloc : ∀ d ∈ cs,
      d.name ∉ [receiver, scanStateVarName, verbVarName, tokenVarName, "err"])
    (t : String) (hno : ∀ c ∈ cs, c.name ≠ t) (recv : Val) :
    runScan (constEnv cs)
        (generateScanMethod tn receiver scanStateVarName verbVarName tokenVarName cs)
        (Except.ok t) recv
      = some { err := some ("unknown " ++ tn ++ " value: " ++ t), recv := recv } := by
  have hwt := Scan_wellTyped tn receiver scanStateVarName verbVarName tokenVarName cs hvars
    huse hn hloc
  have hnone : (cs.map (fun c => (c.name, ScanClause.assign c.name))).find?
      (fun cl => t == cl.1) = none := by
    rw [List.find?_eq_none]
    intro cl hcl hp
    obtain ⟨d, hd, rfl⟩ := List.mem_map.mp hcl
    have hp' : t = d.name := by simpa using hp
    exact hno d hd hp'.symm
  have hrun : (generateScanMethod tn receiver scanStateVarName verbVarName tokenVarName cs).sw.run
      (fun lit => t == lit) = some (ScanClause.unknown ("unknown " ++ tn ++ " value: ")) := by
    simp only [Switch.run, generateScanMethod, hnone]
  unfold runScan
  rw [if_pos hwt]
  simp only [hrun]

/-- For a well-typed `Scan`, a failed read of the token is returned as it is and the
receiver keeps its value. -/
theorem Scan_read_error (tn receiver scanStateVarName verbVarName tokenVarName : String)
    (cs : List Const)
    (hvars : [receiver, scanStateVarName, verbVarName, tokenVarName, "err"].Nodup)
    (huse : ∀ n ∈ [receiver, scanStateVarName, verbVarName, tokenVarName],
      usable ["true", "nil", "string", "fmt"] n = true)
    (hn : (cs.map (fun c => c.name)).Nodup)
    (hloc : ∀ d ∈ cs,
      d.name ∉ [receiver, scanStateVarName, verbVarName, tokenVarName, "err"])
    (e : String) (recv : Val) :
    runScan (constEnv cs)
        (generateScanMethod tn receiver scanStateVarName verbVarName tokenVarName cs)
        (Except.error e) recv
      = some { err := some e, recv := recv } := by
  have hwt := Scan_wellTyped tn receiver scanStateVarName verbVarName tokenVarName cs hvars
    huse hn hloc
  unfold runScan
  rw [if_pos hwt]

/-- For a well-typed `UnmarshalJSON`, bytes that are no quoted constant name take the
default clause: an error is returned and the receiver keeps its value. -/
theorem Unmarshal_mismatch (goType receiver varName : String) (cs : List Const)
    (hknown : ∀ d ∈ cs, d.val.kind ≠ Kind.Unknown) (hvars : receiver ≠ varName)
    (huse : ∀ n ∈ [receiver, varName], usable ["string", "nil", "fmt"] n = true)
    (hn : (cs.map (fun c => c.name)).Nodup)
    (hloc : ∀ d ∈ cs, d.name ∉ [receiver, varName])
    (b : List Nat) (hno : ∀ c ∈ cs, b ≠ [34] ++ utf8Bytes c.name ++ [34]) (recv : Val) :
    UnmarshalJSON goType receiver varName cs b recv
      = some { err := some ("failed to parse value " ++ fmtByteSlice b ++ " into " ++ goType),
               recv := recv } := by
  have hwt := Unmarshal_wellTyped receiver varName cs hvars huse hn hloc
  have hnone : (cs.map (fun c => ("\"" ++ c.name ++ "\"", UnmarshalClause.assign c.name))).find?
      (fun cl => b == utf8Bytes cl.1) = none := by
    rw [List.find?_eq_none]
    intro cl hcl hp
    obtain ⟨d, hd, rfl⟩ := List.mem_map.mp hcl
    apply hno d hd
    rw [← utf8Bytes_quoted]
    simpa using hp
  have hrun : (generateJsonUnmarshal receiver cs varName).sw.run
      (fun lit => b == utf8Bytes lit) = some UnmarshalClause.mismatch := by
    simp only [Switch.run, generateJsonUnmarshal, hnone]
  unfold UnmarshalJSON
  rw [if_pos (declsBuild_of_known cs hknown)]
  unfold runUnmarshal
  rw [if_pos hwt]
  simp only [hrun]

/-- The receiver names `l` and `a` pass `safeIndent` unchanged, and the helper names
`generateEnumCode` picks for them. -/
theorem helperNames_examples :
    (safeIndent "l" [] = "l" ∧ safeIndent "a" [] = "a") ∧
    ((helperNames "l").tokenVarName = "token" ∧
      (helperNames "l").scanStateVarName = "scanState" ∧
      (helperNames "l").verbVarName = "verb") ∧
    (helperNames "a").xVarName = "x" := by
  simp [helperNames, safeIndent, isKeyword, keywords]

/-- The name of a constant of the group denotes the value of a constant of the group. -/
theorem constEnv_of_name (cs : List Const) (e : Const) (he : e ∈ cs) :
    ∃ d ∈ cs, constEnv cs e.name = some d.val := by
  unfold constEnv
  cases hf : cs.find? (fun c => c.name == e.name) with
  | some d => exact ⟨d, List.mem_of_find?_eq_some hf, rfl⟩
  | none =>
    exfalso
    rw [List.find?_eq_none] at hf
    exact hf e he (by simp)

/-- Where no constant is named like the receiver, whatever the generated `Next` returns is
the value of a constant of the group. -/
theorem Next_some_mem (receiver : String) (cs : List Const)
    (hr : ∀ d ∈ cs, d.name ≠ receiver) (v w : Val) (h : Next receiver cs v = some w) :
    ∃ d ∈ cs, d.val = w := by
  have hres : ∀ e ∈ cs, ∀ u, resolve [(receiver, some v)] (constEnv cs) e.name = some u →
      ∃ d ∈ cs, d.val = u := by
    intro e he u hu
    rw [resolve_receiver_const receiver v cs hr e he] at hu
    obtain ⟨d, hd, hdv⟩ := constEnv_of_name cs e he
    rw [hdv] at hu
    exact ⟨d, hd, Option.some.inj hu⟩
  unfold Next at h
  split at h
  · unfold runNext at h
    split at h
    · simp only [Switch.run, generateNextMethod] at h
      cases hf : (cs.enum.map (fun ic =>
          (ic.2.name, ((cs.get? ((ic.1 + 1) % cs.length)).getD ic.2).name))).find?
          (fun cl => resolve [(receiver, some v)] (constEnv cs) cl.1 == some v) with
      | some cl =>
        rw [hf] at h
        have hm := List.mem_of_find?_eq_some hf
        obtain ⟨⟨i, c⟩, hic, rfl⟩ := List.mem_map.mp hm
        have hc : c ∈ cs :=
          List.mem_iff_getElem?.mpr ⟨i, List.mk_mem_enum_iff_getElem?.mp hic⟩
        have htarget : (cs.get? ((i + 1) % cs.length)).getD c ∈ cs := by
          cases hg : cs.get? ((i + 1) % cs.length) with
          | none => exact hc
          | some e =>
            rw [List.get?_eq_getElem?] at hg
            exact List.mem_iff_getElem?.mpr ⟨_, hg⟩
        exact hres _ htarget w h
      | none =>
        rw [hf] at h
        cases cs with
        | nil => cases h
        | cons a t => exact hres a (List.mem_cons_self _ _) w h
    · cases h
  · cases h

/-- For a non-empty group that passes the compiler, with no constant named like the
receiver, the generated `Next` returns the value of a constant of the group on every
receiver value. -/
theorem Next_mem_values (receiver : String) (cs : List Const) (hne : cs ≠ [])
    (hknown : ∀ d ∈ cs, d.val.kind ≠ Kind.Unknown) (huse : usable [] receiver = true)
    (hn : (cs.map (fun c => c.name)).Nodup) (hv : (cs.map (fun c => c.val)).Nodup)
    (hr : ∀ d ∈ cs, d.name ≠ receiver) (v : Val) :
    ∃ d ∈ cs, Next receiver cs v = some d.val := by
  have hres : ∀ e ∈ cs, ∃ d ∈ cs,
      resolve [(receiver, some v)] (constEnv cs) e.name = some d.val := by
    intro e he
    rw [resolve_receiver_const receiver v cs hr e he]
    exact constEnv_of_name cs e he
  rw [Next_builds receiver cs hknown huse hn hv hr]
  cases hf : (cs.enum.map (fun ic =>
      (ic.2.name, ((cs.get? ((ic.1 + 1) % cs.length)).getD ic.2).name))).find?
      (fun cl => resolve [(receiver, some v)] (constEnv cs) cl.1 == some v) with
  | some cl =>
    have hm := List.mem_of_find?_eq_some hf
    obtain ⟨⟨i, c⟩, hic, rfl⟩ := List.mem_map.mp hm
    have hc : c ∈ cs := List.mem_iff_getElem?.mpr ⟨i, List.mk_mem_enum_iff_getElem?.mp hic⟩
    have htarget : (cs.get? ((i + 1) % cs.length)).getD c ∈ cs := by
      cases hg : cs.get? ((i + 1) % cs.length) with
      | none => exact hc
      | some e =>
        rw [List.get?_eq_getElem?] at hg
        exact List.mem_iff_getElem?.mpr ⟨_, hg⟩
    exact hres _ htarget
  | none =>
    cases cs with
    | nil => exact absurd rfl hne
    | cons a t => exact hres a (List.mem_cons_self _ _)

/-- Whatever a positive number of applications of the generated `Next` ends on is the
value of a constant of the group. -/
theorem iterNext_some_mem (receiver : String) (cs : List Const)
    (hr : ∀ d ∈ cs, d.name ≠ receiver) :
    ∀ (n : Nat) (v w : Val), 0 < n → iterNext receiver cs n v = some w →
      ∃ d ∈ cs, d.val = w := by
  intro n
  induction n with
  | zero => intro v w h; omega
  | succ n ih =>
    intro v w _ h
    simp only [iterNext] at h
    cases hnext : Next receiver cs v with
    | none => rw [hnext] at h; cases h
    | some u =>
      rw [hnext, Option.some_bind] at h
      cases n with
      | zero =>
        simp only [iterNext] at h
        rw [← Option.some.inj h]
        exact Next_some_mem receiver cs hr v u hnext
      | succ n => exact ih u w (by omega) h

/-- Every positive number of applications of the generated `Next` of a group that passes
the compiler ends on the value of a constant of the group. -/
theorem iterNext_mem_values (receiver : String) (cs : List Const) (hne : cs ≠ [])
    (hknown : ∀ d ∈ cs, d.val.kind ≠ Kind.Unknown) (huse : usable [] receiver = true)
    (hn : (cs.map (fun c => c.name)).Nodup) (hv : (cs.map (fun c => c.val)).Nodup)
    (hr : ∀ d ∈ cs, d.name ≠ receiver) :
    ∀ (n : Nat) (v : Val), 0 < n → ∃ d ∈ cs, iterNext receiver cs n v = some d.val := by
  intro n
  induction n with
  | zero => intro v h; omega
  | succ n ih =>
    intro v _
    obtain ⟨d, hd, hnext⟩ := Next_mem_values receiver cs hne hknown huse hn hv hr v
    simp only [iterNext, hnext, Option.some_bind]
    cases n with
    | zero => exact ⟨d, hd, rfl⟩
    | succ n => exact ih d.val (by omega)

/-- The loop of the doc comment of `Next` never comes back to a start value that no
constant of the group has. -/
theorem iterNext_ne_undefined (receiver : String) (cs : List Const)
    (hr : ∀ d ∈ cs, d.name ≠ receiver) (zero : Val) (hz : ∀ d ∈ cs, d.val ≠ zero)
    (n : Nat) (hn : 0 < n) : iterNext receiver cs n zero ≠ some zero := by
  intro h
  obtain ⟨d, hd, hdv⟩ := iterNext_some_mem receiver cs hr n zero zero hn h
  exact hz d hd hdv

/-- Where every name is ASCII, the generated `MarshalJSON` returns a nil error and the bytes
of what the generated `String()` returns, between two quote characters. -/
theorem MarshalJSON_eq_quoted_String (receiver : String) (kind : Kind) (eType : String)
    (cs : List Const)
    (hrecv : usable ["make", "byte", "len", "append", "nil", "string"] receiver = true)
    (hascii : ∀ d ∈ cs, ∀ ch ∈ d.name.toList, ch.toNat < 128) (v : Val) :
    MarshalJSON receiver kind eType cs v
      = (String_ receiver kind eType cs v).map
          (fun s => ([34] ++ utf8Bytes s ++ [34], none)) := by
  have huse : usable ["make", "byte", "len", "append", "nil"] receiver = true :=
    usable_mono _ _ receiver (by decide) hrecv
  have hbs : receiver ∉ ["byte", "string"] :=
    (usable_spec _ _ (usable_mono _ ["byte", "string"] receiver (by decide) hrecv)).2.2
  unfold MarshalJSON
  rw [if_pos huse, Bytes_eq_utf8_String receiver kind eType cs hbs hascii v]
  cases String_ receiver kind eType cs v with
  | none => rfl
  | some s => simp [generateJsonMarshal]

/-! ## The generation pass -/

/-- No definition is retained by the collector exactly when every constant declared with
the target type is the placeholder `_`. -/
theorem filterMap_retained_eq_nil_iff (defs : Defs) (obj : TypeName) :
    defs.filterMap (retained obj) = [] ↔
      ∀ c, some (Object.const c) ∈ defs → c.typ = GoType.named obj → c.name = "_" := by
  rw [List.filterMap_eq_nil_iff]
  constructor
  · intro h c hc ht
    by_contra hname
    have hsome := (retained_eq_some_iff obj (some (Object.const c)) c).mpr ⟨rfl, ht, hname⟩
    rw [h _ hc] at hsome
    exact Option.noConfusion hsome
  · intro h o ho
    cases hr : retained obj o with
    | none => rfl
    | some c =>
      obtain ⟨ho', ht, hname⟩ := (retained_eq_some_iff obj o c).mp hr
      exact absurd (h c (ho' ▸ ho) ht) hname

/-- The collector returns an empty sequence exactly when it retains no definition. -/
theorem findConstantsOfType_nil_iff (defs : Defs) (obj : TypeName) :
    (∃ kind, findConstantsOfType defs obj = Except.ok ([], kind)) ↔
      defs.filterMap (retained obj) = [] := by
  constructor
  · rintro ⟨kind, h⟩
    have hp := (findConstantsOfType_ok defs obj [] kind h).1
    exact hp.nil_eq.symm
  · intro h
    refine ⟨Kind.Unknown, ?_⟩
    rw [findConstantsOfType_eq, h]
    rfl

/-- With no retained definition for the located type, `RunE` returns the error that
quotes the name of the type and does not reach `generateEnumCode`. -/
theorem RunE_of_none_retained (sameFile : String → String → Bool) (isUpper : Char → Bool)
    (toLower : Char → Char) (defs : Defs) (typeName inputFileName : String) (line : Int)
    (receiverFlag : String) (tn : TypeName)
    (hfind : findTypeDecl sameFile defs typeName inputFileName line = Except.ok tn)
    (hnone : defs.filterMap (retained tn) = []) :
    RunE sameFile isUpper toLower defs typeName inputFileName line receiverFlag
      = Except.error (RunError.failed ("no constants of type " ++ fmtQ tn.name ++ " found")) := by
  unfold RunE
  rw [hfind]
  dsimp only
  rw [findConstantsOfType_eq, hnone]
  rfl

/-- For a non-empty group of Integer, Text or Boolean kind that passes the compiler, with
no constant named like the receiver, the generated `Next` returns a defined value on
every receiver value. -/
theorem Defined_Next (receiver : String) (cs : List Const) (hne : cs ≠ [])
    (huse : usable ["true", "false"] receiver = true)
    (hk : ∀ d ∈ cs, d.val.kind = Kind.Int ∨ d.val.kind = Kind.String ∨ d.val.kind = Kind.Bool)
    (hn : (cs.map (fun c => c.name)).Nodup) (hv : (cs.map (fun c => c.val)).Nodup)
    (hr : ∀ d ∈ cs, d.name ≠ receiver) (v : Val) :
    ∃ w, Next receiver cs v = some w ∧ Defined receiver cs w = some true := by
  have hknown : ∀ d ∈ cs, d.val.kind ≠ Kind.Unknown := by
    intro d hd h
    rcases hk d hd with h1 | h1 | h1 <;> rw [h] at h1 <;> cases h1
  have hnext' : usable [] receiver = true :=
    usable_mono _ [] receiver (fun n hn' => absurd hn' (List.not_mem_nil n)) huse
  obtain ⟨d, hd, hnext⟩ := Next_mem_values receiver cs hne hknown hnext' hn hv hr v
  obtain ⟨b, hb, hiff⟩ := Defined_iff receiver cs hne huse hk hv d.val
  have hbt : b = true := hiff.mpr ⟨d, hd, rfl⟩
  exact ⟨d.val, hnext, by rw [hb, hbt]⟩

/-! ## Decimal rendering and the injectivity of `String` -/

/-- The digits already produced stay behind the digits produced next. -/
theorem toDigitsCore_append (fuel : Nat) :
    ∀ (n : Nat) (ds : List Char),
      Nat.toDigitsCore 10 fuel n ds = Nat.toDigitsCore 10 fuel n [] ++ ds := by
  induction fuel with
  | zero => intro n ds; rfl
  | succ fuel ih =>
    intro n ds
    simp only [Nat.toDigitsCore]
    by_cases h : n / 10 = 0
    · simp [h]
    · simp only [h, if_false]
      rw [ih (n / 10) (Nat.digitChar (n % 10) :: ds), ih (n / 10) [Nat.digitChar (n % 10)]]
      simp

/-- A decimal digit is read back from its character. -/
theorem digitChar_toNat (k : Nat) (hk : k < 10) : (Nat.digitChar k).toNat - 48 = k := by
  interval_cases k <;> rfl

/-- No decimal digit character is the minus sign. -/
theorem digitChar_ne_minus (k : Nat) (hk : k < 10) : Nat.digitChar k ≠ '-' := by
  interval_cases k <;> decide

/-- Reading the decimal digits of `n` from the left gives `n` back. -/
theorem toDigitsCore_value (fuel : Nat) :
    ∀ n : Nat, n < fuel →
      (Nat.toDigitsCore 10 fuel n []).foldl (fun acc c => acc * 10 + (c.toNat - 48)) 0 = n := by
  induction fuel with
  | zero => intro n h; omega
  | succ fuel ih =>
    intro n hn
    simp only [Nat.toDigitsCore]
    by_cases h : n / 10 = 0
    · have hlt : n < 10 := by omega
      have hmod : n % 10 = n := Nat.mod_eq_of_lt hlt
      simp [h, hmod, digitChar_toNat n hlt]
    · simp only [h, if_false]
      rw [toDigitsCore_append fuel (n / 10) [Nat.digitChar (n % 10)], List.foldl_append,
        ih (n / 10) (by omega)]
      simp only [List.foldl_cons, List.foldl_nil]
      rw [digitChar_toNat (n % 10) (Nat.mod_lt _ (by decide))]
      omega

/-- No decimal rendering holds a minus sign. -/
theorem toDigitsCore_no_minus (fuel : Nat) :
    ∀ (n : Nat) (ds : List Char), '-' ∉ ds → '-' ∉ Nat.toDigitsCore 10 fuel n ds := by
  induction fuel with
  | zero => intro n ds h; exact h
  | succ fuel ih =>
    intro n ds hds
    have hcons : '-' ∉ Nat.digitChar (n % 10) :: ds := by
      intro hm
      rcases List.mem_cons.mp hm with h | h
      · exact digitChar_ne_minus _ (Nat.mod_lt _ (by decide)) h.symm
      · exact hds h
    simp only [Nat.toDigitsCore]
    by_cases h : n / 10 = 0
    · simpa [h] using hcons
    · simp only [h, if_false]
      exact ih _ _ hcons

/-- The decimal rendering of a natural number determines it. -/
theorem Nat_repr_inj (n m : Nat) (h : Nat.repr n = Nat.repr m) : n = m := by
  have hd : Nat.toDigits 10 n = Nat.toDigits 10 m := by
    have := congrArg String.data h
    simpa [Nat.repr, List.asString] using this
  have hn := toDigitsCore_value (n + 1) n (by omega)
  have hm := toDigitsCore_value (m + 1) m (by omega)
  unfold Nat.toDigits at hd
  rw [hd] at hn
  omega

/-- The decimal rendering of an integer, as `%d` prints it, determines the integer. -/
theorem Int_toString_inj (a b : Int) (h : toString a = toString b) : a = b := by
  have hminus : ∀ (n m : Nat), Nat.repr n ≠ "-" ++ Nat.repr m := by
    intro n m heq
    have hd := congrArg String.data heq
    have hmem : '-' ∈ (Nat.repr n).data := by
      rw [hd]
      simp [String.data_append]
    have hno := toDigitsCore_no_minus (n + 1) n [] (by simp)
    exact hno (by simpa [Nat.repr, List.asString, Nat.toDigits] using hmem)
  cases a with
  | ofNat n =>
    cases b with
    | ofNat m =>
      have h' : Nat.repr n = Nat.repr m := h
      rw [Nat_repr_inj n m h']
    | negSucc m => exact absurd h (hminus n (m + 1))
  | negSucc n =>
    cases b with
    | ofNat m => exact absurd h.symm (hminus m (n + 1))
    | negSucc m =>
      have h' : "-" ++ Nat.repr (n + 1) = "-" ++ Nat.repr (m + 1) := h
      have hd := congrArg String.data h'
      simp only [String.data_append, List.append_cancel_left_eq] at hd
      have hr : Nat.repr (n + 1) = Nat.repr (m + 1) := String.ext hd
      have := Nat_repr_inj _ _ hr
      have hnm : n = m := by omega
      rw [hnm]

/-- The fallback text determines the integer it renders. -/
theorem sprintfD_inj (typeName : String) (a b : Int)
    (h : sprintfD typeName a = sprintfD typeName b) : a = b := by
  unfold sprintfD at h
  have hd := congrArg String.data h
  simp only [String.data_append, List.append_assoc, List.append_cancel_left_eq,
    List.append_cancel_right_eq] at hd
  exact Int_toString_inj a b (String.ext hd)

/-- The fallback text holds an opening parenthesis. -/
theorem sprintfD_paren (typeName : String) (i : Int) : '(' ∈ (sprintfD typeName i).toList := by
  unfold sprintfD
  simp [String.toList, String.data_append]

/-- For an Integer-kind group that passes the compiler (known kinds, distinct names and
values, a receiver that can be used and is the name of no constant), the generated
`String()` is the run of its switch followed by the fallback. -/
theorem String_builds (receiver eType : String) (cs : List Const)
    (hknown : ∀ d ∈ cs, d.val.kind ≠ Kind.Unknown) (huse : usable ["fmt"] receiver = true)
    (hn : (cs.map (fun c => c.name)).Nodup) (hv : (cs.map (fun c => c.val)).Nodup)
    (hr : ∀ d ∈ cs, d.name ≠ receiver) (v : Val) :
    String_ receiver Kind.Int eType cs v =
      match (cs.map (fun c => (c.name, c.name))).find?
          (fun cl => resolve [(receiver, some v)] (constEnv cs) cl.1 == some v) with
      | some cl => some cl.2
      | none =>
        match v with
        | .int i => some (sprintfD eType i)
        | _ => none := by
  simp only [String_, declsBuild_of_known cs hknown, if_true, generateStringMethod, runString,
    huse, noDuplicateCase_labels receiver cs hn hv hr (fun d => d.name), Bool.and_self,
    Switch.run]
  cases (cs.map (fun c => (c.name, c.name))).find?
      (fun cl => resolve [(receiver, some v)] (constEnv cs) cl.1 == some v) with
  | some cl => rfl
  | none => rfl

/-- For an Integer-kind group that passes the compiler, `String()` returns the name of the
constant on a defined value. -/
theorem String_defined (receiver eType : String) (cs : List Const)
    (hknown : ∀ d ∈ cs, d.val.kind ≠ Kind.Unknown) (huse : usable ["fmt"] receiver = true)
    (hn : (cs.map (fun c => c.name)).Nodup) (hv : (cs.map (fun c => c.val)).Nodup)
    (hr : ∀ d ∈ cs, d.name ≠ receiver) (c : Const) (hc : c ∈ cs) :
    String_ receiver Kind.Int eType cs c.val = some c.name := by
  rw [String_builds receiver eType cs hknown huse hn hv hr]
  simp only [find?_resolve_eq receiver cs hr c.val _ (names_of_map cs _),
    find?_constEnv_self cs hn hv (fun d => d.name) c hc]

/-- For an Integer-kind group that passes the compiler, `String()` returns the fallback
text on an integer that no constant has. -/
theorem String_undefined (receiver eType : String) (cs : List Const)
    (hknown : ∀ d ∈ cs, d.val.kind ≠ Kind.Unknown) (huse : usable ["fmt"] receiver = true)
    (hn : (cs.map (fun c => c.name)).Nodup) (hv : (cs.map (fun c => c.val)).Nodup)
    (hr : ∀ d ∈ cs, d.name ≠ receiver) (i : Int) (hu : ∀ c ∈ cs, c.val ≠ Val.int i) :
    String_ receiver Kind.Int eType cs (Val.int i) = some (sprintfD eType i) := by
  rw [String_builds receiver eType cs hknown huse hn hv hr]
  simp only [find?_resolve_eq receiver cs hr (Val.int i) _ (names_of_map cs _),
    find?_constEnv_none cs _ (Val.int i) hu]

/-- For an Integer-kind group that passes the compiler, with names free of parentheses,
`String()` returns a text on every integer and tells any two integers apart; the fallback
text is the name of no constant. -/
theorem String_injective (receiver eType : String) (cs : List Const)
    (hknown : ∀ d ∈ cs, d.val.kind ≠ Kind.Unknown) (huse : usable ["fmt"] receiver = true)
    (hn : (cs.map (fun c => c.name)).Nodup) (hv : (cs.map (fun c => c.val)).Nodup)
    (hid : ∀ d ∈ cs, '(' ∉ d.name.toList)
    (hr : ∀ d ∈ cs, d.name ≠ receiver) (a b : Int) :
    (∃ s, String_ receiver Kind.Int eType cs (Val.int a) = some s) ∧
      (String_ receiver Kind.Int eType cs (Val.int a)
          = String_ receiver Kind.Int eType cs (Val.int b) → a = b) ∧
      ((∀ c ∈ cs, c.val ≠ Val.int a) →
        ∀ c ∈ cs, String_ receiver Kind.Int eType cs (Val.int a) ≠ some c.name) := by
  have hdef : ∀ i : Int, (∃ c ∈ cs, c.val = Val.int i) ∨ (∀ c ∈ cs, c.val ≠ Val.int i) := by
    intro i
    by_cases h : ∃ c ∈ cs, c.val = Val.int i
    · exact Or.inl h
    · exact Or.inr (fun c hc hval => h ⟨c, hc, hval⟩)
  have hne : ∀ (i : Int) (c : Const), c ∈ cs → sprintfD eType i ≠ c.name := by
    intro i c hc heq
    exact hid c hc (heq ▸ sprintfD_paren eType i)
  have hD := String_defined receiver eType cs hknown huse hn hv hr
  have hU := String_undefined receiver eType cs hknown huse hn hv hr
  refine ⟨?_, ?_, ?_⟩
  · rcases hdef a with ⟨c, hc, hval⟩ | hu
    · exact ⟨c.name, hval ▸ hD c hc⟩
    · exact ⟨_, hU a hu⟩
  · intro h
    rcases hdef a with ⟨c, hc, hca⟩ | hua
    · rw [← hca, hD c hc] at h
      rcases hdef b with ⟨d, hd, hdb⟩ | hub
      · rw [← hdb, hD d hd] at h
        have hcd : c = d := List.inj_on_of_nodup_map hn hc hd (Option.some.inj h)
        have : Val.int a = Val.int b := by rw [← hca, ← hdb, hcd]
        exact Val.int.inj this
      · rw [hU b hub] at h
        exact absurd (Option.some.inj h).symm (hne b c hc)
    · rw [hU a hua] at h
      rcases hdef b with ⟨d, hd, hdb⟩ | hub
      · rw [← hdb, hD d hd] at h
        exact absurd (Option.some.inj h) (hne a d hd)
      · rw [hU b hub] at h
        exact sprintfD_inj eType a b (Option.some.inj h)
  · intro hu c hc
    rw [hU a hu]
    intro h
    exact hne a c hc (Option.some.inj h)

/-- The default receiver names `RunE` settles on for the types `Kind` and `Axis`, and an
explicit receiver name, with the tests of package `unicode` on ASCII letters. -/
theorem chooseReceiver_examples :
    chooseReceiver Char.isUpper Char.toLower "" kindType = "k" ∧
      chooseReceiver Char.isUpper Char.toLower "" axisType = "a" ∧
      chooseReceiver Char.isUpper Char.toLower "other" kindType = "other" := by
  have h1 : defaultReceiverName Char.isUpper Char.toLower kindType = "k" := by decide
  have h2 : defaultReceiverName Char.isUpper Char.toLower axisType = "a" := by decide
  simp [chooseReceiver, h1, h2, safeIndent, isKeyword, keywords]

/-! ## Groups whose generated unit the compiler accepts -/

/-- What `unitAccepted` says, condition by condition. -/
theorem unitAccepted_spec (receiver : String) (h : HelperNames) (kind : Kind)
    (cs : List Const) (hacc : unitAccepted receiver h kind cs = true) :
    cs ≠ [] ∧ (kind = Kind.Int ∨ kind = Kind.String) ∧ (∀ d ∈ cs, d.val.kind = kind) ∧
      (cs.map (fun c => c.name)).Nodup ∧ (cs.map (fun c => c.val)).Nodup ∧
      (methodVariables receiver h).Nodup ∧
      (∀ n ∈ methodVariables receiver h, usable usedIdentifiers n = true) ∧
      (∀ d ∈ cs, d.name ∉ methodVariables receiver h) ∧
      (kind = Kind.Int → ∀ d ∈ cs, ∀ ch ∈ d.name.toList, ch.toNat < 256) := by
  simp only [unitAccepted, Bool.and_eq_true, Bool.or_eq_true, Bool.not_eq_true',
    decide_eq_true_eq, beq_iff_eq, List.all_eq_true, List.isEmpty_eq_false] at hacc
  obtain ⟨⟨⟨⟨⟨⟨⟨⟨⟨h1, h2⟩, h3⟩, h4⟩, h5⟩, h6⟩, h7⟩, _⟩, h8⟩, h9⟩ := hacc
  refine ⟨?_, h2, h3, h4, h5, h6, h7, ?_, ?_⟩
  · intro hnil
    rw [hnil] at h1
    simp at h1
  · intro d hd hmem
    have hc : ¬ d.name ∈ methodVariables receiver h := by simpa using (h8 d hd).1.1
    exact hc hmem
  · intro hk d hd ch hch
    rcases h9 with h9 | h9
    · rw [hk] at h9; cases h9
    · exact h9 d hd ch hch

/-- In an accepted group every constant has a known kind. -/
theorem unitAccepted_known (receiver : String) (h : HelperNames) (kind : Kind)
    (cs : List Const) (hacc : unitAccepted receiver h kind cs = true) :
    ∀ d ∈ cs, d.val.kind ≠ Kind.Unknown := by
  obtain ⟨_, hk, hkind, _⟩ := unitAccepted_spec receiver h kind cs hacc
  intro d hd hu
  rw [hkind d hd] at hu
  rcases hk with hk | hk <;> rw [hk] at hu <;> cases hu

/-- In an accepted group the receiver can be used beside any of the identifiers the
bodies use. -/
theorem unitAccepted_receiver (receiver : String) (h : HelperNames) (kind : Kind)
    (cs : List Const) (hacc : unitAccepted receiver h kind cs = true) (part : List String)
    (hpart : ∀ n ∈ part, n ∈ usedIdentifiers) : usable part receiver = true := by
  obtain ⟨_, _, _, _, _, _, huse, _⟩ := unitAccepted_spec receiver h kind cs hacc
  exact usable_mono _ part receiver hpart (huse receiver (List.mem_cons_self _ _))

/-- In an accepted group no constant is named like the receiver. -/
theorem unitAccepted_not_receiver (receiver : String) (h : HelperNames) (kind : Kind)
    (cs : List Const) (hacc : unitAccepted receiver h kind cs = true) :
    ∀ d ∈ cs, d.name ≠ receiver := by
  obtain ⟨_, _, _, _, _, _, _, hloc, _⟩ := unitAccepted_spec receiver h kind cs hacc
  intro d hd heq
  exact hloc d hd (by rw [heq]; exact List.mem_cons_self _ _)

/-- In an accepted group the variables of `Scan` meet what `Scan` asks of them. -/
theorem unitAccepted_scan (receiver : String) (h : HelperNames) (kind : Kind)
    (cs : List Const) (hacc : unitAccepted receiver h kind cs = true) :
    [receiver, h.scanStateVarName, h.verbVarName, h.tokenVarName, "err"].Nodup ∧
      (∀ n ∈ [receiver, h.scanStateVarName, h.verbVarName, h.tokenVarName],
        usable ["true", "nil", "string", "fmt"] n = true) ∧
      (∀ d ∈ cs, d.name ∉
        [receiver, h.scanStateVarName, h.verbVarName, h.tokenVarName, "err"]) := by
  obtain ⟨_, _, _, _, _, hnodup, huse, hloc, _⟩ := unitAccepted_spec receiver h kind cs hacc
  have hsub : List.Sublist
      [receiver, h.scanStateVarName, h.verbVarName, h.tokenVarName, "err"]
      (methodVariables receiver h) :=
    List.sublist_append_left
      [receiver, h.scanStateVarName, h.verbVarName, h.tokenVarName, "err"]
      [h.xVarName, h.yVarName]
  refine ⟨hnodup.sublist hsub, ?_, ?_⟩
  · intro n hn
    have hn' : n ∈ methodVariables receiver h := by
      apply hsub.subset
      simp only [List.mem_cons, List.mem_singleton, List.not_mem_nil, or_false] at hn ⊢
      tauto
    exact usable_mono _ _ n (by decide) (huse n hn')
  · intro d hd hmem
    exact hloc d hd (hsub.subset hmem)

/-- In an accepted group the receiver and the parameter of `UnmarshalJSON` meet what
`UnmarshalJSON` asks of them. -/
theorem unitAccepted_unmarshal (receiver : String) (h : HelperNames) (kind : Kind)
    (cs : List Const) (hacc : unitAccepted receiver h kind cs = true) :
    receiver ≠ h.xVarName ∧
      (∀ n ∈ [receiver, h.xVarName], usable ["string", "nil", "fmt"] n = true) ∧
      (∀ d ∈ cs, d.name ∉ [receiver, h.xVarName]) := by
  obtain ⟨_, _, _, _, _, hnodup, huse, hloc, _⟩ := unitAccepted_spec receiver h kind cs hacc
  have hsub : List.Sublist [receiver, h.xVarName] (methodVariables receiver h) :=
    List.Sublist.cons₂ _ (List.Sublist.cons _ (List.Sublist.cons _ (List.Sublist.cons _
      (List.Sublist.cons _ (List.Sublist.cons₂ _ (List.nil_sublist _))))))
  refine ⟨?_, ?_, ?_⟩
  · have h2 := hnodup.sublist hsub
    simp only [List.nodup_cons, List.mem_singleton, List.not_mem_nil, not_false_eq_true,
      List.nodup_nil, and_true] at h2
    exact h2
  · intro n hn
    exact usable_mono _ _ n (by decide) (huse n (hsub.subset hn))
  · intro d hd hmem
    exact hloc d hd (hsub.subset hmem)

/-- In an accepted group every constant is of Integer, Text or Boolean kind. -/
theorem unitAccepted_kinds (receiver : String) (h : HelperNames) (kind : Kind)
    (cs : List Const) (hacc : unitAccepted receiver h kind cs = true) :
    ∀ d ∈ cs, d.val.kind = Kind.Int ∨ d.val.kind = Kind.String ∨ d.val.kind = Kind.Bool := by
  obtain ⟨_, hk, hkind, _⟩ := unitAccepted_spec receiver h kind cs hacc
  intro d hd
  rw [hkind d hd]
  rcases hk with hk | hk
  · exact Or.inl hk
  · exact Or.inr (Or.inl hk)

/-- For the floating-point constant `Half = 0.5` the case list of `Defined` is
`case 1/2:`, which the compiler reads as the quotient 0 of two integer constants: the
method returns false on the value of `Half` and true on 0. -/
theorem Defined_fraction_read_back :
    readExactString (Val.float (1 / 2)) = some (Val.float 0) ∧
      Defined "r" halfGroup (Val.float (1 / 2)) = some false ∧
      Defined "r" halfGroup (Val.float 0) = some true := by
  have h1 : (1 / 2 : Rat).num = 1 := by norm_num
  have h2 : (1 / 2 : Rat).den = 2 := by norm_num
  have hread : readExactString (Val.float (1 / 2)) = some (Val.float 0) := by
    simp only [readExactString, h1, h2]
    rfl
  have huse : usable ["true", "false"] "r" = true := by decide
  have hdecl : declsBuild halfGroup = true := by
    simp only [declsBuild, halfGroup, List.all_cons, List.all_nil, Val.kind]
    rfl
  have hdup : noDuplicateCase [Val.float 0] = true := by
    simp only [noDuplicateCase, List.filter, Val.dupChecked]
    exact decide_eq_true (List.nodup_singleton _)
  have hne : ([Val.float 0].contains (Val.float (1 / 2))) = false := by
    have : (Val.float (1 / 2) == Val.float 0) = false := by
      rw [beq_eq_false_iff_ne]
      intro h
      have := Val.float.inj h
      norm_num at this
    simp only [List.contains, List.elem, this]
  have heq : ([Val.float 0].contains (Val.float 0)) = true := by
    simp only [List.contains, List.elem, beq_self_eq_true]
  refine ⟨hread, ?_, ?_⟩
  · unfold Defined
    rw [if_pos hdecl]
    simp only [runDefined, generateDefinedMethod, halfGroup, List.map_cons, List.map_nil,
      List.flatten_cons, List.flatten_nil, List.append_nil, huse, List.isEmpty_cons,
      List.all_cons, List.all_nil, List.filterMap_cons, List.filterMap_nil, hread,
      Option.isSome_some, hdup, Bool.not_false, Bool.and_self, if_true, Switch.run,
      List.find?, hne]
  · unfold Defined
    rw [if_pos hdecl]
    simp only [runDefined, generateDefinedMethod, halfGroup, List.map_cons, List.map_nil,
      List.flatten_cons, List.flatten_nil, List.append_nil, huse, List.isEmpty_cons,
      List.all_cons, List.all_nil, List.filterMap_cons, List.filterMap_nil, hread,
      Option.isSome_some, hdup, Bool.not_false, Bool.and_self, if_true, Switch.run,
      List.find?, heq]
/-! ## The claims -/

/-- C1, counterexample: (1) in the Text-kind group `Hello = "hello"` the generated `String()`
renders the constant as `hello`, and the generated `Scan` rejects that text and leaves
the receiver as it was; (2) in the Integer-kind group `k = 0`, `other = 1` of type `Kind`,
generated with the default receiver `k`, the clause `*k = k` of `Scan` assigns the pointer
receiver to the value it points to, so the method is rejected and scans nothing; (3) in
the Integer-kind group `A = 0`, `B = 0`, `C = 1` the switch of `String()` has two equal
case constants and is rejected, so there is no text to scan. -/
theorem Scan_String_text_counterexample :
    (lowerGroup.map (fun c => (c.name, c.val)) = [("Hello", Val.str "hello")] ∧
      String_ "s" Kind.String "StrKind" lowerGroup (Val.str "hello") = some "hello" ∧
      Scan "StrKind" "s" "scanState" "verb" "token" lowerGroup "hello" (Val.str "")
        = some { err := some "unknown StrKind value: hello", recv := Val.str "" }) ∧
    (shadowGroup.map (fun c => (c.name, c.val)) = [("k", Val.int 0), ("other", Val.int 1)] ∧
      String_ "k" Kind.Int "Kind" shadowGroup (Val.int 1) = some "k" ∧
      Scan "Kind" "k" "scanState" "verb" "token" shadowGroup "k" (Val.int 0) = none) ∧
    (aliasGroup.map (fun c => (c.name, c.val))
        = [("A", Val.int 0), ("B", Val.int 0), ("C", Val.int 1)] ∧
      String_ "k" Kind.Int "Kind" aliasGroup (Val.int 0) = none) := by
  decide

/-- C1, as amended: for a group whose generated unit the compiler accepts (`unitAccepted`:
Integer or Text kind, pairwise distinct names and values, variables of the methods that
are distinct, not blank and hide nothing, no constant named like a variable or like an
identifier the file uses, names of an Integer-kind group written in runes that fit a
byte), whose names hold no space rune, the generated `Scan` reading the text the generated
`String()` returns for the value of a constant `c` returns no error and stores the value
of `c`: for an Integer-kind group for every constant `c`, for a Text-kind group for every
constant `c` whose literal value is spelled exactly like its declared name. -/
theorem Scan_String_roundtrip (kind : Kind) (eType receiver : String) (h : HelperNames)
    (cs : List Const) (hacc : unitAccepted receiver h kind cs = true)
    (hs : ∀ d ∈ cs, ∀ ch ∈ d.name.toList, isSpace ch = false)
    (c : Const) (hc : c ∈ cs) (hval : kind = Kind.String → c.val = Val.str c.name)
    (recv : Val) :
    ∃ s, String_ receiver kind eType cs c.val = some s ∧
      Scan eType receiver h.scanStateVarName h.verbVarName h.tokenVarName cs s recv
        = some { err := none, recv := c.val } := by
  obtain ⟨_, hk, _, hn, hv, _⟩ := unitAccepted_spec receiver h kind cs hacc
  have hknown := unitAccepted_known receiver h kind cs hacc
  have hr := unitAccepted_not_receiver receiver h kind cs hacc
  obtain ⟨hvars, huse, hloc⟩ := unitAccepted_scan receiver h kind cs hacc
  have hscan := Scan_name eType receiver h.scanStateVarName h.verbVarName h.tokenVarName cs
    hknown hvars huse hn hloc c hc (hs c hc) recv
  rcases hk with hk | hk
  · subst hk
    exact ⟨c.name, String_defined receiver eType cs hknown
      (unitAccepted_receiver receiver h _ cs hacc _ (by decide)) hn hv hr c hc, hscan⟩
  · subst hk
    refine ⟨c.name, ?_, hscan⟩
    have huse' : usable ["string"] receiver = true :=
      unitAccepted_receiver receiver h _ cs hacc _ (by decide)
    rw [hval rfl]
    simp only [String_, declsBuild_of_known cs hknown, if_true, generateStringMethod,
      runString, huse']

/-- C1, witness: the Text-kind group `Hello = "Hello"`, `World = "World"` at `Hello`, with
receiver `s` and the helper names the generator picks for it. -/
theorem Scan_String_roundtrip_witness :
    ∃ s, String_ "s" Kind.String "StrKind" strKindGroup hello.val = some s ∧
      Scan "StrKind" "s" "scanState" "verb" "token" strKindGroup s (Val.str "")
        = some { err := none, recv := hello.val } :=
  Scan_String_roundtrip Kind.String "StrKind" "s" plainHelpers strKindGroup (by decide)
    (by decide) hello (by decide) (fun _ => rfl) (Val.str "")

/-- C2, counterexample: (1) in the Text-kind group `Hello = "hello"` the generated
`MarshalJSON` encodes the constant as the bytes of `"hello"` between quotes, and the
generated `UnmarshalJSON` rejects these bytes and leaves the receiver as it was; (2) in the
Integer-kind group `k = 0`, `other = 1` of type `Kind`, generated with the default receiver
`k`, the clause `*k = k` of `UnmarshalJSON` assigns the pointer receiver to the value it
points to, so the method is rejected and decodes nothing; (3) in the Integer-kind group
`A = 0`, `B = 0`, `C = 1` the switch of `Bytes()`, which `MarshalJSON` calls, has two equal
case constants and is rejected, so there are no bytes to decode. -/
theorem Unmarshal_Marshal_text_counterexample :
    (lowerGroup.map (fun c => (c.name, c.val)) = [("Hello", Val.str "hello")] ∧
      MarshalJSON "s" Kind.String "StrKind" lowerGroup (Val.str "hello")
        = some ([34, 104, 101, 108, 108, 111, 34], none) ∧
      UnmarshalJSON "example.StrKind" "s" "x" lowerGroup [34, 104, 101, 108, 108, 111, 34]
          (Val.str "")
        = some ⟨some "failed to parse value [34 104 101 108 108 111 34] into example.StrKind",
            Val.str ""⟩) ∧
    (shadowGroup.map (fun c => (c.name, c.val)) = [("k", Val.int 0), ("other", Val.int 1)] ∧
      MarshalJSON "k" Kind.Int "Kind" shadowGroup (Val.int 1) = some ([34, 107, 34], none) ∧
      UnmarshalJSON "example.Kind" "k" "x" shadowGroup [34, 107, 34] (Val.int 0) = none) ∧
    (aliasGroup.map (fun c => (c.name, c.val))
        = [("A", Val.int 0), ("B", Val.int 0), ("C", Val.int 1)] ∧
      MarshalJSON "k" Kind.Int "Kind" aliasGroup (Val.int 0) = none) := by
  decide

/-- C2, as amended: for a group whose generated unit the compiler accepts (`unitAccepted`:
Integer or Text kind, pairwise distinct names and values, variables of the methods that
are distinct, not blank and hide nothing, no constant named like a variable or like an
identifier the file uses), the generated `MarshalJSON` of the value of a constant `c`
returns bytes and a nil error, and the generated `UnmarshalJSON` applied to these bytes
returns no error and assigns the value of `c`: for an Integer-kind group whose names are
ASCII for every constant `c`, for a Text-kind group for every constant `c` whose literal
value is spelled exactly like its declared name. -/
theorem Unmarshal_Marshal_roundtrip (kind : Kind) (eType goType receiver : String)
    (h : HelperNames) (cs : List Const) (hacc : unitAccepted receiver h kind cs = true)
    (hascii : kind = Kind.Int → ∀ d ∈ cs, ∀ ch ∈ d.name.toList, ch.toNat < 128)
    (c : Const) (hc : c ∈ cs) (hval : kind = Kind.String → c.val = Val.str c.name)
    (recv : Val) :
    ∃ b, MarshalJSON receiver kind eType cs c.val = some (b, none) ∧
      UnmarshalJSON goType receiver h.xVarName cs b recv
        = some { err := none, recv := c.val } := by
  obtain ⟨_, hk, _, hn, hv, _⟩ := unitAccepted_spec receiver h kind cs hacc
  have hknown := unitAccepted_known receiver h kind cs hacc
  have hr := unitAccepted_not_receiver receiver h kind cs hacc
  obtain ⟨hvars, huse, hloc⟩ := unitAccepted_unmarshal receiver h kind cs hacc
  have hun := Unmarshal_quoted goType receiver h.xVarName cs hknown hvars huse hn hloc c hc
    recv
  refine ⟨[34] ++ utf8Bytes c.name ++ [34], ?_, hun⟩
  rcases hk with hk | hk
  · subst hk
    rw [MarshalJSON_eq_quoted_String receiver Kind.Int eType cs
      (unitAccepted_receiver receiver h _ cs hacc _ (by decide)) (hascii rfl) c.val,
      String_defined receiver eType cs hknown
        (unitAccepted_receiver receiver h _ cs hacc _ (by decide)) hn hv hr c hc]
    rfl
  · subst hk
    have hu1 : usable ["make", "byte", "len", "append", "nil"] receiver = true :=
      unitAccepted_receiver receiver h _ cs hacc _ (by decide)
    have hu2 : usable ["byte"] receiver = true :=
      unitAccepted_receiver receiver h _ cs hacc _ (by decide)
    rw [hval rfl]
    simp only [MarshalJSON, hu1, if_true, Bytes, declsBuild_of_known cs hknown,
      generateBytesMethod, runBytes, hu2, Option.map_some', generateJsonMarshal,
      List.nil_append]

/-- C2, witness: the Integer-kind group `Kind1 = 0`, `Kind2 = 1` at `Kind2`, with receiver
`k` and parameter `x`. -/
theorem Unmarshal_Marshal_roundtrip_witness :
    ∃ b, MarshalJSON "k" Kind.Int "Kind" kindGroup kind2.val = some (b, none) ∧
      UnmarshalJSON "example.Kind" "k" "x" kindGroup b (Val.int 0)
        = some { err := none, recv := kind2.val } :=
  Unmarshal_Marshal_roundtrip Kind.Int "Kind" "example.Kind" "k" plainHelpers kindGroup
    (by decide) (by decide) kind2 (by decide) (fun h => by cases h) (Val.int 0)

/-- C3, counterexample: (1) in the group `A = 0`, `B = 0`, `C = 1` (distinct names) the
switch of `Next` has two equal case constants and is rejected by the compiler: there is no
`Next` to apply, and no number of applications leads from the value of `A` back to it;
(2) in the group `k = 0`, `other = 1` of type `Kind`, generated with the default receiver
`k`, the clause `case k:` compares the receiver with itself, so `Next` returns `other` on
every value: from `other` the sequence is back after one application, from `k` it is not
back after `count` applications. -/
theorem Next_cycle_alias_counterexample :
    ((aliasGroup.map (fun c => c.name)).Nodup ∧ aliasGroup.length = 3 ∧
      (aliasGroup[0]?).map (fun c => (c.name, c.val)) = some ("A", Val.int 0) ∧
      Next "k" aliasGroup (Val.int 0) = none ∧
      iterNext "k" aliasGroup aliasGroup.length (Val.int 0) ≠ some (Val.int 0)) ∧
    (shadowGroup.map (fun c => (c.name, c.val)) = [("k", Val.int 0), ("other", Val.int 1)] ∧
      iterNext "k" shadowGroup 1 (Val.int 1) = some (Val.int 1) ∧ 1 < shadowGroup.length ∧
      iterNext "k" shadowGroup shadowGroup.length (Val.int 0) ≠ some (Val.int 0)) := by
  decide

/-- C3, as amended: in a group whose generated unit the compiler accepts (`unitAccepted`:
Integer or Text kind, pairwise distinct names and values, variables of the methods that
are distinct, not blank and hide nothing, no constant named like a variable or like an
identifier the file uses), starting from the value of any constant `c`, `count`
applications of the generated `Next` lead back to `c`, no smaller positive number of
applications does, and the values visited on the way are the values of the constants of
the group, each once. -/
theorem Next_cycle_of_distinct (receiver : String) (h : HelperNames) (kind : Kind)
    (cs : List Const) (hacc : unitAccepted receiver h kind cs = true)
    (N : Nat) (c : Const) (hc : cs[N]? = some c) :
    iterNext receiver cs cs.length c.val = some c.val ∧
      (∀ k, 0 < k → k < cs.length → iterNext receiver cs k c.val ≠ some c.val) ∧
      ((List.range cs.length).map (fun k => iterNext receiver cs k c.val)).Perm
        (cs.map (fun d => some d.val)) := by
  obtain ⟨_, _, _, hn, hv, _⟩ := unitAccepted_spec receiver h kind cs hacc
  have hknown := unitAccepted_known receiver h kind cs hacc
  have hr := unitAccepted_not_receiver receiver h kind cs hacc
  have hrecv : usable [] receiver = true :=
    unitAccepted_receiver receiver h kind cs hacc [] (by decide)
  have hN : N < cs.length := by
    rcases Nat.lt_or_ge N cs.length with h | h
    · exact h
    · rw [List.getElem?_eq_none h] at hc; cases hc
  refine ⟨?_, ?_, ?_⟩
  · rw [iterNext_at receiver cs hknown hrecv hn hv hr _ N c hc, Nat.add_mod_right,
      Nat.mod_eq_of_lt hN, hc]
    rfl
  · intro k hk0 hk hret
    rw [iterNext_at receiver cs hknown hrecv hn hv hr _ N c hc] at hret
    have hlt : (N + k) % cs.length < cs.length := Nat.mod_lt _ (by omega)
    have hidx : (N + k) % cs.length = N := by
      refine List.getElem?_inj ?_ hv ?_
      · simpa using hlt
      · rw [List.getElem?_map, List.getElem?_map, hc]
        exact hret
    rcases Nat.lt_or_ge (N + k) cs.length with h | h
    · rw [Nat.mod_eq_of_lt h] at hidx; omega
    · rw [Nat.mod_eq_sub_mod h, Nat.mod_eq_of_lt (by omega)] at hidx; omega
  · have heq : (List.range cs.length).map (fun k => iterNext receiver cs k c.val)
        = (List.range cs.length).map
            (fun k => (cs[(N + k) % cs.length]?).map (fun d => d.val)) :=
      List.map_congr_left
        (fun k _ => iterNext_at receiver cs hknown hrecv hn hv hr k N c hc)
    rw [heq, visited_eq_rotate]
    exact (List.rotate_perm cs N).map _

/-- C3, witness: the group `Kind1 = 0`, `Kind2 = 1` with receiver `k`, started at `Kind2`. -/
theorem Next_cycle_of_distinct_witness :
    iterNext "k" kindGroup kindGroup.length (Val.int 1) = some (Val.int 1) ∧
      (∀ k, 0 < k → k < kindGroup.length →
        iterNext "k" kindGroup k (Val.int 1) ≠ some (Val.int 1)) ∧
      ((List.range kindGroup.length).map (fun k => iterNext "k" kindGroup k (Val.int 1))).Perm
        (kindGroup.map (fun d => some d.val)) :=
  Next_cycle_of_distinct "k" plainHelpers Kind.Int kindGroup (by decide) 1 kind2 (by decide)

/-- C4, the code at the failing input: the check emitted for the Text-kind constant
`Hello = "Hello"` consists of the five index expressions `byte(b) - Hello[i]`; after the
declaration was changed to `Hello = "Hello!"` each of them still evaluates to index 0 of
the one-element array, although the current value differs from the recorded one. -/
theorem compileCheck_misses_longer_text :
    compileCheckFor Kind.String hello =
        [IndexExpr.byteDiff 72 "Hello" 0, IndexExpr.byteDiff 101 "Hello" 1,
         IndexExpr.byteDiff 108 "Hello" 2, IndexExpr.byteDiff 108 "Hello" 3,
         IndexExpr.byteDiff 111 "Hello" 4] ∧
      constEnv driftedGroup "Hello" = some (Val.str "Hello!") ∧
      Val.str "Hello!" ≠ hello.val ∧
      (∀ e ∈ compileCheckFor Kind.String hello,
        e.eval "x" (constEnv driftedGroup) = some 0 ∧
          e.inBounds "x" (constEnv driftedGroup) = true) := by
  decide

/-- C5, the code at the failing input: with a variable on line 4 and a type on line 6 of the
anchor file and the anchor on line 3, the nearest declaration is the variable; when the
variable is enumerated before the type, `findTypeDecl` without a name returns the type of
line 6 instead of an error, and it returns the error when the order is the other one. -/
theorem findTypeDeclByPosition_returns_later_type :
    findTypeDecl sameName [some varOnLine4, some (Object.typeName typeOnLine6)] ""
        "example.go" 3 = Except.ok typeOnLine6 ∧
      findTypeDecl sameName [some (Object.typeName typeOnLine6), some varOnLine4] ""
        "example.go" 3 = Except.error (LocateError.notNamedType varOnLine4) := by
  decide

/-- C6, counterexample: the declarations `A StrKind = 0` (ill-typed, so of unknown kind)
and `Hello StrKind = "Hello"`, at distinct positions.  Enumerated with `A` first the
collector returns both constants with kind `String`; enumerated with `Hello` first it
panics. -/
theorem findConstantsOfType_order_counterexample :
    [some (Object.const illTyped), some (Object.const hello)].Perm
        [some (Object.const hello), some (Object.const illTyped)] ∧
      (([some (Object.const illTyped), some (Object.const hello)].filterMap
        (retained strKindType)).map (fun c => (c.pos.filename, c.pos.offset))).Nodup ∧
      findConstantsOfType [some (Object.const illTyped), some (Object.const hello)] strKindType
        = Except.ok ([illTyped, hello], Kind.String) ∧
      findConstantsOfType [some (Object.const hello), some (Object.const illTyped)] strKindType
        = Except.error "multiple constant kinds found" :=
  ⟨List.Perm.swap _ _ _, by decide, by decide, by decide⟩

/-- C6, as amended: for two enumerations of the same definitions (one a permutation of the
other) and a target type whose retained constants have pairwise distinct (file, offset)
positions and each a known kind, `findConstantsOfType` gives the same result: the same
constant sequence and kind, or the same failure. -/
theorem findConstantsOfType_order_independent (defs₁ defs₂ : Defs) (obj : TypeName)
    (hp : defs₁.Perm defs₂)
    (hd : ((defs₁.filterMap (retained obj)).map
      (fun c => (c.pos.filename, c.pos.offset))).Nodup)
    (hknown : ∀ c ∈ defs₁.filterMap (retained obj), c.val.kind ≠ Kind.Unknown) :
    findConstantsOfType defs₁ obj = findConstantsOfType defs₂ obj := by
  have hperm : (defs₁.filterMap (retained obj)).Perm (defs₂.filterMap (retained obj)) :=
    hp.filterMap _
  rw [findConstantsOfType_eq_known defs₁ obj hknown,
    findConstantsOfType_eq_known defs₂ obj (fun c hc => hknown c (hperm.symm.subset hc))]
  revert hd hperm
  cases defs₁.filterMap (retained obj) with
  | nil =>
    intro _ hperm
    rw [List.nil_perm.mp hperm]
  | cons c₁ r₁ =>
    cases defs₂.filterMap (retained obj) with
    | nil => intro _ hperm; exact absurd (List.perm_nil.mp hperm) (by simp)
    | cons c₂ r₂ =>
      intro hd hperm
      by_cases h₁ : r₁.all (fun d => d.val.kind == c₁.val.kind) = true
      · obtain ⟨hk, h₂⟩ := all_kind_of_perm c₁ c₂ r₁ r₂ hperm h₁
        dsimp only
        rw [if_pos h₁, if_pos h₂, hk, sortSlice_eq_of_perm _ _ hperm hd]
      · have h₂ : ¬ r₂.all (fun d => d.val.kind == c₂.val.kind) = true :=
          fun h₂ => h₁ (all_kind_of_perm c₂ c₁ r₂ r₁ hperm.symm h₂).2
        dsimp only
        rw [if_neg h₁, if_neg h₂]

/-- C6, witness: the definitions of `example/example.go` and the same definitions
enumerated in reverse, for the type `Kind`. -/
theorem findConstantsOfType_order_independent_witness :
    findConstantsOfType exampleDefs kindType = findConstantsOfType exampleDefs.reverse kindType ∧
      findConstantsOfType exampleDefs kindType = Except.ok ([kind1, kind2], Kind.Int) :=
  ⟨findConstantsOfType_order_independent exampleDefs exampleDefs.reverse kindType
    (List.reverse_perm _).symm (by decide) (by decide), by decide⟩

/-- C7, counterexample: the declarations `A StrKind = 0` and `Hello StrKind = "Hello"` mix
an integer literal and a text literal under one type; the first does not type-check and
is recorded with an unknown kind.  Enumerated with `A` first, the collector does not fail:
it returns the group of both constants with kind `String`. -/
theorem findConstantsOfType_mixed_counterexample :
    illTyped.val.kind ≠ hello.val.kind ∧
      findConstantsOfType [some (Object.const illTyped), some (Object.const hello)] strKindType
        = Except.ok ([illTyped, hello], Kind.String) := by
  decide

/-- C7, as amended: `findConstantsOfType` panics with "multiple constant kinds found"
exactly when, in the order of enumeration, a retained constant that comes after the first
retained constant of a known kind has another kind than that one (constants of unknown
kind enumerated before it are kept and fix no kind).  So it panics in every order when two
retained constants have different known kinds, and whenever it returns, the group holds
every constant of the target type that is not named `_`: none is dropped. -/
theorem findConstantsOfType_mixed_kinds (defs : Defs) (obj : TypeName) :
    (findConstantsOfType defs obj = Except.error "multiple constant kinds found" ↔
      ∃ c rs, (defs.filterMap (retained obj)).dropWhile
          (fun c => c.val.kind == Kind.Unknown) = c :: rs ∧
        ∃ d ∈ rs, d.val.kind ≠ c.val.kind) ∧
    (∀ a t, some (Object.const a) ∈ defs → some (Object.const t) ∈ defs →
      a.typ = GoType.named obj → t.typ = GoType.named obj → a.name ≠ "_" → t.name ≠ "_" →
      a.val.kind ≠ Kind.Unknown → t.val.kind ≠ Kind.Unknown → a.val.kind ≠ t.val.kind →
      ∀ defs', defs.Perm defs' →
        findConstantsOfType defs' obj = Except.error "multiple constant kinds found") ∧
    (∀ ret kind, findConstantsOfType defs obj = Except.ok (ret, kind) →
      ∀ c, some (Object.const c) ∈ defs → c.typ = GoType.named obj → c.name ≠ "_" →
        c ∈ ret) := by
  refine ⟨?_, ?_, ?_⟩
  · exact findConstantsOfType_error_iff defs obj
  · intro a t ha ht hat htt han htn hak htk hne defs' hp
    have ha' : a ∈ defs'.filterMap (retained obj) :=
      List.mem_filterMap.mpr ⟨_, hp.subset ha, retained_of_const obj a hat han⟩
    have ht' : t ∈ defs'.filterMap (retained obj) :=
      List.mem_filterMap.mpr ⟨_, hp.subset ht, retained_of_const obj t htt htn⟩
    have hda := mem_dropWhile_of_not (fun c : Const => c.val.kind == Kind.Unknown) _ a ha'
      (by simpa using hak)
    have hdt := mem_dropWhile_of_not (fun c : Const => c.val.kind == Kind.Unknown) _ t ht'
      (by simpa using htk)
    rw [findConstantsOfType_error_iff]
    revert hda hdt
    cases (defs'.filterMap (retained obj)).dropWhile
        (fun c => c.val.kind == Kind.Unknown) with
    | nil => intro hda _; cases hda
    | cons c rs =>
      intro hda hdt
      refine ⟨c, rs, rfl, ?_⟩
      by_contra hall
      have hkind : ∀ d ∈ c :: rs, d.val.kind = c.val.kind := by
        intro d hd
        rcases List.mem_cons.mp hd with h | h
        · rw [h]
        · by_contra hdk
          exact hall ⟨d, h, hdk⟩
      exact hne ((hkind a hda).trans (hkind t hdt).symm)
  · intro ret kind h c hc ht hname
    have hperm := (findConstantsOfType_ok defs obj ret kind h).1
    exact hperm.symm.subset
      (List.mem_filterMap.mpr ⟨_, hc, retained_of_const obj c ht hname⟩)

/-- C7, witness: with `Hello StrKind = "Hello"` enumerated before the ill-typed
`A StrKind = 0`, the constant `A` comes after the first constant of a known kind and has
another kind: the collector panics. -/
theorem findConstantsOfType_mixed_kinds_witness :
    findConstantsOfType [some (Object.const hello), some (Object.const illTyped)] strKindType
      = Except.error "multiple constant kinds found" :=
  (findConstantsOfType_mixed_kinds
    [some (Object.const hello), some (Object.const illTyped)] strKindType).1.mpr
    ⟨hello, [illTyped], by decide, illTyped, by decide, by decide⟩

/-- C8, counterexample: in the Integer-kind group `A = 0`, `B = 0`, `C = 1` the case list
of `Defined`, `case 0, 0, 1:`, holds two equal constants and is rejected by the compiler:
`Defined` returns nothing on the value 0 of a constant, nor on any other value. -/
theorem Defined_alias_counterexample :
    aliasGroup.map (fun c => (c.name, c.val))
        = [("A", Val.int 0), ("B", Val.int 0), ("C", Val.int 1)] ∧
      Defined "k" aliasGroup (Val.int 0) = none ∧
      Defined "k" aliasGroup (Val.int 7) = none := by
  decide

/-- C8, as amended: for a group whose generated unit the compiler accepts (`unitAccepted`:
Integer or Text kind, pairwise distinct names and values, variables of the methods that
are distinct, not blank and hide nothing, no constant named like a variable or like an
identifier the file uses), the generated `Defined` returns a result on every value `v` of
the underlying representation, and the result is true exactly when `v` is the literal
value of some constant of the group. -/
theorem Defined_iff_mem (receiver : String) (h : HelperNames) (kind : Kind)
    (cs : List Const) (hacc : unitAccepted receiver h kind cs = true) (v : Val) :
    ∃ b, Defined receiver cs v = some b ∧ (b = true ↔ ∃ c ∈ cs, c.val = v) := by
  obtain ⟨hne, _, _, _, hv, _⟩ := unitAccepted_spec receiver h kind cs hacc
  exact Defined_iff receiver cs hne
    (unitAccepted_receiver receiver h kind cs hacc _ (by decide))
    (unitAccepted_kinds receiver h kind cs hacc) hv v

/-- C8, witness: the group `Kind1 = 0`, `Kind2 = 1` with receiver `k`, on the value 1 of
`Kind2` and on the undefined value 7. -/
theorem Defined_iff_mem_witness :
    (∃ b, Defined "k" kindGroup (Val.int 1) = some b ∧
        (b = true ↔ ∃ c ∈ kindGroup, c.val = Val.int 1)) ∧
      Defined "k" kindGroup (Val.int 1) = some true ∧
      Defined "k" kindGroup (Val.int 7) = some false :=
  ⟨Defined_iff_mem "k" plainHelpers Kind.Int kindGroup (by decide) (Val.int 1),
    by decide, by decide⟩

/-- C9, counterexample: (1) in the group `A = 0`, `B = 0`, `C = 1` the switch of `Next` has
two equal case constants and is rejected by the compiler: applied to the value of the
constant at index 1 (`B`), `Next` does not return the constant at index 2 (`C`), nor
anything; (2) in the group `k = 0`, `other = 1` of type `Kind`, generated with the default
receiver `k`, `Next` applied to the value of the constant at index 1 (`other`) does not
return the constant at index 0, and applied to the undefined value 7 it does not return
the first constant. -/
theorem Next_successor_alias_counterexample :
    ((aliasGroup.map (fun c => c.name)).Nodup ∧
      (aliasGroup[1]?).map (fun c => c.val) = some (Val.int 0) ∧
      (aliasGroup[(1 + 1) % aliasGroup.length]?).map (fun c => c.val) = some (Val.int 1) ∧
      Next "k" aliasGroup (Val.int 0) = none) ∧
    (shadowGroup.map (fun c => (c.name, c.val)) = [("k", Val.int 0), ("other", Val.int 1)] ∧
      Next "k" shadowGroup (Val.int 1) = some (Val.int 1) ∧
      Next "k" shadowGroup (Val.int 7) = some (Val.int 1)) := by
  decide

/-- C9, as amended: in a group of `count ≥ 1` constants whose generated unit the compiler
accepts (`unitAccepted`: Integer or Text kind, pairwise distinct names and values,
variables of the methods that are distinct, not blank and hide nothing, no constant named
like a variable or like an identifier the file uses), the generated `Next` applied to the
value of the constant at index `N` returns the constant at index `(N + 1) % count`, and
applied to a value that no constant has it returns the first constant. -/
theorem Next_successor_of_distinct (receiver : String) (h : HelperNames) (kind : Kind)
    (cs : List Const) (hacc : unitAccepted receiver h kind cs = true) :
    (∀ (N : Nat) (c : Const), cs[N]? = some c →
        ∃ d, cs[(N + 1) % cs.length]? = some d ∧ Next receiver cs c.val = some d.val) ∧
      (∀ v : Val, (∀ d ∈ cs, d.val ≠ v) →
        ∃ f, cs[0]? = some f ∧ Next receiver cs v = some f.val) := by
  obtain ⟨hne, _, _, hn, hv, _⟩ := unitAccepted_spec receiver h kind cs hacc
  have hknown := unitAccepted_known receiver h kind cs hacc
  have hr := unitAccepted_not_receiver receiver h kind cs hacc
  have hrecv : usable [] receiver = true :=
    unitAccepted_receiver receiver h kind cs hacc [] (by decide)
  refine ⟨fun N c hc => Next_at receiver cs hknown hrecv hn hv hr N c hc, fun v hu => ?_⟩
  cases cs with
  | nil => exact absurd rfl hne
  | cons a t =>
    exact ⟨a, by simp, by rw [Next_undefined receiver _ hknown hrecv hn hv hr v hu]; rfl⟩

/-- C9, witness: the group `Kind1 = 0`, `Kind2 = 1` with receiver `k`. -/
theorem Next_successor_of_distinct_witness :
    (∀ (N : Nat) (c : Const), kindGroup[N]? = some c →
        ∃ d, kindGroup[(N + 1) % kindGroup.length]? = some d ∧
          Next "k" kindGroup c.val = some d.val) ∧
      (∀ v : Val, (∀ d ∈ kindGroup, d.val ≠ v) →
        ∃ f, kindGroup[0]? = some f ∧ Next "k" kindGroup v = some f.val) :=
  Next_successor_of_distinct "k" plainHelpers Kind.Int kindGroup (by decide)

/-- C10, counterexample: (1) in the Integer-kind group `A = 0`, `B = 0`, `C = 1` the switch
of `String()` has two equal case constants and is rejected by the compiler: applied to the
value of `B` it does not return the declared name `"B"`, nor anything; (2) in the group
`k = 0`, `other = 1` of type `Kind`, generated with the default receiver `k`, `String()`
applied to the value of `other` returns `"k"`, and so it does on the undefined value 7. -/
theorem String_alias_counterexample :
    ((aliasGroup.map (fun c => c.name)).Nodup ∧
      (aliasGroup[1]?).map (fun c => (c.name, c.val)) = some ("B", Val.int 0) ∧
      String_ "k" Kind.Int "Kind" aliasGroup (Val.int 0) = none) ∧
    (shadowGroup.map (fun c => (c.name, c.val)) = [("k", Val.int 0), ("other", Val.int 1)] ∧
      String_ "k" Kind.Int "Kind" shadowGroup (Val.int 1) = some "k" ∧
      String_ "k" Kind.Int "Kind" shadowGroup (Val.int 7) = some "k") := by
  decide

/-- C10, as amended: for an Integer-kind group whose generated unit the compiler accepts
(`unitAccepted`: pairwise distinct names and values, variables of the methods that are
distinct, not blank and hide nothing, no constant named like a variable or like an
identifier the file uses, names written in runes that fit a byte), the generated
`String()` applied to the value of a constant returns that constant's declared name;
applied to an integer that no constant has, it returns the type's name followed by the
decimal rendering of the integer in parentheses. -/
theorem String_of_integer_group (receiver eType : String) (h : HelperNames)
    (cs : List Const) (hacc : unitAccepted receiver h Kind.Int cs = true) :
    (∀ c ∈ cs, String_ receiver Kind.Int eType cs c.val = some c.name) ∧
      (∀ i : Int, (∀ c ∈ cs, c.val ≠ Val.int i) →
        String_ receiver Kind.Int eType cs (Val.int i)
          = some (eType ++ "(" ++ toString i ++ ")")) := by
  obtain ⟨_, _, _, hn, hv, _⟩ := unitAccepted_spec receiver h Kind.Int cs hacc
  have hknown := unitAccepted_known receiver h Kind.Int cs hacc
  have hr := unitAccepted_not_receiver receiver h Kind.Int cs hacc
  have hrecv : usable ["fmt"] receiver = true :=
    unitAccepted_receiver receiver h Kind.Int cs hacc _ (by decide)
  exact ⟨fun c hc => String_defined receiver eType cs hknown hrecv hn hv hr c hc,
    fun i hu => String_undefined receiver eType cs hknown hrecv hn hv hr i hu⟩

/-- C10, witness: the group `Kind1 = 0`, `Kind2 = 1` of type `Kind` with receiver `k`; the
undefined value `-1` renders as `"Kind(-1)"`. -/
theorem String_of_integer_group_witness :
    ((∀ c ∈ kindGroup, String_ "k" Kind.Int "Kind" kindGroup c.val = some c.name) ∧
      (∀ i : Int, (∀ c ∈ kindGroup, c.val ≠ Val.int i) →
        String_ "k" Kind.Int "Kind" kindGroup (Val.int i)
          = some ("Kind" ++ "(" ++ toString i ++ ")"))) ∧
      String_ "k" Kind.Int "Kind" kindGroup (Val.int (-1)) = some "Kind(-1)" :=
  ⟨String_of_integer_group "k" "Kind" plainHelpers kindGroup (by decide), by decide⟩

/-- C11, the code at the failing input: for the Integer-kind constant `É = 0` the generated
`String()` returns the name, whose UTF-8 bytes are `0xC3 0x89`, while the generated
`Bytes()` returns the single byte `0xC9`, the rune written as a byte; for the constant
`世 = 0` the byte literal of `Bytes()` holds a rune that is no byte and is rejected. -/
theorem Bytes_accent_name_differs_from_String :
    (String_ "k" Kind.Int "Kind" accentGroup (Val.int 0) = some "É" ∧
      utf8Bytes "É" = [195, 137] ∧
      Bytes "k" Kind.Int "Kind" accentGroup (Val.int 0) = some [201]) ∧
    (String_ "k" Kind.Int "Kind" wideGroup (Val.int 0) = some "世" ∧
      utf8Bytes "世" = [228, 184, 150] ∧
      Bytes "k" Kind.Int "Kind" wideGroup (Val.int 0) = none) := by
  decide

/-- C12, the code at the failing input: for the Text-kind group `Hello = "Hello"`,
`World = "World"` of `example/example.go` the loop of the doc comment starts at
`StrKind("")`, which is no defined value; `Next` leads from it to `Hello`, then to `World`
and back to `Hello`, and no positive number of applications leads back to `StrKind("")`. -/
theorem Next_loop_never_back_at_zero :
    Next "s" strKindGroup (Val.str "") = some (Val.str "Hello") ∧
      Next "s" strKindGroup (Val.str "Hello") = some (Val.str "World") ∧
      Next "s" strKindGroup (Val.str "World") = some (Val.str "Hello") ∧
      (∀ n, 0 < n → iterNext "s" strKindGroup n (Val.str "") ≠ some (Val.str "")) := by
  have h0 : Next "s" strKindGroup (Val.str "") = some (Val.str "Hello") := by decide
  have h1 : Next "s" strKindGroup (Val.str "Hello") = some (Val.str "World") := by decide
  have h2 : Next "s" strKindGroup (Val.str "World") = some (Val.str "Hello") := by decide
  refine ⟨h0, h1, h2, ?_⟩
  have hcycle : ∀ n,
      (iterNext "s" strKindGroup n (Val.str "Hello") = some (Val.str "Hello") ∨
        iterNext "s" strKindGroup n (Val.str "Hello") = some (Val.str "World")) ∧
      (iterNext "s" strKindGroup n (Val.str "World") = some (Val.str "Hello") ∨
        iterNext "s" strKindGroup n (Val.str "World") = some (Val.str "World")) := by
    intro n
    induction n with
    | zero => exact ⟨Or.inl rfl, Or.inr rfl⟩
    | succ n ih =>
      simp only [iterNext, h1, h2, Option.some_bind]
      exact ⟨ih.2, ih.1⟩
  intro n hn
  cases n with
  | zero => omega
  | succ n =>
    simp only [iterNext, h0, Option.some_bind]
    rcases (hcycle n).1 with h | h <;> rw [h] <;> decide

/-- C13: `safeIndent(want, not...)` returns `want` preceded by `k ≥ 0` underscores, where `k`
is the smallest number for which the candidate is neither a Go keyword nor an element of
`not`: the result is no keyword and no element of `not`, every candidate with fewer
underscores collides, and the result is `want` itself when `want` does not collide. -/
theorem safeIndent_result (want : String) (not : List String) :
    ∃ k, safeIndent want not = String.mk (List.replicate k '_') ++ want ∧
      isKeyword (safeIndent want not) = false ∧ safeIndent want not ∉ not ∧
      (∀ j, j < k →
        isKeyword (String.mk (List.replicate j '_') ++ want) = true ∨
          String.mk (List.replicate j '_') ++ want ∈ not) ∧
      (isKeyword want = false → want ∉ not → safeIndent want not = want) := by
  obtain ⟨k, hr, hk, hn, hj⟩ := safeIndentDepth_some not _ want _
    (safeIndentDepth_enough want not (keywords.length + not.length + 1) (by omega))
  refine ⟨k, hr, hk, hn, hj, ?_⟩
  intro h1 h2
  have h2' : not.contains want = false := by simpa using h2
  rw [safeIndent_unfold, if_neg (by rw [h1]; exact Bool.false_ne_true),
    if_neg (by rw [h2']; exact Bool.false_ne_true)]

/-- C14: the recursion of `safeIndent` terminates: a retry lengthens the candidate by one
character, and a run allowed more nested calls than there are keywords and used names
returns, with the result of `safeIndent`. -/
theorem safeIndent_terminates (want : String) (not : List String) (depth : Nat)
    (h : keywords.length + not.length < depth) :
    safeIndentDepth depth want not = some (safeIndent want not) ∧
      ("_" ++ want).length = want.length + 1 := by
  refine ⟨safeIndentDepth_enough want not depth h, ?_⟩
  rw [String.length_append]
  have : ("_" : String).length = 1 := rfl
  omega

/-- C14, witness: the keyword `type` requested while `_type` is in use. -/
theorem safeIndent_terminates_witness :
    keywords.length + ["_type"].length < 27 ∧
      (safeIndentDepth 27 "type" ["_type"] = some (safeIndent "type" ["_type"]) ∧
        ("_" ++ "type").length = "type".length + 1) ∧
      safeIndentDepth 27 "type" ["_type"] = some "__type" :=
  ⟨by decide, safeIndent_terminates "type" ["_type"] 27 (by decide), by decide⟩

/-- C15: for every receiver name, passed through `safeIndent` as `RunE` does, the receiver
and the six helper names computed in `generateEnumCode` are seven pairwise distinct
names, none of them a Go keyword; every helper name is its base name preceded by
underscores. -/
theorem helperNames_distinct (receiver : String) :
    [safeIndent receiver [],
      (helperNames (safeIndent receiver [])).tokenVarName,
      (helperNames (safeIndent receiver [])).stringVarName,
      (helperNames (safeIndent receiver [])).scanStateVarName,
      (helperNames (safeIndent receiver [])).verbVarName,
      (helperNames (safeIndent receiver [])).xVarName,
      (helperNames (safeIndent receiver [])).yVarName].Nodup ∧
    (∀ n ∈ [safeIndent receiver [],
      (helperNames (safeIndent receiver [])).tokenVarName,
      (helperNames (safeIndent receiver [])).stringVarName,
      (helperNames (safeIndent receiver [])).scanStateVarName,
      (helperNames (safeIndent receiver [])).verbVarName,
      (helperNames (safeIndent receiver [])).xVarName,
      (helperNames (safeIndent receiver [])).yVarName], isKeyword n = false) ∧
    (∃ k₁ k₂ k₃ k₄ k₅ k₆ : Nat,
      (helperNames (safeIndent receiver [])).tokenVarName
          = String.mk (List.replicate k₁ '_') ++ "token" ∧
        (helperNames (safeIndent receiver [])).stringVarName
          = String.mk (List.replicate k₂ '_') ++ "str" ∧
        (helperNames (safeIndent receiver [])).scanStateVarName
          = String.mk (List.replicate k₃ '_') ++ "scanState" ∧
        (helperNames (safeIndent receiver [])).verbVarName
          = String.mk (List.replicate k₄ '_') ++ "verb" ∧
        (helperNames (safeIndent receiver [])).xVarName
          = String.mk (List.replicate k₅ '_') ++ "x" ∧
        (helperNames (safeIndent receiver [])).yVarName
          = String.mk (List.replicate k₆ '_') ++ "y") := by
  have hr := (safeIndent_ok receiver []).1
  generalize safeIndent receiver [] = r at hr ⊢
  simp only [helperNames]
  have h1 := safeIndent_ok "token" [r]
  obtain ⟨k₁, e1⟩ := safeIndent_shape "token" [r]
  generalize safeIndent "token" [r] = t at h1 e1 ⊢
  have h2 := safeIndent_ok "str" [r, t]
  obtain ⟨k₂, e2⟩ := safeIndent_shape "str" [r, t]
  generalize safeIndent "str" [r, t] = s at h2 e2 ⊢
  have h3 := safeIndent_ok "scanState" [r, t, s]
  obtain ⟨k₃, e3⟩ := safeIndent_shape "scanState" [r, t, s]
  generalize safeIndent "scanState" [r, t, s] = ss at h3 e3 ⊢
  have h4 := safeIndent_ok "verb" [r, t, s, ss]
  obtain ⟨k₄, e4⟩ := safeIndent_shape "verb" [r, t, s, ss]
  generalize safeIndent "verb" [r, t, s, ss] = v at h4 e4 ⊢
  have h5 := safeIndent_ok "x" [r, t, s, ss, v]
  obtain ⟨k₅, e5⟩ := safeIndent_shape "x" [r, t, s, ss, v]
  generalize safeIndent "x" [r, t, s, ss, v] = x at h5 e5 ⊢
  have h6 := safeIndent_ok "y" [r, t, s, ss, v, x]
  obtain ⟨k₆, e6⟩ := safeIndent_shape "y" [r, t, s, ss, v, x]
  generalize safeIndent "y" [r, t, s, ss, v, x] = y at h6 e6 ⊢
  simp only [List.mem_cons, List.mem_singleton, List.not_mem_nil, or_false, not_or]
    at h1 h2 h3 h4 h5 h6
  refine ⟨?_, ?_, ⟨k₁, k₂, k₃, k₄, k₅, k₆, e1, e2, e3, e4, e5, e6⟩⟩
  · simp only [List.nodup_cons, List.mem_cons, List.mem_singleton, List.not_mem_nil,
      or_false, not_or, List.nodup_nil, and_true, not_false_eq_true]
    refine ⟨⟨?_, ?_, ?_, ?_, ?_, ?_⟩, ⟨?_, ?_, ?_, ?_, ?_⟩, ⟨?_, ?_, ?_, ?_⟩,
      ⟨?_, ?_, ?_⟩, ⟨?_, ?_⟩, ?_⟩
    · exact fun h => h1.2 h.symm
    · exact fun h => h2.2.1 h.symm
    · exact fun h => h3.2.1 h.symm
    · exact fun h => h4.2.1 h.symm
    · exact fun h => h5.2.1 h.symm
    · exact fun h => h6.2.1 h.symm
    · exact fun h => h2.2.2 h.symm
    · exact fun h => h3.2.2.1 h.symm
    · exact fun h => h4.2.2.1 h.symm
    · exact fun h => h5.2.2.1 h.symm
    · exact fun h => h6.2.2.1 h.symm
    · exact fun h => h3.2.2.2 h.symm
    · exact fun h => h4.2.2.2.1 h.symm
    · exact fun h => h5.2.2.2.1 h.symm
    · exact fun h => h6.2.2.2.1 h.symm
    · exact fun h => h4.2.2.2.2 h.symm
    · exact fun h => h5.2.2.2.2.1 h.symm
    · exact fun h => h6.2.2.2.2.1 h.symm
    · exact fun h => h5.2.2.2.2.2 h.symm
    · exact fun h => h6.2.2.2.2.2.1 h.symm
    · exact fun h => h6.2.2.2.2.2.2 h.symm
  · intro n hn
    simp only [List.mem_cons, List.mem_singleton, List.not_mem_nil, or_false] at hn
    rcases hn with h | h | h | h | h | h | h <;> rw [h]
    · exact hr
    · exact h1.1
    · exact h2.1
    · exact h3.1
    · exact h4.1
    · exact h5.1
    · exact h6.1

/-- C16: when `findConstantsOfType` does not fail, the returned sequence holds exactly the
constants whose declared named type is the target and whose name is not `_`, each as often
as it is enumerated (once, every object being enumerated once), and is sorted ascending
by file name and, within a file, by offset. -/
theorem findConstantsOfType_result (defs : Defs) (obj : TypeName) (ret : List Const)
    (kind : Kind) (h : findConstantsOfType defs obj = Except.ok (ret, kind)) :
    (∀ c, c ∈ ret ↔
      (some (Object.const c) ∈ defs ∧ c.typ = GoType.named obj ∧ c.name ≠ "_")) ∧
    (∀ c ∈ ret, ret.count c = defs.count (some (Object.const c))) ∧
    ret.Pairwise (fun a b =>
      a.pos.filename.toList < b.pos.filename.toList ∨
        (a.pos.filename = b.pos.filename ∧ a.pos.offset ≤ b.pos.offset)) := by
  obtain ⟨hperm, hsorted⟩ := findConstantsOfType_ok defs obj ret kind h
  have hmem : ∀ c, c ∈ ret ↔
      (some (Object.const c) ∈ defs ∧ c.typ = GoType.named obj ∧ c.name ≠ "_") := by
    intro c
    rw [hperm.mem_iff, List.mem_filterMap]
    constructor
    · rintro ⟨o, ho, hr⟩
      obtain ⟨rfl, ht, hname⟩ := (retained_eq_some_iff obj o c).mp hr
      exact ⟨ho, ht, hname⟩
    · rintro ⟨ho, ht, hname⟩
      exact ⟨_, ho, retained_of_const obj c ht hname⟩
  refine ⟨hmem, ?_, ?_⟩
  · intro c hc
    obtain ⟨_, ht, hname⟩ := (hmem c).mp hc
    rw [hperm.count_eq, count_filterMap_retained obj c ht hname]
  · refine List.Pairwise.imp ?_ hsorted
    intro a b hab
    rw [posLess_eq_false_iff, Prod.Lex.le_iff] at hab
    rcases hab with h1 | ⟨h1, h2⟩
    · exact Or.inl h1
    · exact Or.inr ⟨String.ext h1, h2⟩

/-- C16, witness: the definitions of `example/example.go` and the type `Kind`. -/
theorem findConstantsOfType_result_witness :
    (∀ c, c ∈ [kind1, kind2] ↔
      (some (Object.const c) ∈ exampleDefs ∧ c.typ = GoType.named kindType ∧
        c.name ≠ "_")) ∧
    (∀ c ∈ [kind1, kind2],
      [kind1, kind2].count c = exampleDefs.count (some (Object.const c))) ∧
    [kind1, kind2].Pairwise (fun a b =>
      a.pos.filename.toList < b.pos.filename.toList ∨
        (a.pos.filename = b.pos.filename ∧ a.pos.offset ≤ b.pos.offset)) :=
  findConstantsOfType_result exampleDefs kindType [kind1, kind2] Kind.Int (by decide)

/-- C17, the code at the failing input: a type declared on line 2147483648 of the anchor
file, the only definition at or after the anchor line 1, is not returned: the loop starts
with `closest = math.MaxInt32` and skips every line beyond it, so `findTypeDecl` without a
name fails; on line 2147483647 the same type is returned. -/
theorem findTypeDecl_misses_type_beyond_MaxInt32 :
    findTypeDecl sameName [some (Object.typeName typeOnFarLine)] "" "example.go" 1
        = Except.error LocateError.undetermined ∧
      findTypeDecl sameName [some (Object.typeName typeOnLastLine)] "" "example.go" 1
        = Except.ok typeOnLastLine := by
  decide

/-- C18, the code at the failing input: for the log levels `debug`, `info`, `warn`, `err`
of type `Level`, generated with receiver `l` and the helper names `scanState`, `verb`,
`token`, the clause `case "err": *l = err` of `Scan` assigns the error variable of the
method, not the constant: the method is ill-typed and rejected, so no error is returned
for an unknown token or a failed read. -/
theorem Scan_rejected_for_constant_named_err :
    (generateScanMethod "Level" "l" "scanState" "verb" "token" levelGroup).wellTyped
        (constEnv levelGroup) = false ∧
      runScan (constEnv levelGroup)
        (generateScanMethod "Level" "l" "scanState" "verb" "token" levelGroup)
        (Except.ok "fatal") (Val.int 0) = none ∧
      runScan (constEnv levelGroup)
        (generateScanMethod "Level" "l" "scanState" "verb" "token" levelGroup)
        (Except.error "unexpected EOF") (Val.int 0) = none := by
  decide

/-- C19, the code at the failing input: for the axes `x`, `y`, `z` of type `Axis`,
generated with receiver `a` and the helper name `x`, the clause `case "\"x\"": *a = x` of
`UnmarshalJSON` assigns the byte slice parameter, not the constant: the method is
ill-typed and rejected, so it neither decodes `"y"` nor returns an error on other bytes. -/
theorem Unmarshal_rejected_for_constant_named_x :
    (generateJsonUnmarshal "a" axisGroup "x").wellTyped (constEnv axisGroup) = false ∧
      UnmarshalJSON "axis.Axis" "a" "x" axisGroup [34, 121, 34] (Val.int 0) = none ∧
      UnmarshalJSON "axis.Axis" "a" "x" axisGroup [110, 117, 108, 108] (Val.int 0) = none := by
  decide

/-- C20, the code at the failing input: for the Integer-kind constant `É = 0` the generated
`String()` returns `"É"`, two bytes long, and the generated `MarshalJSON` returns a nil
error and the three bytes quote, `0xC9`, quote, not the four bytes of the quoted text. -/
theorem MarshalJSON_accent_name_not_quoted_String :
    String_ "k" Kind.Int "Kind" accentGroup (Val.int 0) = some "É" ∧
      [34] ++ utf8Bytes "É" ++ [34] = [34, 195, 137, 34] ∧
      MarshalJSON "k" Kind.Int "Kind" accentGroup (Val.int 0) = some ([34, 201, 34], none) ∧
      ([34, 201, 34] : List Nat).length ≠ (utf8Bytes "É").length + 2 := by
  decide

/-! ## Claims C21 to C24 -/

/-- C21: the collector returns an empty sequence exactly when no definition is a constant
of the target type other than the placeholder `_`; in that case `RunE`, having located the
type, returns the error that quotes the name of the type and does not reach
`generateEnumCode`, so no generated unit is produced. -/
theorem RunE_empty_enum (defs : Defs) (obj : TypeName) :
    ((∃ kind, findConstantsOfType defs obj = Except.ok ([], kind)) ↔
      ∀ c, some (Object.const c) ∈ defs → c.typ = GoType.named obj → c.name = "_") ∧
    ((∀ c, some (Object.const c) ∈ defs → c.typ = GoType.named obj → c.name = "_") →
      ∀ (sameFile : String → String → Bool) (isUpper : Char → Bool) (toLower : Char → Char)
        (typeName inputFileName : String) (line : Int) (receiverFlag : String),
        findTypeDecl sameFile defs typeName inputFileName line = Except.ok obj →
        RunE sameFile isUpper toLower defs typeName inputFileName line receiverFlag
          = Except.error
              (RunError.failed ("no constants of type " ++ fmtQ obj.name ++ " found"))) := by
  constructor
  · rw [findConstantsOfType_nil_iff, filterMap_retained_eq_nil_iff]
  · intro h sameFile isUpper toLower typeName inputFileName line receiverFlag hfind
    exact RunE_of_none_retained sameFile isUpper toLower defs typeName inputFileName line
      receiverFlag obj hfind ((filterMap_retained_eq_nil_iff defs obj).mpr h)

/-- C21, witness: a package with the type `Kind`, a placeholder `_` of that type and a
constant of another type; `RunE` for the type `Kind` ends with the error
`no constants of type "Kind" found`. -/
theorem RunE_empty_enum_witness :
    findConstantsOfType emptyEnumDefs kindType = Except.ok ([], Kind.Unknown) ∧
      findTypeDecl sameName emptyEnumDefs "Kind" "example.go" 5 = Except.ok kindType ∧
      RunE sameName Char.isUpper Char.toLower emptyEnumDefs "Kind" "example.go" 5 ""
        = Except.error (RunError.failed "no constants of type \"Kind\" found") :=
  ⟨by decide, by decide,
    (RunE_empty_enum emptyEnumDefs kindType).2
      ((RunE_empty_enum emptyEnumDefs kindType).1.mp ⟨Kind.Unknown, by decide⟩)
      sameName Char.isUpper Char.toLower "Kind" "example.go" 5 "" (by decide)⟩

/-- C22, the code at the failing inputs: for the axes `x`, `y`, `z` of type `Axis` the
default receiver is `a` and the helper name allocated for the byte slice parameter is `x`,
the name of a constant, so that inside `UnmarshalJSON` the identifier `x` denotes the
parameter and the method of the generated unit is ill-typed; for the constants `k`,
`other` of type `Kind` the default receiver is `k`, the name of a constant, so that inside
a method the identifier `k` denotes the receiver; an explicit receiver `other` is taken
as it is. -/
theorem helper_names_collide_with_constants :
    (chooseReceiver Char.isUpper Char.toLower "" axisType = "a" ∧
      (helperNames "a").xVarName = "x" ∧
      (∃ c ∈ axisGroup, c.name = (helperNames "a").xVarName) ∧
      constEnv axisGroup "x" = some (Val.int 0) ∧
      resolve (generateEnumCode axisType axisGroup Kind.Int "a").unmarshalMethod.locals
        (constEnv axisGroup) "x" = none ∧
      (generateEnumCode axisType axisGroup Kind.Int "a").unmarshalMethod.wellTyped
        (constEnv axisGroup) = false) ∧
    (chooseReceiver Char.isUpper Char.toLower "" kindType = "k" ∧
      (∃ c ∈ shadowGroup, c.name = "k") ∧
      constEnv shadowGroup "k" = some (Val.int 0) ∧
      resolve [("k", some (Val.int 1))] (constEnv shadowGroup) "k" = some (Val.int 1)) ∧
    (chooseReceiver Char.isUpper Char.toLower "other" kindType = "other" ∧
      ∃ c ∈ shadowGroup, c.name = "other") := by
  have hx : (helperNames "a").xVarName = "x" := helperNames_examples.2.2
  have hunit : (generateEnumCode axisType axisGroup Kind.Int "a").unmarshalMethod
      = generateJsonUnmarshal "a" axisGroup "x" := by
    simp only [generateEnumCode, hx]
  rw [hunit, hx]
  exact ⟨⟨chooseReceiver_examples.2.1, rfl, by decide, by decide, by decide, by decide⟩,
    ⟨chooseReceiver_examples.1, by decide, by decide, by decide⟩,
    ⟨chooseReceiver_examples.2.2, by decide⟩⟩

/-- C23, the code at the failing input: for the type `Kind` with the single constant
`k = 0` the default receiver is `k`; in the emitted `case k: return k` both identifiers
denote the receiver, so `Next` returns the undefined value 7 on the undefined value 7. -/
theorem Next_returns_undefined_value :
    chooseReceiver Char.isUpper Char.toLower "" kindType = "k" ∧
      Next "k" soloGroup (Val.int 7) = some (Val.int 7) ∧
      Defined "k" soloGroup (Val.int 7) = some false :=
  ⟨chooseReceiver_examples.1, by decide, by decide⟩

/-- C24, the code at the failing input: for the constants `k = 0`, `other = 1` of type
`Kind`, with distinct values and distinct names, the default receiver is `k`; the emitted
`case k:` compares the receiver with itself, so `String()` returns `"k"` on 0, on 1 and on
the undefined value 7, whose text is thereby the name of a constant. -/
theorem String_same_text_for_distinct_values :
    chooseReceiver Char.isUpper Char.toLower "" kindType = "k" ∧
      (shadowGroup.map (fun c => c.name)).Nodup ∧
      (shadowGroup.map (fun c => c.val)).Nodup ∧
      (∀ d ∈ shadowGroup, '(' ∉ d.name.toList) ∧
      String_ "k" Kind.Int "Kind" shadowGroup (Val.int 0) = some "k" ∧
      String_ "k" Kind.Int "Kind" shadowGroup (Val.int 1) = some "k" ∧
      String_ "k" Kind.Int "Kind" shadowGroup (Val.int 7) = some "k" ∧
      Defined "k" shadowGroup (Val.int 7) = some false :=
  ⟨chooseReceiver_examples.1, by decide, by decide, by decide, by decide, by decide,
    by decide, by decide⟩
end GoEnumerator
